import Mathlib

/-!
# Focus stacking core of focuspocus: a shallow embedding

The definitions below follow `src/src/imageprocessing.cpp`.

Modelling conventions.

* A `cv::Mat` is a record of its `rows`, its `cols` and a total pixel function.
  `Mat::at` is unchecked, as in the library's release builds: the model reads the
  pixel function at the requested position.  The theorems only look at positions
  inside the raster.
* `double` and `float` values are rationals, `uchar` is `Fin 256` (a narrowing
  store is an explicit `% 256`), `int` is `Int`.  The arithmetic that the source
  itself performs on floating-point values is rounded after every operation:
  `fl64` rounds to binary64 and `fl32` to binary32 (round to nearest, ties to
  even, no contraction into fused operations).  Overflow and NaN are not
  modelled: the values of the pipeline stay far inside the finite range.
* An out-of-range `std::vector::operator[]` is undefined behaviour in the source;
  the model returns `none` there, and `none` propagates to the caller.
* Library calls whose result the repository does not determine (colour conversion,
  the Laplacian, the bilateral filter, feature detection, matching, warping) are
  the fields of `CvOps`.  `cv::boxFilter`, `cv::pow`, `Mat::zeros`, `convertTo`
  and `copyTo` are modelled from the library documentation.  The local variance
  has two forms: `compute_local_variance` is the value of the source expression
  in exact arithmetic, `compute_local_variance64` is its evaluation in binary64,
  which is the one the depth map is built from.
* Signals are not part of the value functions; `focus_stack` returns the image
  carried by `focusStackingComplete`, or `none` when the run does not reach it.
-/

namespace ImageProcessing

/-- An 8-bit unsigned value. -/
abbrev uchar := Fin 256

/-- Three 8-bit channels, `cv::Vec3b`. -/
abbrev Vec3b := Fin 3 → uchar

/-- Raster with a row count, a column count and a pixel function (`cv::Mat`). -/
structure Mat (α : Type) where
  rows : Nat
  cols : Nat
  data : Nat → Nat → α

/-- Colour image, `CV_8UC3`. -/
abbrev Image := Mat Vec3b

/-- Unchecked pixel read, `m.at<T>(r, c)`. -/
def Mat.atRC {α : Type} (m : Mat α) (r c : Nat) : α := m.data r c

/-- Unchecked pixel write, `m.at<T>(r, c) = v`. -/
def Mat.set {α : Type} (m : Mat α) (r c : Nat) (v : α) : Mat α :=
  { m with data := fun i j => if i = r ∧ j = c then v else m.data i j }

/-- All-zero raster, `cv::Mat::zeros(rows, cols, type)`. -/
def Mat.zeros {α : Type} [Zero α] (rows cols : Nat) : Mat α :=
  { rows := rows, cols := cols, data := fun _ _ => 0 }

/-- Default constructed raster, `cv::Mat()`: no rows and no columns. -/
def Mat.empty {α : Type} [Zero α] : Mat α :=
  { rows := 0, cols := 0, data := fun _ _ => 0 }

/-- Element-wise conversion, `src.convertTo(dst, type)`. -/
def Mat.convertTo {α β : Type} (m : Mat α) (f : α → β) : Mat β :=
  { rows := m.rows, cols := m.cols, data := fun r c => f (m.data r c) }

/-- Counting loop `for (int i = 0; i < n; i++) body`, threading the state. -/
def forRange {σ : Type} (n : Nat) (body : Nat → σ → σ) (s : σ) : σ :=
  (List.range n).foldl (fun st i => body i st) s

/-- Counting loop whose body may hit undefined behaviour (`none`). -/
def forRangeM {σ : Type} (n : Nat) (body : Nat → σ → Option σ) (s : σ) : Option σ :=
  (List.range n).foldlM (fun st i => body i st) s

/-- Narrowing store of an `int` into a `uchar`, `static_cast<uchar>(layer)`. -/
def static_cast_uchar (layer : Nat) : uchar :=
  ⟨layer % 256, Nat.mod_lt _ (by decide)⟩

/-- Nearest integer of a rational, a tie going to the even neighbour. -/
def roundHalfEven (q : ℚ) : Int :=
  if q - ⌊q⌋ < 1 / 2 then ⌊q⌋
  else if 1 / 2 < q - ⌊q⌋ then ⌊q⌋ + 1
  else if ⌊q⌋ % 2 = 0 then ⌊q⌋ else ⌊q⌋ + 1

/-- Rounding of a value to the binary floating-point format with `precision`
significand bits and least normal exponent `emin`: round to nearest, ties to
even, with gradual underflow. Overflow is not modelled. -/
def roundToFormat (precision : Nat) (emin : Int) (x : ℚ) : ℚ :=
  let e := max (Int.log 2 |x|) emin
  let quantum : ℚ := 2 ^ (e - (precision : Int) + 1)
  (roundHalfEven (x / quantum) : ℚ) * quantum

/-- Rounding to `float` (binary32). -/
def fl32 (x : ℚ) : ℚ := roundToFormat 24 (-126) x

/-- Rounding to `double` (binary64). -/
def fl64 (x : ℚ) : ℚ := roundToFormat 53 (-1022) x

/-- Index of the source sample for position `p` of an axis of length `len` under
`BORDER_REFLECT_101` (the default border of `cv::boxFilter`), in closed form:
the axis is mirrored around its end samples with period `2 * (len - 1)`. -/
def borderInterpolate (p : Int) (len : Nat) : Nat :=
  if len ≤ 1 then 0
  else
    let period : Int := 2 * ((len : Int) - 1)
    let q := p % period
    if q < (len : Int) then q.toNat else (period - q).toNat

/-- Samples of the `ksize × ksize` window of `cv::boxFilter` around `(r, c)`,
anchored at the kernel centre `ksize / 2`. -/
def windowSamples (src : Mat ℚ) (ksize : Int) (r c : Nat) : List ℚ :=
  (List.range ksize.toNat).flatMap fun (i : Nat) =>
    (List.range ksize.toNat).map fun (j : Nat) =>
      src.atRC (borderInterpolate ((r : Int) + (i : Int) - ksize / 2) src.rows)
        (borderInterpolate ((c : Int) + (j : Int) - ksize / 2) src.cols)

/-- Normalised box filter, `cv::boxFilter(src, dst, CV_64F, cv::Size(ksize, ksize))`:
the window sum divided by `ksize * ksize`. -/
def boxFilter (src : Mat ℚ) (ksize : Int) : Mat ℚ :=
  { rows := src.rows, cols := src.cols,
    data := fun r c => (windowSamples src ksize r c).sum / ((ksize : ℚ) * (ksize : ℚ)) }

/-- Element-wise power, `cv::pow(src, 2, dst)`. -/
def pow2 (src : Mat ℚ) : Mat ℚ :=
  src.convertTo fun x => x ^ 2

/-- Local variance of `laplacian` in exact arithmetic: the value of
`meanSquare - mean.mul(mean)` before any rounding. -/
def compute_local_variance (laplacian : Mat ℚ) (windowSize : Int) : Mat ℚ :=
  let laplacianSquared := pow2 laplacian
  let mean := boxFilter laplacian windowSize
  let meanSquare := boxFilter laplacianSquared windowSize
  { rows := meanSquare.rows, cols := meanSquare.cols,
    data := fun r c => meanSquare.data r c - mean.data r c * mean.data r c }

/-- Box filter as `cv::boxFilter` evaluates it on a `CV_64F` raster: the window
sum is multiplied by the scale `1. / (ksize * ksize)`, and the division and the
product are rounded to binary64. The running sums of the filter are taken as
exact, which they are for the integer values that `cv::Laplacian` returns on an
8-bit image. -/
def boxFilter64 (src : Mat ℚ) (ksize : Int) : Mat ℚ :=
  { rows := src.rows, cols := src.cols,
    data := fun r c =>
      fl64 ((windowSamples src ksize r c).sum * fl64 (1 / ((ksize : ℚ) * (ksize : ℚ)))) }

/-- Element-wise square in binary64, `cv::pow(src, 2, dst)`. -/
def pow2_64 (src : Mat ℚ) : Mat ℚ :=
  src.convertTo fun x => fl64 (x * x)

/-- Local variance of `laplacian` as `ImageProcessing::compute_local_variance`
evaluates it, in binary64: the product `mean.mul(mean)` and the difference
`meanSquare - mean.mul(mean)` are each rounded. -/
def compute_local_variance64 (laplacian : Mat ℚ) (windowSize : Int) : Mat ℚ :=
  let laplacianSquared := pow2_64 laplacian
  let mean := boxFilter64 laplacian windowSize
  let meanSquare := boxFilter64 laplacianSquared windowSize
  { rows := meanSquare.rows, cols := meanSquare.cols,
    data := fun r c => fl64 (meanSquare.data r c - fl64 (mean.data r c * mean.data r c)) }

/-- Result of `cv::DMatch`: the two descriptor indices and the match distance. -/
structure DMatch where
  queryIdx : Nat
  trainIdx : Nat
  distance : ℚ

/-- Library operations of OpenCV that the pipeline calls and does not define. -/
structure CvOps where
  /-- Colour to grey, `cv::cvtColor(image, gray, cv::COLOR_BGR2GRAY)`. -/
  cvtColor : Image → Mat uchar
  /-- Discrete Laplacian of aperture 5 with 64-bit float output, `cv::Laplacian`. -/
  Laplacian : Mat uchar → Mat ℚ
  /-- Bilateral filter with diameter, colour sigma and space sigma. -/
  bilateralFilter : Mat ℚ → Int → Int → Int → Mat ℚ
  /-- Histogram equalisation, `cv::equalizeHist`. -/
  equalizeHist : Mat uchar → Mat uchar
  /-- Key point positions and descriptors, `detector->detectAndCompute`. -/
  detectAndCompute : Mat uchar → List (ℚ × ℚ) × Mat ℚ
  /-- Two nearest neighbours per query descriptor, `matcher.knnMatch(.., 2)`. -/
  knnMatch : Mat ℚ → Mat ℚ → List (List DMatch)
  /-- Robust 2×3 transform estimate, `cv::estimateAffinePartial2D`. -/
  estimateAffinePartial2D : List (ℚ × ℚ) → List (ℚ × ℚ) → Mat ℚ
  /-- Warp of an image into a raster of the given size, `warpAffine`. -/
  warpAffine : Image → Mat ℚ → Nat → Nat → Image

/-- Threshold of the ratio test, `ratioThresh = 0.75f`. -/
def ratioThresh : ℚ := 3 / 4

/-- Ratio test of `align_images`: the loop over `knnMatches` that pushes
`knnMatch[0]` when there are two candidates and the first is distinctly closer.
The product `ratioThresh * knnMatch[1].distance` is a `float` product, rounded
to binary32. -/
def goodMatchesOf (knnMatches : List (List DMatch)) : List DMatch :=
  knnMatches.foldl
    (fun goodMatches knnMatch =>
      match knnMatch with
      | m0 :: m1 :: _ =>
          if m0.distance < fl32 (ratioThresh * m1.distance) then goodMatches ++ [m0]
          else goodMatches
      | _ => goodMatches)
    []

/-- Body of the layer loop of `align_images` for one non-reference image:
the output list with the warped image pushed, or unchanged when the layer is
skipped for lack of point pairs. -/
def alignStep (ops : CvOps) (image0 : Image) (baseKeypoints : List (ℚ × ℚ))
    (baseDescriptors : Mat ℚ) (outImages : List Image) (image : Image) :
    Option (List Image) :=
  let gray := ops.equalizeHist (ops.cvtColor image)
  let detected := ops.detectAndCompute gray
  let keypoints := detected.1
  let descriptors := detected.2
  let knnMatches := ops.knnMatch baseDescriptors descriptors
  let goodMatches := goodMatchesOf knnMatches
  (goodMatches.mapM fun m => baseKeypoints[m.queryIdx]?).bind fun pointsRef =>
  (goodMatches.mapM fun m => keypoints[m.trainIdx]?).bind fun pointsCur =>
  if pointsCur.length < 4 ∨ pointsRef.length < 4 then
    some outImages
  else
    let H := ops.estimateAffinePartial2D pointsCur pointsRef
    let aligned := ops.warpAffine image H image0.rows image0.cols
    some (outImages ++ [aligned])

/-- Alignment of a stack onto its first image, `ImageProcessing::align_images`:
an empty input gives an empty output; otherwise the output starts with
`images[0]` and the loop visits the images from index 1 on. -/
def align_images (ops : CvOps) (images : List Image) : Option (List Image) :=
  match images with
  | [] => some []
  | image0 :: rest =>
      let baseGray := ops.equalizeHist (ops.cvtColor image0)
      let detected := ops.detectAndCompute baseGray
      rest.foldlM (alignStep ops image0 detected.1 detected.2) [image0]

/-- Sharpness map of one layer: grey conversion, Laplacian, local variance in
binary64 (the first half of the layer loop body of `compute_depth_map`). -/
def sharpnessOf (ops : CvOps) (laplaceKernelSize : Int) (image : Image) : Mat ℚ :=
  let gray := ops.cvtColor image
  let laplacian := ops.Laplacian gray
  compute_local_variance64 laplacian laplaceKernelSize

/-- Pixel loop of `compute_depth_map` for one layer: where the sharpness is at
least the running maximum, store it and store the layer index as a `uchar`. -/
def depthPixelLoop (rows cols layer : Nat) (sharpness : Mat ℚ)
    (st : Mat ℚ × Mat uchar) : Mat ℚ × Mat uchar :=
  forRange rows (fun r st =>
    forRange cols (fun c st =>
      let sharpnessValue := sharpness.atRC r c
      if sharpnessValue ≥ st.1.atRC r c then
        (st.1.set r c sharpnessValue, st.2.set r c (static_cast_uchar layer))
      else st) st) st

/-- Layer loop of `compute_depth_map`, from layer index `layer` on, over the
remaining images; the state is `(sharpnessMax, depthMap)`. -/
def depthLayerLoop (ops : CvOps) (rows cols : Nat) (laplaceKernelSize : Int) :
    Nat → List Image → Mat ℚ × Mat uchar → Mat ℚ × Mat uchar
  | _, [], st => st
  | layer, image :: rest, st =>
      depthLayerLoop ops rows cols laplaceKernelSize (layer + 1) rest
        (depthPixelLoop rows cols layer (sharpnessOf ops laplaceKernelSize image) st)

/-- Raw depth map: `compute_depth_map` up to the end of its layer loop.
Reading `images[0]` of an empty vector is undefined. -/
def raw_depth_map (ops : CvOps) (images : List Image) (laplaceKernelSize : Int) :
    Option (Mat uchar) :=
  match images with
  | [] => none
  | image0 :: _ =>
      let rows := image0.rows
      let cols := image0.cols
      let depthMap : Mat uchar := Mat.zeros rows cols
      let sharpnessMax : Mat ℚ := Mat.zeros rows cols
      some (depthLayerLoop ops rows cols laplaceKernelSize 0 images (sharpnessMax, depthMap)).2

/-- Smoothing loop of `compute_depth_map`; the state is `(depthMap, depthMapSmoothed)`. -/
def smoothLoop (ops : CvOps) (smoothKernelSize smoothStrength smoothIterations : Int)
    (st : Mat ℚ × Mat ℚ) : Mat ℚ × Mat ℚ :=
  forRange smoothIterations.toNat (fun _ st =>
    let depthMapSmoothed := ops.bilateralFilter st.1 smoothKernelSize smoothStrength smoothStrength
    (depthMapSmoothed, depthMapSmoothed)) st

/-- Depth map of a stack, `ImageProcessing::compute_depth_map`: the raw map is
converted to float in `depthMap`, `depthMapSmoothed` is default constructed, the
smoothing loop runs `smoothIterations` times, and `depthMapSmoothed` is returned. -/
def compute_depth_map (ops : CvOps) (images : List Image)
    (laplaceKernelSize smoothKernelSize smoothStrength smoothIterations : Int) :
    Option (Mat ℚ) :=
  (raw_depth_map ops images laplaceKernelSize).map fun raw =>
    let depthMap : Mat ℚ := raw.convertTo fun v => (v.val : ℚ)
    let depthMapSmoothed : Mat ℚ := Mat.empty
    (smoothLoop ops smoothKernelSize smoothStrength smoothIterations
      (depthMap, depthMapSmoothed)).2

/-- Value of `std::clamp(v, lo, hi)`. -/
def clamp (v lo hi : Int) : Int :=
  if v < lo then lo else if hi < v then hi else v

/-- Value of `std::round`: nearest integer, halves away from zero. -/
def round (x : ℚ) : Int :=
  if 0 ≤ x then ⌊x + 1 / 2⌋ else ⌈x - 1 / 2⌉

/-- Conversion of a float to `uchar`, `static_cast<uchar>(x)`: the fractional
part is discarded; the integer part is stored in 8 bits. -/
def static_cast_uchar_float (x : ℚ) : uchar :=
  ⟨((if 0 ≤ x then ⌊x⌋ else ⌈x⌉) % 256).toNat % 256, Nat.mod_lt _ (by decide)⟩

/-- Interpolated channel value before the store,
`(1.0f - weight) * lowerPixel[i] + weight * upperPixel[i]`, evaluated in `float`:
the difference, the two products and the sum are each rounded to binary32. -/
def blendValue (weight : ℚ) (lower upper : uchar) : ℚ :=
  fl32 (fl32 (fl32 (1 - weight) * (lower.val : ℚ)) + fl32 (weight * (upper.val : ℚ)))

/-- Element `images[i]` of the layer vector for an `int` index; `none` outside
the vector. -/
def layerAt (images : List Image) (i : Int) : Option Image :=
  if 0 ≤ i then images[i.toNat]? else none

/-- Pixel that the body of the pixel loop of `create_composite_image_from_depth_map`
writes at `(r, c)` for the depth value found there. The results of `std::floor`,
`std::ceil` and `std::round` are taken as integers without a 32-bit bound. The
weight `depthValue - lowerLayer` is a `float` difference: the index is converted
to `float` and the difference is rounded to binary32. -/
def compositePixel (images : List Image) (depthValue : ℚ) (r c : Nat)
    (blendLayers : Bool) : Option Vec3b :=
  let numImages : Int := images.length
  if blendLayers then
    let lowerLayer := clamp ⌊depthValue⌋ 0 (numImages - 1)
    let upperLayer := clamp ⌈depthValue⌉ 0 (numImages - 1)
    let weight : ℚ := fl32 (depthValue - fl32 (lowerLayer : ℚ))
    (layerAt images lowerLayer).bind fun lowerImage =>
    (layerAt images upperLayer).bind fun upperImage =>
      let lowerPixel := lowerImage.atRC r c
      let upperPixel := upperImage.atRC r c
      some fun i => static_cast_uchar_float (blendValue weight (lowerPixel i) (upperPixel i))
  else
    let layer := round depthValue
    (layerAt images layer).map fun image => image.atRC r c

/-- Composite of a stack under a depth map,
`ImageProcessing::create_composite_image_from_depth_map`. The composite starts as
the all-zero raster of the size of `images[0]`, and the pixel loop runs over the
rows and columns of the depth map. The diagnostic print of the depth maximum is
left out. -/
def create_composite_image_from_depth_map (images : List Image) (depthMap : Mat ℚ)
    (blendLayers : Bool) : Option Image :=
  match images with
  | [] => none
  | image0 :: _ =>
      let composite : Image := Mat.zeros image0.rows image0.cols
      forRangeM depthMap.rows (fun r composite =>
        forRangeM depthMap.cols (fun c composite =>
          let depthValue := depthMap.atRC r c
          (compositePixel images depthValue r c blendLayers).map fun pixel =>
            composite.set r c pixel) composite) composite

/-- Whole run, `ImageProcessing::focus_stack`: alignment, depth map, composite,
with no test between the steps. The result is the image handed to
`focusStackingComplete`. -/
def focus_stack (ops : CvOps) (unalignedImages : List Image)
    (laplaceKernelSize smoothKernelSize smoothStrength smoothIterations : Int)
    (blendLayers : Bool) : Option Image :=
  (align_images ops unalignedImages).bind fun images =>
  (compute_depth_map ops images laplaceKernelSize smoothKernelSize smoothStrength
      smoothIterations).bind fun depthMap =>
  create_composite_image_from_depth_map images depthMap blendLayers

/-- One visit of a pixel by the layer loop, seen at that pixel alone: the pair
`(sharpnessMax, depthMap)` at the pixel after the comparison with the sharpness `s`
of layer `layer`. -/
def pixStep (layer : Nat) (s : ℚ) (st : ℚ × uchar) : ℚ × uchar :=
  if s ≥ st.1 then (s, static_cast_uchar layer) else st

/-- The layer loop seen at one pixel: the sharpness values of the remaining
layers at that pixel are visited in order, starting with index `layer`. -/
def pixFold : Nat → List ℚ → ℚ × uchar → ℚ × uchar
  | _, [], st => st
  | layer, s :: rest, st => pixFold (layer + 1) rest (pixStep layer s st)

/-- A stack whose layers all have the rows and columns of every other layer. -/
def equallySized (images : List Image) : Prop :=
  ∀ a ∈ images, ∀ b ∈ images, a.rows = b.rows ∧ a.cols = b.cols

/-- Grey pixel of value `v` in all three channels. -/
def greyPixel (v : Nat) : Vec3b := fun _ => static_cast_uchar v

/-- Sample image of one row and two columns with grey values `v0` and `v1`. -/
def rowImage (v0 v1 : Nat) : Image :=
  { rows := 1, cols := 2, data := fun _ c => if c = 0 then greyPixel v0 else greyPixel v1 }

/-- Sample library operations for evaluating the model on concrete stacks: grey is
the first channel, the Laplacian response is the grey value, the bilateral
filter and the histogram equalisation return their input, and the feature
detector finds nothing. -/
def sampleOps : CvOps where
  cvtColor := fun image => image.convertTo fun pixel => pixel 0
  Laplacian := fun gray => gray.convertTo fun v => (v.val : ℚ)
  bilateralFilter := fun src _ _ _ => src
  equalizeHist := fun gray => gray
  detectAndCompute := fun _ => ([], Mat.empty)
  knnMatch := fun _ _ => []
  estimateAffinePartial2D := fun _ _ => Mat.empty
  warpAffine := fun image _ _ _ => image

/-- Sample stack of 257 identical layers. -/
def flat257 : List Image :=
  List.replicate 257 (rowImage 0 0)

/-- Depth map of the given size holding the value `v` at every position. -/
def constDepth (rows cols : Nat) (v : ℚ) : Mat ℚ :=
  { rows := rows, cols := cols, data := fun _ _ => v }

/-- Test of one result of the 2-nearest-neighbour search,
`knnMatch.size() >= 2 && knnMatch[0].distance < ratioThresh * knnMatch[1].distance`. -/
def passesRatioTest (knnMatch : List DMatch) : Bool :=
  match knnMatch[0]?, knnMatch[1]? with
  | some best, some second => decide (best.distance < fl32 (ratioThresh * second.distance))
  | _, _ => false

/-- Layer indices with which the body of the pixel loop of
`create_composite_image_from_depth_map` indexes `images` for one depth value:
`lowerLayer` and `upperLayer` when blending, `layer` otherwise. -/
def usedLayerIndices (numImages : Int) (depthValue : ℚ) (blendLayers : Bool) : List Int :=
  if blendLayers then
    [clamp ⌊depthValue⌋ 0 (numImages - 1), clamp ⌈depthValue⌉ 0 (numImages - 1)]
  else
    [round depthValue]

/-- Signals of `ImageProcessing`. The preview raster of `renderImage` is not part
of the model; its `grayscale` flag is. -/
inductive Signal where
  | progress (label : String) (value : Int) (max : Int)
  | renderImage (grayscale : Bool)
  | focusStackingComplete (result : Image)

/-- Whether a signal is `focusStackingComplete`. -/
def Signal.isComplete : Signal → Bool
  | Signal.focusStackingComplete _ => true
  | _ => false

/-- The `(value, max)` pairs of the `progress` signals with the given label, in
the order of emission. -/
def progressOf (label : String) (signals : List Signal) : List (Int × Int) :=
  signals.filterMap fun s =>
    match s with
    | Signal.progress l value max => if l = label then some (value, max) else none
    | _ => none

/-- Key points and descriptors of the base image, computed before the loop of
`align_images`. -/
def baseFeatures (ops : CvOps) (image0 : Image) : List (ℚ × ℚ) × Mat ℚ :=
  let baseGray := ops.equalizeHist (ops.cvtColor image0)
  ops.detectAndCompute baseGray

/-- Key points and descriptors of a non-reference image, computed in the loop of
`align_images`. -/
def layerFeatures (ops : CvOps) (image : Image) : List (ℚ × ℚ) × Mat ℚ :=
  let gray := ops.equalizeHist (ops.cvtColor image)
  ops.detectAndCompute gray

/-- The matches of a non-reference image that pass the ratio test (`goodMatches`). -/
def acceptedMatches (ops : CvOps) (image0 image : Image) : List DMatch :=
  goodMatchesOf (ops.knnMatch (baseFeatures ops image0).2 (layerFeatures ops image).2)

/-- Outcome of the body of the layer loop of `align_images` for one image:
`some none` when the loop continues without a warp, `some (some aligned)` when
the warped image is pushed, `none` when a key point index is outside its vector. -/
def alignLayer (ops : CvOps) (image0 : Image) (baseKeypoints : List (ℚ × ℚ))
    (baseDescriptors : Mat ℚ) (image : Image) : Option (Option Image) :=
  let gray := ops.equalizeHist (ops.cvtColor image)
  let detected := ops.detectAndCompute gray
  let keypoints := detected.1
  let descriptors := detected.2
  let knnMatches := ops.knnMatch baseDescriptors descriptors
  let goodMatches := goodMatchesOf knnMatches
  (goodMatches.mapM fun m => baseKeypoints[m.queryIdx]?).bind fun pointsRef =>
  (goodMatches.mapM fun m => keypoints[m.trainIdx]?).bind fun pointsCur =>
  if pointsCur.length < 4 ∨ pointsRef.length < 4 then
    some none
  else
    let H := ops.estimateAffinePartial2D pointsCur pointsRef
    let aligned := ops.warpAffine image H image0.rows image0.cols
    some (some aligned)

/-- Layer loop of `align_images` with its signals, from loop index `i` on; the
state is `(outImages, signals emitted so far)`. A skipped layer leaves the loop
body at `continue`, before the two `emit` statements. -/
def alignRunLoop (ops : CvOps) (image0 : Image) (baseKeypoints : List (ℚ × ℚ))
    (baseDescriptors : Mat ℚ) (total : Int) :
    Nat → List Image → List Image × List Signal → Option (List Image × List Signal)
  | _, [], st => some st
  | i, image :: rest, st =>
      (alignLayer ops image0 baseKeypoints baseDescriptors image).bind fun result =>
        match result with
        | none => alignRunLoop ops image0 baseKeypoints baseDescriptors total (i + 1) rest st
        | some aligned =>
            alignRunLoop ops image0 baseKeypoints baseDescriptors total (i + 1) rest
              (st.1 ++ [aligned],
                st.2 ++ [Signal.renderImage false,
                  Signal.progress "Aligning images." (i : Int) total])

/-- The function `ImageProcessing::align_images` with the signals it emits: the
returned images and the signals in the order of emission. -/
def align_images_run (ops : CvOps) (images : List Image) :
    Option (List Image × List Signal) :=
  match images with
  | [] => some ([], [])
  | image0 :: rest =>
      let detected := baseFeatures ops image0
      let total : Int := (images.length : Int) - 1
      alignRunLoop ops image0 detected.1 detected.2 total 1 rest
        ([image0], [Signal.progress "Aligning images." 0 total])

/-- Signals of `ImageProcessing::compute_depth_map` for a stack of `numImages`
images: the progress before the layer loop, a preview and a progress per layer,
the progress before the smoothing loop, a progress and a preview per pass. -/
def depthSignals (numImages : Nat) (smoothIterations : Int) : List Signal :=
  let s0 := [Signal.progress "Generating depth map." 0 (numImages : Int)]
  let s1 := forRange numImages (fun layer signals =>
    signals ++ [Signal.renderImage true,
      Signal.progress "Generating depth map." ((layer : Int) + 1) (numImages : Int)]) s0
  let s2 := s1 ++ [Signal.progress "Smoothening depth map." 0 smoothIterations]
  forRange smoothIterations.toNat (fun i signals =>
    signals ++ [Signal.progress "Smoothening depth map." ((i : Int) + 1) smoothIterations,
      Signal.renderImage true]) s2

/-- The function `ImageProcessing::compute_depth_map` with the signals it emits. -/
def compute_depth_map_run (ops : CvOps) (images : List Image)
    (laplaceKernelSize smoothKernelSize smoothStrength smoothIterations : Int) :
    Option (Mat ℚ × List Signal) :=
  (compute_depth_map ops images laplaceKernelSize smoothKernelSize smoothStrength
    smoothIterations).map fun depthMap => (depthMap, depthSignals images.length smoothIterations)

/-- The slot `ImageProcessing::focus_stack` with the signals it emits, in the
order of emission; `none` when the run hits an out-of-range read. -/
def focus_stack_run (ops : CvOps) (unalignedImages : List Image)
    (laplaceKernelSize smoothKernelSize smoothStrength smoothIterations : Int)
    (blendLayers : Bool) : Option (List Signal) :=
  (align_images_run ops unalignedImages).bind fun aligned =>
  (compute_depth_map_run ops aligned.1 laplaceKernelSize smoothKernelSize smoothStrength
      smoothIterations).bind fun depth =>
  (create_composite_image_from_depth_map aligned.1 depth.1 blendLayers).map fun output =>
    aligned.2 ++ depth.2 ++ [Signal.focusStackingComplete output]

/-- Contract of the matcher for one non-reference image: the indices of every
accepted match point into the two key point vectors. -/
def matchIndicesValid (ops : CvOps) (image0 image : Image) : Prop :=
  ∀ m ∈ acceptedMatches ops image0 image,
    m.queryIdx < (baseFeatures ops image0).1.length ∧
      m.trainIdx < (layerFeatures ops image).1.length

/-- Contract of the bilateral filter: a raster whose values lie in `[0, b]` is
mapped to a raster whose values lie in `[0, b]`. -/
def bilateralKeepsRange (ops : CvOps) : Prop :=
  ∀ (src : Mat ℚ) (d sigmaColor sigmaSpace : Int) (b : ℚ),
    (∀ r c, 0 ≤ src.atRC r c ∧ src.atRC r c ≤ b) →
    ∀ r c, 0 ≤ (ops.bilateralFilter src d sigmaColor sigmaSpace).atRC r c ∧
      (ops.bilateralFilter src d sigmaColor sigmaSpace).atRC r c ≤ b

/-- Sample library operations with a matcher that finds four distinct matches
for every image: four key points, and four results whose best candidate is at
distance 1 and whose second candidate is at distance 2. -/
def matchingOps : CvOps where
  cvtColor := fun image => image.convertTo fun pixel => pixel 0
  Laplacian := fun gray => gray.convertTo fun v => (v.val : ℚ)
  bilateralFilter := fun src _ _ _ => src
  equalizeHist := fun gray => gray
  detectAndCompute := fun _ => ([(0, 0), (1, 0), (0, 1), (1, 1)], Mat.empty)
  knnMatch := fun _ _ =>
    [[⟨0, 0, 1⟩, ⟨0, 1, 2⟩], [⟨1, 1, 1⟩, ⟨1, 2, 2⟩], [⟨2, 2, 1⟩, ⟨2, 3, 2⟩],
      [⟨3, 3, 1⟩, ⟨3, 0, 2⟩]]
  estimateAffinePartial2D := fun _ _ => Mat.empty
  warpAffine := fun image _ _ _ => image

/-- Signals emitted by the layer loop of `align_images` from loop index `i` on,
for the remaining images: a preview and a progress for every image that is
warped, nothing for an image that is skipped. -/
def alignSignals (ops : CvOps) (image0 : Image) (total : Int) : Nat → List Image → List Signal
  | _, [] => []
  | i, image :: rest =>
      (match (alignLayer ops image0 (baseFeatures ops image0).1 (baseFeatures ops image0).2
          image).join with
        | none => []
        | some _ => [Signal.renderImage false,
            Signal.progress "Aligning images." (i : Int) total]) ++
        alignSignals ops image0 total (i + 1) rest

/-- The progress signals with the given label have non-decreasing values, values
of at most `bound`, and the maximum `max`. -/
def phaseBounded (label : String) (bound max : Int) (signals : List Signal) : Prop :=
  (progressOf label signals).Pairwise (fun p q => p.1 ≤ q.1) ∧
    ∀ p ∈ progressOf label signals, p.1 ≤ bound ∧ p.2 = max

/-- One visit of a pixel by the layer loop with the index kept as it is, not
narrowed to eight bits: the running maximum and the index of the last layer that
passed the test `sharpnessValue >= sharpnessMax`, if any. -/
def winnerStep (layer : Nat) (s : ℚ) (st : ℚ × Option Nat) : ℚ × Option Nat :=
  if s ≥ st.1 then (s, some layer) else st

/-- The layer loop seen at one pixel, with the index of the winner kept as it is. -/
def winnerFold : Nat → List ℚ → ℚ × Option Nat → ℚ × Option Nat
  | _, [], st => st
  | layer, s :: rest, st => winnerFold (layer + 1) rest (winnerStep layer s st)

/-- The layer that wins at a pixel, for the sharpness values of the layers at
that pixel in stack order: the last layer that passes the test of the layer loop
against the running maximum, which starts at 0; `none` when no layer passes. -/
def winningLayer (ss : List ℚ) : Option Nat :=
  (winnerFold 0 ss (0, none)).2

/-- Second-derivative kernel of aperture 5 (`cv::getDerivKernels`, order 2). -/
def derivKernel5 : List Int := [1, 0, -2, 0, 1]

/-- Smoothing kernel of aperture 5 (`cv::getDerivKernels`, order 0). -/
def smoothKernel5 : List Int := [1, 4, 6, 4, 1]

/-- Value at `(r, c)` of the Laplacian of aperture 5 as the library documentation
gives it: the sum of the second derivatives along the columns and along the
rows, each computed with the separable pair of the derivative kernel and the
smoothing kernel, under `BORDER_REFLECT_101`. -/
def laplacian5At (gray : Mat uchar) (r c : Nat) : Int :=
  ((List.range 5).map fun (i : Nat) =>
    ((List.range 5).map fun (j : Nat) =>
      (derivKernel5.getD j 0 * smoothKernel5.getD i 0 +
          smoothKernel5.getD j 0 * derivKernel5.getD i 0) *
        ((gray.atRC (borderInterpolate ((r : Int) + (i : Int) - 2) gray.rows)
          (borderInterpolate ((c : Int) + (j : Int) - 2) gray.cols)).val : Int)).sum).sum

/-- Laplacian of aperture 5 of an 8-bit raster with 64-bit float output; the
values are integers. -/
def laplacian5 (gray : Mat uchar) : Mat ℚ :=
  { rows := gray.rows, cols := gray.cols, data := fun r c => (laplacian5At gray r c : ℚ) }

/-- Library operations whose grey conversion and Laplacian follow the library
documentation: the fixed-point weights of `COLOR_BGR2GRAY` and the Laplacian of
aperture 5. The other operations are those of `sampleOps`. -/
def aperture5Ops : CvOps where
  cvtColor := fun image => image.convertTo fun pixel =>
    static_cast_uchar
      ((1868 * (pixel 0).val + 9617 * (pixel 1).val + 4899 * (pixel 2).val + 8192) / 16384)
  Laplacian := laplacian5
  bilateralFilter := fun src _ _ _ => src
  equalizeHist := fun gray => gray
  detectAndCompute := fun _ => ([], Mat.empty)
  knnMatch := fun _ _ => []
  estimateAffinePartial2D := fun _ _ => Mat.empty
  warpAffine := fun image _ _ _ => image

end ImageProcessing

/-! ## Input widgets and settings: definitions

The odd-value widgets follow `src/src/oddslider.cpp`, `src/src/oddspinbox.cpp` and
the constructor of `MainWindow`; `Settings` follows `src/src/settings.cpp`.

For `Settings` a file is the list of its bytes (naturals, written with an explicit
`% 256`), or `none` when it cannot be opened.  `QDataStream` writes big-endian
and yields 0 for a value read past the end of the stream; `readRawData` past the
end leaves the buffer uninitialised and the model returns `none`.  The string
functions of Qt are the fields of `QStringOps`.
-/

namespace OddSlider

/-- Value returned by `OddSlider::adjustToOdd`; `%` is the C++ remainder. -/
def adjustToOdd (value : Int) : Int :=
  if Int.tmod value 2 = 0 then value + 1 else value

/-- Value that `OddSlider::setValue` passes on to `QSlider::setValue`. -/
def setValue (value : Int) : Int :=
  let adjusted := adjustToOdd value
  adjusted

end OddSlider

namespace OddSpinBox

/-- Value returned by `OddSpinBox::valueFromText`; `base` stands for the inherited
`QSpinBox::valueFromText`. -/
def valueFromText (base : String → Int) (text : String) : Int :=
  let value := base text
  if Int.tmod value 2 = 0 then value + 1 else value

/-- Value that `OddSpinBox::stepBy` passes to `setValue`, for the current value
and the single step of the widget. -/
def stepBy (value singleStep steps : Int) : Int :=
  let newValue := value + steps * singleStep
  if Int.tmod newValue 2 = 0 then newValue + 1 else newValue

end OddSpinBox

namespace MainWindow

/-- Value `oddValue` computed by the kernel-size slider and spin box handlers
connected in the constructor of `MainWindow`. -/
def oddValue (value : Int) : Int :=
  if Int.tmod value 2 = 0 then value + 1 else value

end MainWindow

namespace Settings

/-- Value of a `QVariant`: an `int`, a `bool`, a `double` given by its 64-bit
pattern, a value of another type, or the invalid variant. -/
inductive QVariant where
  | invalid
  | int (value : Int)
  | bool (value : Bool)
  | double (bits : Nat)
  | other (typeName : String)
  deriving DecidableEq

/-- The Qt string functions used by `Settings`: `QString::toUtf8`,
`QString::fromUtf8` and `QString::trimmed`. Bytes are naturals below 256. -/
structure QStringOps where
  toUtf8 : String → List Nat
  fromUtf8 : List Nat → String
  trimmed : String → String

/-- A `QMap<QString, QVariant>` as the list of its entries in iteration order,
which is the ascending order of the keys. -/
abbrev QMap := List (String × QVariant)

/-- Lexicographic comparison of two character sequences by character code. -/
def lessThanChars : List Char → List Char → Bool
  | _, [] => false
  | [], _ :: _ => true
  | a :: as, b :: bs =>
    decide (a.toNat < b.toNat) || (decide (a.toNat = b.toNat) && lessThanChars as bs)

/-- The `operator<` of `QString` that orders the keys of a `QMap`. -/
def lessThan (a b : String) : Bool := lessThanChars a.data b.data

/-- Assignment `parameters[name] = value` on a `QMap`. -/
def QMap.set : QMap → String → QVariant → QMap
  | [], name, value => [(name, value)]
  | (key, old) :: rest, name, value =>
    if lessThan name key then (name, value) :: (key, old) :: rest
    else if lessThan key name then (key, old) :: QMap.set rest name value
    else (key, value) :: rest

/-- The invariant of a `QMap`: the keys are strictly ascending. -/
def isQMap (parameters : QMap) : Prop :=
  parameters.Pairwise fun a b => lessThan a.1 b.1 = true

/-- Bytes written by `out << quint8(n)`. -/
def writeUInt8 (n : Nat) : List Nat := [n % 256]

/-- Bytes written by `out << quint16(n)`, most significant byte first. -/
def writeUInt16 (n : Nat) : List Nat := [n / 256 % 256, n % 256]

/-- Bytes written by `out << int`, the 32-bit two's complement pattern, most
significant byte first. -/
def writeInt32 (v : Int) : List Nat :=
  let u := (v % 2 ^ 32).toNat
  [u / 2 ^ 24 % 256, u / 2 ^ 16 % 256, u / 2 ^ 8 % 256, u % 256]

/-- Byte written by `out << bool`. -/
def writeBool (b : Bool) : List Nat := [if b then 1 else 0]

/-- Bytes written by `out << double`, the 64-bit pattern, most significant byte
first. -/
def writeDouble (bits : Nat) : List Nat :=
  [bits / 2 ^ 56 % 256, bits / 2 ^ 48 % 256, bits / 2 ^ 40 % 256, bits / 2 ^ 32 % 256,
    bits / 2 ^ 24 % 256, bits / 2 ^ 16 % 256, bits / 2 ^ 8 % 256, bits % 256]

/-- Bytes written by one iteration of the loop of `Settings::save`. A value of
another type writes nothing after the name. -/
def saveEntry (ops : QStringOps) (entry : String × QVariant) : List Nat :=
  let name := ops.toUtf8 entry.1
  writeUInt8 name.length ++ name ++
    match entry.2 with
    | QVariant.int value => writeUInt8 1 ++ writeInt32 value
    | QVariant.bool value => writeUInt8 2 ++ writeBool value
    | QVariant.double bits => writeUInt8 3 ++ writeDouble bits
    | _ => []

/-- The eight bytes written by `out.writeRawData("PARAMS", 8)`: the six letters,
the terminator of the literal, and the byte `pad` that follows the literal in
memory. -/
def headerBytes (pad : Nat) : List Nat := [80, 65, 82, 65, 77, 83, 0, pad]

/-- Bytes that `Settings::save` writes to the file; `none` when the file cannot
be opened for writing and nothing is written. -/
def save (ops : QStringOps) (pad : Nat) (writable : Bool) (parameters : QMap) :
    Option (List Nat) :=
  if !writable then none
  else
    some (headerBytes pad ++ writeUInt16 parameters.length ++
      (parameters.map (saveEntry ops)).flatten)

/-- Result of `in >> quint8`: the next byte, or 0 at the end of the stream. -/
def readUInt8 (s : List Nat) : Nat × List Nat :=
  match s with
  | [] => (0, [])
  | b :: rest => (b, rest)

/-- Result of `in >> quint16`: 0 when fewer than two bytes are left. -/
def readUInt16 (s : List Nat) : Nat × List Nat :=
  match s with
  | b1 :: b0 :: rest => (b1 * 256 + b0, rest)
  | _ => (0, [])

/-- Result of `in >> int`: 0 when fewer than four bytes are left. -/
def readInt32 (s : List Nat) : Int × List Nat :=
  match s with
  | b3 :: b2 :: b1 :: b0 :: rest =>
    let u : Nat := b3 * 2 ^ 24 + b2 * 2 ^ 16 + b1 * 2 ^ 8 + b0
    (if u < 2 ^ 31 then (u : Int) else (u : Int) - 2 ^ 32, rest)
  | _ => (0, [])

/-- Result of `in >> bool`: a byte is read and compared with 0. -/
def readBool (s : List Nat) : Bool × List Nat :=
  let r := readUInt8 s
  (r.1 != 0, r.2)

/-- Result of `in >> double`: the pattern of 0.0 when fewer than eight bytes are
left. -/
def readDouble (s : List Nat) : Nat × List Nat :=
  match s with
  | b7 :: b6 :: b5 :: b4 :: b3 :: b2 :: b1 :: b0 :: rest =>
    (b7 * 2 ^ 56 + b6 * 2 ^ 48 + b5 * 2 ^ 40 + b4 * 2 ^ 32 + b3 * 2 ^ 24 + b2 * 2 ^ 16 +
      b1 * 2 ^ 8 + b0, rest)
  | _ => (0, [])

/-- Result of `in.readRawData(buffer, len)`; `none` when the stream is shorter
and part of the buffer stays uninitialised. -/
def readRawData (s : List Nat) (len : Nat) : Option (List Nat × List Nat) :=
  if len ≤ s.length then some (s.take len, s.drop len) else none

/-- The loop of `Settings::load` with `count` iterations left. -/
def loadLoop (ops : QStringOps) : Nat → List Nat → QMap → Option QMap
  | 0, _, parameters => some parameters
  | count + 1, s, parameters =>
    let nameLen := readUInt8 s
    match readRawData nameLen.2 nameLen.1 with
    | none => none
    | some (nameData, s2) =>
      let name := ops.fromUtf8 nameData
      let type := readUInt8 s2
      let value : QVariant × List Nat :=
        if type.1 = 1 then
          let intValue := readInt32 type.2
          (QVariant.int intValue.1, intValue.2)
        else if type.1 = 2 then
          let boolValue := readBool type.2
          (QVariant.bool boolValue.1, boolValue.2)
        else if type.1 = 3 then
          let doubleValue := readDouble type.2
          (QVariant.double doubleValue.1, doubleValue.2)
        else (QVariant.invalid, type.2)
      loadLoop ops count value.2 (QMap.set parameters name value.1)

/-- Map returned by `Settings::load` and the value of `ok` after the call, for
the content of the file (`none` when it cannot be opened) and the value of `ok`
before the call; `none` when uninitialised bytes are read. -/
def load (ops : QStringOps) (file : Option (List Nat)) (ok : Bool) : Option (QMap × Bool) :=
  match file with
  | none => some ([], false)
  | some bytes =>
    match readRawData bytes 8 with
    | none => none
    | some (header, s1) =>
      let headerStr := ops.trimmed (ops.fromUtf8 (header.take 6))
      if headerStr ≠ "PARAMS" then some ([], false)
      else
        let paramCount := readUInt16 s1
        (loadLoop ops paramCount.1 paramCount.2 []).map fun parameters => (parameters, ok)

/-- The conditions on a map under which `Settings::save` writes the record
format: the count fits 16 bits, the UTF-8 form of each name fits the 8-bit
length, and each value is an `int`, a `bool` or a `double` in its machine
range. -/
def inRecordFormat (ops : QStringOps) (parameters : QMap) : Prop :=
  parameters.length < 65536 ∧
    ∀ entry ∈ parameters, (ops.toUtf8 entry.1).length < 256 ∧
      match entry.2 with
      | QVariant.int value => -2 ^ 31 ≤ value ∧ value < 2 ^ 31
      | QVariant.bool _ => True
      | QVariant.double bits => bits < 2 ^ 64
      | _ => False

/-- Contract of the Qt string functions on the names of a map: decoding the
UTF-8 form of a name gives the name back, and the six header letters decode and
trim to `PARAMS`. -/
def utf8Contract (ops : QStringOps) (parameters : QMap) : Prop :=
  ops.trimmed (ops.fromUtf8 [80, 65, 82, 65, 77, 83]) = "PARAMS" ∧
    ∀ entry ∈ parameters, ops.fromUtf8 (ops.toUtf8 entry.1) = entry.1

/-- Whether `QChar::isSpace` holds for a character below 128. -/
def isSpace (c : Char) : Bool :=
  c.toNat = 32 || (9 ≤ c.toNat && c.toNat ≤ 13)

/-- String functions that agree with Qt on strings of ASCII characters, where
UTF-8 has one byte per character. -/
def asciiOps : QStringOps where
  toUtf8 := fun s => s.data.map Char.toNat
  fromUtf8 := fun bytes => String.mk (bytes.map Char.ofNat)
  trimmed := fun s =>
    String.mk ((s.data.dropWhile isSpace).reverse.dropWhile isSpace).reverse

/-- A map with the five names that `MainWindow::on_SaveParams_clicked` saves;
the last value is the `double` 100.0, whose pattern is 0x4059000000000000. -/
def sampleParams : QMap :=
  [("Blend layers", QVariant.bool true),
    ("Laplacian Kernel size", QVariant.int 3),
    ("Smooth Kernel size", QVariant.int 17),
    ("Smooth iterations", QVariant.int 5),
    ("Smooth strength", QVariant.double 4636737291354636288)]

end Settings

namespace ImageProcessing

/-! ## Lemmas and theorems -/

theorem roundHalfEven_sub_le (q : ℚ) : |((roundHalfEven q : Int) : ℚ) - q| ≤ 1 / 2 := by
  have h1 := Int.floor_le q
  have h2 := Int.lt_floor_add_one q
  unfold roundHalfEven
  split_ifs with ha hb hc
  · rw [abs_le]; constructor <;> linarith
  · rw [abs_le]; push_cast; constructor <;> linarith
  · rw [abs_le]; constructor <;> linarith
  · rw [abs_le]; push_cast; constructor <;> linarith

theorem roundHalfEven_intCast (n : Int) : roundHalfEven (n : ℚ) = n := by
  unfold roundHalfEven
  rw [Int.floor_intCast]
  norm_num

theorem roundHalfEven_of_abs_lt (q : ℚ) (n : Int) (h : |q - n| < 1 / 2) :
    roundHalfEven q = n := by
  rw [abs_lt] at h
  have hb := roundHalfEven_sub_le q
  rw [abs_le] at hb
  have h1 : ((roundHalfEven q : Int) : ℚ) < (n : ℚ) + 1 := by linarith
  have h2 : (n : ℚ) - 1 < ((roundHalfEven q : Int) : ℚ) := by linarith
  have h3 : roundHalfEven q < n + 1 := by exact_mod_cast h1
  have h4 : n - 1 < roundHalfEven q := by exact_mod_cast h2
  omega

theorem roundHalfEven_tie (n : Int) :
    roundHalfEven ((n : ℚ) + 1 / 2) = if n % 2 = 0 then n else n + 1 := by
  have hf : ⌊(n : ℚ) + 1 / 2⌋ = n := by
    rw [Int.floor_eq_iff]; constructor <;> linarith
  unfold roundHalfEven
  rw [hf]
  have h1 : ¬ ((n : ℚ) + 1 / 2 - (n : ℚ) < 1 / 2) := by norm_num
  have h2 : ¬ ((1 : ℚ) / 2 < (n : ℚ) + 1 / 2 - (n : ℚ)) := by norm_num
  rw [if_neg h1, if_neg h2]

theorem roundHalfEven_nonneg (q : ℚ) (h : 0 ≤ q) : 0 ≤ roundHalfEven q := by
  have hf : 0 ≤ ⌊q⌋ := Int.floor_nonneg.mpr h
  unfold roundHalfEven
  split_ifs <;> omega

theorem two_zpow_pos (k : Int) : (0 : ℚ) < 2 ^ k := zpow_pos (by norm_num) k

theorem log_two_eq (x : ℚ) (e : Int) (h1 : (2 : ℚ) ^ e ≤ x) (h2 : x < 2 ^ (e + 1)) :
    Int.log 2 x = e := by
  have hx : 0 < x := lt_of_lt_of_le (two_zpow_pos e) h1
  have ha : e ≤ Int.log 2 x := by
    have := (Int.zpow_le_iff_le_log (by norm_num : 1 < 2) hx (x := e)).mp (by exact_mod_cast h1)
    exact this
  have hb : Int.log 2 x < e + 1 := by
    have := (Int.lt_zpow_iff_log_lt (by norm_num : 1 < 2) hx (x := e + 1)).mp
      (by exact_mod_cast h2)
    exact this
  omega

/-- Evaluation of the rounding at a value of a known binade. -/
theorem roundToFormat_eq (precision : Nat) (emin : Int) (x : ℚ) (e n : Int)
    (h1 : (2 : ℚ) ^ e ≤ |x|) (h2 : |x| < 2 ^ (e + 1)) (he : emin ≤ e)
    (hn : roundHalfEven (x / 2 ^ (e - (precision : Int) + 1)) = n) :
    roundToFormat precision emin x = (n : ℚ) * 2 ^ (e - (precision : Int) + 1) := by
  unfold roundToFormat
  simp only []
  rw [log_two_eq |x| e h1 h2, max_eq_left he, hn]

theorem roundToFormat_zero (precision : Nat) (emin : Int) : roundToFormat precision emin 0 = 0 := by
  unfold roundToFormat
  simp only [zero_div]
  have : roundHalfEven 0 = 0 := by
    have := roundHalfEven_intCast 0
    simpa using this
  rw [this]
  simp

theorem roundToFormat_nonneg (precision : Nat) (emin : Int) (x : ℚ) (h : 0 ≤ x) :
    0 ≤ roundToFormat precision emin x := by
  unfold roundToFormat
  simp only []
  apply mul_nonneg
  · have := roundHalfEven_nonneg (x / 2 ^ (max (Int.log 2 |x|) emin - (precision : Int) + 1))
      (div_nonneg h (two_zpow_pos _).le)
    exact_mod_cast this
  · exact (two_zpow_pos _).le

theorem log_two_lt_of_lt (x : ℚ) (k : Int) (hx : 0 < x) (h : x < 2 ^ k) : Int.log 2 x < k := by
  have := (Int.lt_zpow_iff_log_lt (by norm_num : 1 < 2) hx (x := k)).mp (by exact_mod_cast h)
  exact this

theorem log_two_le_of_le (x : ℚ) (k : Int) (hx : 0 < x) (h : x ≤ 2 ^ k) : Int.log 2 x ≤ k := by
  have h1 : x < 2 ^ (k + 1) := by
    have : (2 : ℚ) ^ k < 2 ^ (k + 1) := by
      rw [zpow_add_one₀ (by norm_num)]
      linarith [two_zpow_pos k]
    exact lt_of_le_of_lt h this
  have := log_two_lt_of_lt x (k + 1) hx h1
  omega

/-- A value `m * 2 ^ k` whose significand fits the precision and whose exponent
is not below the least one is a value of the format: rounding leaves it. -/
theorem roundToFormat_of_dyadic (precision : Nat) (emin : Int) (m k : Int)
    (hm : |m| < 2 ^ precision) (hk : emin - (precision : Int) + 1 ≤ k) :
    roundToFormat precision emin ((m : ℚ) * 2 ^ k) = (m : ℚ) * 2 ^ k := by
  by_cases hm0 : m = 0
  · subst hm0
    simp [roundToFormat_zero]
  have hxpos : 0 < |(m : ℚ) * 2 ^ k| := by
    rw [abs_pos]
    exact mul_ne_zero (by exact_mod_cast hm0) (two_zpow_pos k).ne'
  have hlt : |(m : ℚ) * 2 ^ k| < 2 ^ ((precision : Int) + k) := by
    rw [abs_mul, abs_of_pos (two_zpow_pos k), zpow_add₀ (by norm_num : (2 : ℚ) ≠ 0)]
    apply mul_lt_mul_of_pos_right _ (two_zpow_pos k)
    have : ((|m| : Int) : ℚ) < ((2 ^ precision : Int) : ℚ) := by exact_mod_cast hm
    rw [zpow_natCast]
    push_cast at this
    exact this
  have hlog := log_two_lt_of_lt _ _ hxpos hlt
  have hj : max (Int.log 2 |(m : ℚ) * 2 ^ k|) emin - (precision : Int) + 1 ≤ k := by
    rcases max_cases (Int.log 2 |(m : ℚ) * 2 ^ k|) emin with ⟨h, -⟩ | ⟨h, -⟩ <;> rw [h] <;> omega
  unfold roundToFormat
  simp only []
  generalize max (Int.log 2 |(m : ℚ) * 2 ^ k|) emin - (precision : Int) + 1 = j at hj
  obtain ⟨d, hd⟩ : ∃ d : Nat, k = j + (d : Int) := ⟨(k - j).toNat, by omega⟩
  have hdiv : (m : ℚ) * 2 ^ k / 2 ^ j = ((m * 2 ^ d : Int) : ℚ) := by
    rw [hd, zpow_add₀ (by norm_num : (2 : ℚ) ≠ 0), zpow_natCast]
    push_cast
    field_simp
    ring
  rw [hdiv, roundHalfEven_intCast, hd, zpow_add₀ (by norm_num : (2 : ℚ) ≠ 0), zpow_natCast]
  push_cast
  ring

/-- The rounding error is at most half a unit in the last place of the binade. -/
theorem abs_roundToFormat_sub_le (precision : Nat) (emin : Int) (x : ℚ) (k : Int)
    (hx : |x| ≤ 2 ^ k) (hk : emin ≤ k) :
    |roundToFormat precision emin x - x| ≤ 2 ^ (k - (precision : Int)) := by
  by_cases hx0 : x = 0
  · subst hx0
    rw [roundToFormat_zero, sub_zero, abs_zero]
    exact (two_zpow_pos _).le
  have hxpos : 0 < |x| := abs_pos.mpr hx0
  have hlog := log_two_le_of_le |x| k hxpos hx
  have he : max (Int.log 2 |x|) emin ≤ k := max_le hlog hk
  unfold roundToFormat
  simp only []
  generalize max (Int.log 2 |x|) emin = e at he
  have hq : (0 : ℚ) < 2 ^ (e - (precision : Int) + 1) := two_zpow_pos _
  have hb := roundHalfEven_sub_le (x / 2 ^ (e - (precision : Int) + 1))
  have heq : ((roundHalfEven (x / 2 ^ (e - (precision : Int) + 1)) : Int) : ℚ) *
        2 ^ (e - (precision : Int) + 1) - x =
      (((roundHalfEven (x / 2 ^ (e - (precision : Int) + 1)) : Int) : ℚ) -
        x / 2 ^ (e - (precision : Int) + 1)) * 2 ^ (e - (precision : Int) + 1) := by
    field_simp
  rw [heq, abs_mul, abs_of_pos hq]
  have h1 : |((roundHalfEven (x / 2 ^ (e - (precision : Int) + 1)) : Int) : ℚ) -
        x / 2 ^ (e - (precision : Int) + 1)| * 2 ^ (e - (precision : Int) + 1) ≤
      1 / 2 * 2 ^ (e - (precision : Int) + 1) :=
    mul_le_mul_of_nonneg_right hb hq.le
  have h2 : (1 : ℚ) / 2 * 2 ^ (e - (precision : Int) + 1) = 2 ^ (e - (precision : Int)) := by
    rw [zpow_add_one₀ (by norm_num : (2 : ℚ) ≠ 0)]
    ring
  have h3 : (2 : ℚ) ^ (e - (precision : Int)) ≤ 2 ^ (k - (precision : Int)) :=
    zpow_le_zpow_right₀ (by norm_num) (by omega)
  linarith

/-- A value that the rounding leaves is an integer multiple of a power of two
with a significand that fits the precision. -/
theorem dyadic_of_roundToFormat_eq (precision : Nat) (emin : Int) (x : ℚ)
    (h : roundToFormat precision emin x = x) :
    ∃ m k : Int, x = (m : ℚ) * 2 ^ k ∧ |m| < 2 ^ precision ∧
      emin - (precision : Int) + 1 ≤ k := by
  by_cases hx0 : x = 0
  · exact ⟨0, emin - (precision : Int) + 1, by simp [hx0], by positivity, le_refl _⟩
  have hxpos : 0 < |x| := abs_pos.mpr hx0
  have hup : |x| < 2 ^ (Int.log 2 |x| + 1) := by
    have := Int.lt_zpow_succ_log_self (by norm_num : 1 < 2) |x|
    exact_mod_cast this
  unfold roundToFormat at h
  simp only [] at h
  have he : Int.log 2 |x| ≤ max (Int.log 2 |x|) emin := le_max_left _ _
  have he2 : emin ≤ max (Int.log 2 |x|) emin := le_max_right _ _
  generalize max (Int.log 2 |x|) emin = e at h he he2
  refine ⟨roundHalfEven (x / 2 ^ (e - (precision : Int) + 1)), e - (precision : Int) + 1,
    h.symm, ?_, by omega⟩
  have hq : (0 : ℚ) < 2 ^ (e - (precision : Int) + 1) := two_zpow_pos _
  have habs : |((roundHalfEven (x / 2 ^ (e - (precision : Int) + 1)) : Int) : ℚ)| *
      2 ^ (e - (precision : Int) + 1) = |x| := by
    conv_rhs => rw [← h]
    rw [abs_mul, abs_of_pos hq]
  have hlt : |x| < 2 ^ (precision : Int) * 2 ^ (e - (precision : Int) + 1) := by
    rw [← zpow_add₀ (by norm_num : (2 : ℚ) ≠ 0)]
    have : (2 : ℚ) ^ (Int.log 2 |x| + 1) ≤ 2 ^ ((precision : Int) + (e - (precision : Int) + 1)) :=
      zpow_le_zpow_right₀ (by norm_num) (by omega)
    exact lt_of_lt_of_le hup this
  rw [← habs] at hlt
  have hlt2 := lt_of_mul_lt_mul_right hlt hq.le
  rw [zpow_natCast] at hlt2
  have : ((|roundHalfEven (x / 2 ^ (e - (precision : Int) + 1))| : Int) : ℚ) <
      ((2 ^ precision : Int) : ℚ) := by
    push_cast
    exact hlt2
  exact_mod_cast this

/-- For a non-negative value of the format, the integer part and the fractional
part are values of the format. -/
theorem roundToFormat_floor_frac (precision : Nat) (emin : Int) (d : ℚ)
    (hfmt : emin - (precision : Int) + 1 ≤ 0)
    (hd : roundToFormat precision emin d = d) (h0 : 0 ≤ d) :
    roundToFormat precision emin ((⌊d⌋ : Int) : ℚ) = ((⌊d⌋ : Int) : ℚ) ∧
      roundToFormat precision emin (d - ((⌊d⌋ : Int) : ℚ)) = d - ((⌊d⌋ : Int) : ℚ) := by
  obtain ⟨m, k, hx, hm, hk⟩ := dyadic_of_roundToFormat_eq precision emin d hd
  have hm0 : 0 ≤ m := by
    have h1 : (0 : ℚ) ≤ (m : ℚ) * 2 ^ k := hx ▸ h0
    have h2 : (0 : ℚ) ≤ (m : ℚ) := nonneg_of_mul_nonneg_left h1 (two_zpow_pos k)
    exact_mod_cast h2
  have hmlt : m < 2 ^ precision := by rwa [abs_of_nonneg hm0] at hm
  by_cases hk0 : 0 ≤ k
  · obtain ⟨n, hn⟩ : ∃ n : Nat, k = (n : Int) := ⟨k.toNat, by omega⟩
    have hint : d = ((m * 2 ^ n : Int) : ℚ) := by
      rw [hx, hn, zpow_natCast]; push_cast; ring
    have hfl : ((⌊d⌋ : Int) : ℚ) = d := by
      rw [hint, Int.floor_intCast]
    rw [hfl, sub_self]
    exact ⟨hd, roundToFormat_zero _ _⟩
  · obtain ⟨n, hn⟩ : ∃ n : Nat, k = -(n : Int) := ⟨(-k).toNat, by omega⟩
    have hdiv : d = (m : ℚ) / ((2 ^ n : Nat) : ℚ) := by
      rw [hx, hn, zpow_neg, zpow_natCast]; push_cast; ring
    have hfl : ⌊d⌋ = m / ((2 ^ n : Nat) : Int) := by
      rw [hdiv]; exact Rat.floor_intCast_div_natCast m (2 ^ n)
    have hpos : (0 : Int) < ((2 ^ n : Nat) : Int) := by positivity
    have hq0 : 0 ≤ m / ((2 ^ n : Nat) : Int) := Int.ediv_nonneg hm0 hpos.le
    have hqle : m / ((2 ^ n : Nat) : Int) ≤ m := Int.ediv_le_self _ hm0
    have hr0 : 0 ≤ m % ((2 ^ n : Nat) : Int) := Int.emod_nonneg _ hpos.ne'
    have hrle : m % ((2 ^ n : Nat) : Int) ≤ m := by
      have := Int.emod_add_ediv m ((2 ^ n : Nat) : Int)
      nlinarith [mul_nonneg hpos.le hq0]
    constructor
    · rw [hfl]
      have := roundToFormat_of_dyadic precision emin (m / ((2 ^ n : Nat) : Int)) 0
        (by rw [abs_of_nonneg hq0]; omega) hfmt
      simpa using this
    · have hfrac : d - ((⌊d⌋ : Int) : ℚ) = ((m % ((2 ^ n : Nat) : Int) : Int) : ℚ) * 2 ^ k := by
        rw [hfl, hdiv, hn, zpow_neg, zpow_natCast]
        have hsplit := Int.emod_add_ediv m ((2 ^ n : Nat) : Int)
        have hsplitq : ((m % ((2 ^ n : Nat) : Int) : Int) : ℚ) +
            (((2 ^ n : Nat) : Int) : ℚ) * ((m / ((2 ^ n : Nat) : Int) : Int) : ℚ) = (m : ℚ) := by
          exact_mod_cast hsplit
        have hne : (((2 ^ n : Nat) : ℚ)) ≠ 0 := by positivity
        push_cast at hsplitq ⊢
        field_simp
        linarith
      rw [hfrac]
      exact roundToFormat_of_dyadic precision emin _ k (by rw [abs_of_nonneg hr0]; omega) hk

theorem fl32_eval (x : ℚ) (e n : Int) (y : ℚ)
    (h1 : (2 : ℚ) ^ e ≤ |x|) (h2 : |x| < 2 ^ (e + 1)) (he : -126 ≤ e)
    (hn : |x / 2 ^ (e - 23) - n| < 1 / 2) (hy : (n : ℚ) * 2 ^ (e - 23) = y) :
    fl32 x = y := by
  unfold fl32
  have hexp : e - ((24 : Nat) : Int) + 1 = e - 23 := by push_cast; ring
  rw [roundToFormat_eq 24 (-126) x e n h1 h2 he, ← hy, hexp]
  rw [hexp]
  exact roundHalfEven_of_abs_lt _ _ hn

/-- Evaluation of the rounding to binary32 at a value half way between two
neighbours: the one with the even significand is taken. -/
theorem fl32_eval_tie (x : ℚ) (e m : Int) (y : ℚ)
    (h1 : (2 : ℚ) ^ e ≤ |x|) (h2 : |x| < 2 ^ (e + 1)) (he : -126 ≤ e)
    (hm : x / 2 ^ (e - 23) = (m : ℚ) + 1 / 2)
    (hy : (((if m % 2 = 0 then m else m + 1 : Int)) : ℚ) * 2 ^ (e - 23) = y) :
    fl32 x = y := by
  unfold fl32
  have hexp : e - ((24 : Nat) : Int) + 1 = e - 23 := by push_cast; ring
  rw [roundToFormat_eq 24 (-126) x e (if m % 2 = 0 then m else m + 1) h1 h2 he, ← hy, hexp]
  rw [hexp, hm]
  exact roundHalfEven_tie m

theorem fl32_zero : fl32 0 = 0 := roundToFormat_zero _ _

theorem fl64_zero : fl64 0 = 0 := roundToFormat_zero _ _

/-- An integer below `2 ^ 24` in absolute value is a `float`. -/
theorem fl32_intCast (n : Int) (h : |n| < 2 ^ 24) : fl32 (n : ℚ) = n := by
  have := roundToFormat_of_dyadic 24 (-126) n 0 h (by norm_num)
  simpa [fl32] using this

theorem fl32_uchar (x : uchar) : fl32 (x.val : ℚ) = (x.val : ℚ) := by
  have h := fl32_intCast (x.val : Int) (by
    have := x.isLt
    rw [abs_of_nonneg (by positivity)]
    omega)
  exact_mod_cast h

theorem fl32_one : fl32 1 = 1 := by
  have h := fl32_intCast 1 (by norm_num)
  exact_mod_cast h

theorem forRange_zero {σ : Type} (body : Nat → σ → σ) (s : σ) : forRange 0 body s = s := rfl

theorem forRange_succ {σ : Type} (n : Nat) (body : Nat → σ → σ) (s : σ) :
    forRange (n + 1) body s = body n (forRange n body s) := by
  simp [forRange, List.range_succ, List.foldl_append]

theorem forRangeM_zero {σ : Type} (body : Nat → σ → Option σ) (s : σ) :
    forRangeM 0 body s = some s := rfl

theorem forRangeM_succ {σ : Type} (n : Nat) (body : Nat → σ → Option σ) (s : σ) :
    forRangeM (n + 1) body s = (forRangeM n body s).bind (body n) := by
  simp [forRangeM, List.range_succ, List.foldlM_append]

/-- A row of pixel updates changes the observed value exactly at the visited
columns of that row. -/
theorem forRange_cols_obs {σ β : Type} (obs : σ → Nat → Nat → β) (body : Nat → Nat → σ → σ)
    (step : Nat → Nat → β → β)
    (hbody : ∀ r c s i j, obs (body r c s) i j =
      if i = r ∧ j = c then step r c (obs s r c) else obs s i j)
    (r cols : Nat) (s : σ) (i j : Nat) :
    obs (forRange cols (fun c st => body r c st) s) i j =
      if i = r ∧ j < cols then step r j (obs s r j) else obs s i j := by
  induction cols generalizing i j with
  | zero => simp [forRange_zero]
  | succ n ih =>
    rw [forRange_succ, hbody, ih, ih]
    by_cases hi : i = r
    · subst hi
      by_cases hj : j = n
      · subst hj; simp
      · have : j < n + 1 ↔ j < n := by omega
        simp [hj, this]
    · simp [hi]

/-- A full pass over the raster changes the observed value exactly at the
positions inside `rows × cols`, by one application of the pixel step. -/
theorem forRange_rows_obs {σ β : Type} (obs : σ → Nat → Nat → β) (body : Nat → Nat → σ → σ)
    (step : Nat → Nat → β → β)
    (hbody : ∀ r c s i j, obs (body r c s) i j =
      if i = r ∧ j = c then step r c (obs s r c) else obs s i j)
    (rows cols : Nat) (s : σ) (i j : Nat) :
    obs (forRange rows (fun r st => forRange cols (fun c st => body r c st) st) s) i j =
      if i < rows ∧ j < cols then step i j (obs s i j) else obs s i j := by
  induction rows generalizing i j with
  | zero => simp [forRange_zero]
  | succ n ih =>
    rw [forRange_succ, forRange_cols_obs obs body step hbody, ih, ih]
    by_cases hi : i = n
    · subst hi
      by_cases hj : j < cols
      · simp [hj, ih]
      · simp [hj]
    · have : i < n + 1 ↔ i < n := by omega
      simp [hi, this]

theorem two_mul_sum_le (x : ℚ) (xs : List ℚ) :
    2 * x * xs.sum ≤ (xs.length : ℚ) * x ^ 2 + (xs.map fun y => y ^ 2).sum := by
  induction xs with
  | nil => simp
  | cons y ys ih =>
    simp only [List.sum_cons, List.length_cons, List.map_cons]
    push_cast
    nlinarith [sq_nonneg (x - y)]

/-- The square of a sum is at most the count times the sum of the squares. -/
theorem sq_sum_le (xs : List ℚ) :
    xs.sum ^ 2 ≤ (xs.length : ℚ) * (xs.map fun y => y ^ 2).sum := by
  induction xs with
  | nil => simp
  | cons x xs ih =>
    simp only [List.sum_cons, List.length_cons, List.map_cons]
    push_cast
    nlinarith [two_mul_sum_le x xs, ih]

theorem length_flatMap_const {α β : Type} (l : List α) (f : α → List β) (n : Nat)
    (h : ∀ a, (f a).length = n) : (l.flatMap f).length = l.length * n := by
  induction l with
  | nil => simp
  | cons a l ih => simp [List.flatMap_cons, ih, h, Nat.succ_mul, Nat.add_comm]

theorem windowSamples_length (src : Mat ℚ) (ksize : Int) (r c : Nat) :
    (windowSamples src ksize r c).length = ksize.toNat * ksize.toNat := by
  unfold windowSamples
  rw [length_flatMap_const _ _ ksize.toNat (fun a => by simp), List.length_range]

theorem windowSamples_pow2 (src : Mat ℚ) (ksize : Int) (r c : Nat) :
    windowSamples (pow2 src) ksize r c = (windowSamples src ksize r c).map fun y => y ^ 2 := by
  simp [windowSamples, pow2, Mat.convertTo, Mat.atRC, List.map_flatMap, Function.comp_def]

/-- The local variance is the window mean of the squares minus the squared
window mean, and it is never negative. -/
theorem variance_nonneg (laplacian : Mat ℚ) (windowSize : Int) (r c : Nat) :
    0 ≤ (compute_local_variance laplacian windowSize).atRC r c := by
  simp only [compute_local_variance, boxFilter, Mat.atRC, windowSamples_pow2]
  have hsq := sq_sum_le (windowSamples laplacian windowSize r c)
  rw [windowSamples_length] at hsq
  rcases le_or_lt windowSize 0 with hk | hk
  · have h0 : windowSize.toNat = 0 := Int.toNat_eq_zero.mpr hk
    have hnil : windowSamples laplacian windowSize r c = [] := by
      apply List.eq_nil_of_length_eq_zero
      rw [windowSamples_length, h0]
    simp [hnil]
  · have hcast : ((windowSize.toNat : Nat) : ℚ) = (windowSize : ℚ) := by
      have : ((windowSize.toNat : Nat) : Int) = windowSize := Int.toNat_of_nonneg hk.le
      exact_mod_cast this
    push_cast at hsq
    rw [hcast] at hsq
    have hpos : (0 : ℚ) < (windowSize : ℚ) := by exact_mod_cast hk
    have hn : (0 : ℚ) < (windowSize : ℚ) * (windowSize : ℚ) := mul_pos hpos hpos
    rw [sub_nonneg, div_mul_div_comm, div_le_div_iff₀ (mul_pos hn hn) hn]
    have hS := sq_nonneg (windowSamples laplacian windowSize r c).sum
    nlinarith [mul_le_mul_of_nonneg_left hsq hn.le]

theorem forRange_invariant {σ : Type} (P : σ → Prop) (body : Nat → σ → σ)
    (h : ∀ i s, P s → P (body i s)) (n : Nat) (s : σ) (hs : P s) : P (forRange n body s) := by
  induction n with
  | zero => exact hs
  | succ n ih => rw [forRange_succ]; exact h n _ ih

theorem depthPixelLoop_obs (rows cols layer : Nat) (sharpness : Mat ℚ)
    (st : Mat ℚ × Mat uchar) (i j : Nat) :
    ((depthPixelLoop rows cols layer sharpness st).1.data i j,
      (depthPixelLoop rows cols layer sharpness st).2.data i j) =
      if i < rows ∧ j < cols then
        pixStep layer (sharpness.atRC i j) (st.1.data i j, st.2.data i j)
      else (st.1.data i j, st.2.data i j) := by
  unfold depthPixelLoop
  refine forRange_rows_obs (fun (s : Mat ℚ × Mat uchar) a b => (s.1.data a b, s.2.data a b))
    (fun r c st =>
      if sharpness.atRC r c ≥ st.1.atRC r c then
        (st.1.set r c (sharpness.atRC r c), st.2.set r c (static_cast_uchar layer))
      else st)
    (fun r c p => pixStep layer (sharpness.atRC r c) p) ?_ rows cols st i j
  intro r c s a b
  simp only [pixStep, Mat.atRC, Mat.set]
  by_cases hge : sharpness.data r c ≥ s.1.data r c
  · by_cases hab : a = r ∧ b = c
    · simp [hge, hab]
    · simp [hge, hab]
  · by_cases hab : a = r ∧ b = c
    · obtain ⟨rfl, rfl⟩ := hab
      simp [hge]
    · simp [hge, hab]

theorem depthPixelLoop_dims (rows cols layer : Nat) (sharpness : Mat ℚ)
    (st : Mat ℚ × Mat uchar) :
    (depthPixelLoop rows cols layer sharpness st).2.rows = st.2.rows ∧
      (depthPixelLoop rows cols layer sharpness st).2.cols = st.2.cols := by
  unfold depthPixelLoop
  apply forRange_invariant (fun (s : Mat ℚ × Mat uchar) => s.2.rows = st.2.rows ∧ s.2.cols = st.2.cols)
  · intro r s hs
    apply forRange_invariant (fun (s : Mat ℚ × Mat uchar) => s.2.rows = st.2.rows ∧ s.2.cols = st.2.cols)
    · intro c s hs
      by_cases hge : sharpness.atRC r c ≥ s.1.atRC r c
      · simpa [hge, Mat.set] using hs
      · simpa [hge] using hs
    · exact hs
  · exact ⟨rfl, rfl⟩

theorem depthLayerLoop_obs (ops : CvOps) (rows cols : Nat) (k : Int) (layer : Nat)
    (images : List Image) (st : Mat ℚ × Mat uchar) (i j : Nat) :
    ((depthLayerLoop ops rows cols k layer images st).1.data i j,
      (depthLayerLoop ops rows cols k layer images st).2.data i j) =
      if i < rows ∧ j < cols then
        pixFold layer (images.map fun image => (sharpnessOf ops k image).atRC i j)
          (st.1.data i j, st.2.data i j)
      else (st.1.data i j, st.2.data i j) := by
  induction images generalizing layer st with
  | nil => simp [depthLayerLoop, pixFold]
  | cons image rest ih =>
    simp only [depthLayerLoop, List.map_cons, pixFold]
    rw [ih, depthPixelLoop_obs]
    by_cases h : i < rows ∧ j < cols
    · simp [h]
    · simp [h]

theorem depthLayerLoop_dims (ops : CvOps) (rows cols : Nat) (k : Int) (layer : Nat)
    (images : List Image) (st : Mat ℚ × Mat uchar) :
    (depthLayerLoop ops rows cols k layer images st).2.rows = st.2.rows ∧
      (depthLayerLoop ops rows cols k layer images st).2.cols = st.2.cols := by
  induction images generalizing layer st with
  | nil => simp [depthLayerLoop]
  | cons image rest ih =>
    simp only [depthLayerLoop]
    rw [(ih _ _).1, (ih _ _).2]
    exact depthPixelLoop_dims _ _ _ _ _

/-- The raw depth map of a non-empty stack exists, has the size of layer 0, and
its value at a position inside the raster is the result of the per-pixel fold
over the sharpness values of the layers at that position. -/
theorem raw_depth_map_spec (ops : CvOps) (image0 : Image) (rest : List Image) (k : Int) :
    ∃ dm, raw_depth_map ops (image0 :: rest) k = some dm ∧
      dm.rows = image0.rows ∧ dm.cols = image0.cols ∧
      ∀ r c, dm.atRC r c =
        if r < image0.rows ∧ c < image0.cols then
          (pixFold 0 ((image0 :: rest).map fun image => (sharpnessOf ops k image).atRC r c)
            (0, 0)).2
        else 0 := by
  refine ⟨_, rfl, ?_, ?_, ?_⟩
  · exact (depthLayerLoop_dims _ _ _ _ _ _ _).1
  · exact (depthLayerLoop_dims _ _ _ _ _ _ _).2
  · intro r c
    have h := depthLayerLoop_obs ops image0.rows image0.cols k 0 (image0 :: rest)
      (Mat.zeros image0.rows image0.cols, Mat.zeros image0.rows image0.cols) r c
    have h2 := congrArg Prod.snd h
    simp only [] at h2
    show (depthLayerLoop ops image0.rows image0.cols k 0 (image0 :: rest)
      (Mat.zeros image0.rows image0.cols, Mat.zeros image0.rows image0.cols)).2.data r c = _
    rw [h2]
    by_cases hb : r < image0.rows ∧ c < image0.cols
    · simp [hb, Mat.zeros]
    · simp [hb, Mat.zeros]

/-- The stored index is the initial one or the narrowed index of a visited layer. -/
theorem pixFold_snd_cases (ss : List ℚ) (base : Nat) (st : ℚ × uchar) :
    (pixFold base ss st).2 = st.2 ∨
      ∃ j, j < ss.length ∧ (pixFold base ss st).2 = static_cast_uchar (base + j) := by
  induction ss generalizing base st with
  | nil => left; rfl
  | cons s rest ih =>
    simp only [pixFold]
    rcases ih (base + 1) (pixStep base s st) with h | ⟨j, hj, h⟩
    · by_cases hge : s ≥ st.1
      · right
        refine ⟨0, by simp, ?_⟩
        rw [h]; simp [pixStep, hge]
      · left
        rw [h]; simp [pixStep, hge]
    · right
      refine ⟨j + 1, by simpa using hj, ?_⟩
      rw [h]; congr 1; omega

theorem static_cast_uchar_val_le (n : Nat) : (static_cast_uchar n).val ≤ n :=
  Nat.mod_le n 256

theorem map_sharpness_getElem? (ops : CvOps) (k : Int) (images : List Image) (r c j : Nat) :
    (images.map fun image => (sharpnessOf ops k image).atRC r c)[j]? =
      (images[j]?).map fun image => (sharpnessOf ops k image).atRC r c := by
  simp

theorem raw_depth_map_dims (ops : CvOps) (images : List Image) (k : Int) (dm : Mat uchar)
    (hdm : raw_depth_map ops images k = some dm) (hsize : equallySized images) :
    ∀ image ∈ images, dm.rows = image.rows ∧ dm.cols = image.cols := by
  cases images with
  | nil => simp [raw_depth_map] at hdm
  | cons image0 rest =>
    obtain ⟨dm2, h2, hrows, hcols, -⟩ := raw_depth_map_spec ops image0 rest k
    rw [hdm] at h2
    cases h2
    intro image hmem
    have h := hsize image0 (List.mem_cons_self _ _) image hmem
    exact ⟨hrows.trans h.1, hcols.trans h.2⟩

theorem raw_depth_map_isSome (ops : CvOps) (images : List Image) (k : Int)
    (hne : images ≠ []) : ∃ dm, raw_depth_map ops images k = some dm := by
  cases images with
  | nil => exact absurd rfl hne
  | cons image0 rest => exact ⟨_, rfl⟩

/-- C2: for a non-empty stack of `N` equally sized layers the raw depth map of
`compute_depth_map` exists, has the size of the layers, and every value `d` in it
satisfies `0 ≤ d ≤ N - 1`. -/
theorem raw_depth_map_range (ops : CvOps) (images : List Image) (laplaceKernelSize : Int)
    (hne : images ≠ []) (hsize : equallySized images) :
    ∃ dm, raw_depth_map ops images laplaceKernelSize = some dm ∧
      (∀ image ∈ images, dm.rows = image.rows ∧ dm.cols = image.cols) ∧
      ∀ r c, (0 : Int) ≤ ((dm.atRC r c).val : Int) ∧
        ((dm.atRC r c).val : Int) ≤ (images.length : Int) - 1 := by
  cases images with
  | nil => exact absurd rfl hne
  | cons image0 rest =>
    obtain ⟨dm, hdm, hrows, hcols, hval⟩ := raw_depth_map_spec ops image0 rest laplaceKernelSize
    refine ⟨dm, hdm, raw_depth_map_dims ops _ _ dm hdm hsize, ?_⟩
    intro r c
    refine ⟨Int.natCast_nonneg _, ?_⟩
    rw [hval]
    by_cases hb : r < image0.rows ∧ c < image0.cols
    · rw [if_pos hb]
      rcases pixFold_snd_cases
        ((image0 :: rest).map fun image => (sharpnessOf ops laplaceKernelSize image).atRC r c)
        0 (0, 0) with h | ⟨j, hj, h⟩
      · rw [h]; simp
      · rw [h]
        have h1 := static_cast_uchar_val_le (0 + j)
        simp only [List.length_map] at hj
        omega
    · rw [if_neg hb]; simp

/-- Witness of C2 on a two-layer stack. -/
theorem raw_depth_map_range_witness :
    ∃ dm, raw_depth_map sampleOps [rowImage 0 0, rowImage 0 3] 3 = some dm ∧
      (∀ image ∈ [rowImage 0 0, rowImage 0 3], dm.rows = image.rows ∧ dm.cols = image.cols) ∧
      ∀ r c, (0 : Int) ≤ ((dm.atRC r c).val : Int) ∧
        ((dm.atRC r c).val : Int) ≤ (([rowImage 0 0, rowImage 0 3] : List Image).length : Int) - 1 :=
  raw_depth_map_range sampleOps [rowImage 0 0, rowImage 0 3] 3 (by simp)
    (by intro a ha b hb; simp at ha hb; rcases ha with rfl | rfl <;> rcases hb with rfl | rfl <;> simp [rowImage])

theorem equallySized_pair (a b c d : Nat) : equallySized [rowImage a b, rowImage c d] := by
  intro x hx y hy
  simp only [List.mem_cons, List.mem_singleton, List.not_mem_nil, or_false] at hx hy
  rcases hx with rfl | rfl <;> rcases hy with rfl | rfl <;> exact ⟨rfl, rfl⟩

theorem replicate_getElem?_lt {α : Type} (n : Nat) (x : α) (i : Nat) (hi : i < n) :
    (List.replicate n x)[i]? = some x := by
  rw [List.getElem?_replicate, if_pos hi]

theorem replicate_getElem?_ge {α : Type} (n : Nat) (x : α) (i : Nat) (hi : n ≤ i) :
    (List.replicate n x)[i]? = none := by
  rw [List.getElem?_replicate, if_neg (by omega)]

theorem flat257_ne_nil : flat257 ≠ [] := by
  intro h
  have := congrArg List.length h
  rw [flat257, List.length_replicate] at this
  cases this

theorem flat257_mem (image : Image) (h : image ∈ flat257) : image = rowImage 0 0 :=
  (List.mem_replicate.mp h).2

theorem flat257_equallySized : equallySized flat257 := by
  intro a ha b hb
  rw [flat257_mem a ha, flat257_mem b hb]
  exact ⟨rfl, rfl⟩

/-- C10: for a window size of at least 1, every value of the map returned by
`compute_local_variance` is the mean of the squares of the window samples minus
the square of the mean of the same samples, and it is not negative. -/
theorem compute_local_variance_nonneg (laplacian : Mat ℚ) (windowSize : Int)
    (hw : 1 ≤ windowSize) (r c : Nat) :
    (compute_local_variance laplacian windowSize).atRC r c =
        ((windowSamples laplacian windowSize r c).map fun x => x ^ 2).sum /
            ((windowSamples laplacian windowSize r c).length : ℚ) -
          ((windowSamples laplacian windowSize r c).sum /
            ((windowSamples laplacian windowSize r c).length : ℚ)) ^ 2 ∧
      0 < (windowSamples laplacian windowSize r c).length ∧
      0 ≤ (compute_local_variance laplacian windowSize).atRC r c := by
  have hcast : ((windowSize.toNat : Nat) : ℚ) = (windowSize : ℚ) := by
    have : ((windowSize.toNat : Nat) : Int) = windowSize := Int.toNat_of_nonneg (by omega)
    exact_mod_cast this
  have hpos : 0 < windowSize.toNat := by omega
  refine ⟨?_, ?_, variance_nonneg laplacian windowSize r c⟩
  · simp only [compute_local_variance, boxFilter, Mat.atRC, windowSamples_pow2,
      windowSamples_length]
    push_cast
    rw [hcast]
    ring
  · rw [windowSamples_length]
    exact Nat.mul_pos hpos hpos

/-- Witness of C10 on a raster of one row and two columns with window size 3. -/
theorem compute_local_variance_nonneg_witness :
    (compute_local_variance (sampleOps.Laplacian (sampleOps.cvtColor (rowImage 0 3))) 3).atRC 0 0 =
        ((windowSamples (sampleOps.Laplacian (sampleOps.cvtColor (rowImage 0 3))) 3 0 0).map
            fun x => x ^ 2).sum /
            ((windowSamples (sampleOps.Laplacian (sampleOps.cvtColor (rowImage 0 3))) 3 0 0).length : ℚ) -
          ((windowSamples (sampleOps.Laplacian (sampleOps.cvtColor (rowImage 0 3))) 3 0 0).sum /
            ((windowSamples (sampleOps.Laplacian (sampleOps.cvtColor (rowImage 0 3))) 3 0 0).length : ℚ)) ^ 2 ∧
      0 < (windowSamples (sampleOps.Laplacian (sampleOps.cvtColor (rowImage 0 3))) 3 0 0).length ∧
      0 ≤ (compute_local_variance (sampleOps.Laplacian (sampleOps.cvtColor (rowImage 0 3))) 3).atRC 0 0 :=
  compute_local_variance_nonneg (sampleOps.Laplacian (sampleOps.cvtColor (rowImage 0 3))) 3
    (by decide) 0 0

theorem forRangeM_pure {σ : Type} (n : Nat) (body : Nat → σ → Option σ) (pbody : Nat → σ → σ)
    (h : ∀ i, i < n → ∀ s, body i s = some (pbody i s)) (s : σ) :
    forRangeM n body s = some (forRange n pbody s) := by
  induction n with
  | zero => rfl
  | succ n ih =>
    rw [forRangeM_succ, forRange_succ, ih (fun i hi => h i (Nat.lt_succ_of_lt hi))]
    exact h n (Nat.lt_succ_self n) _

theorem forRangeM_none {σ : Type} (n : Nat) (body : Nat → σ → Option σ) (i : Nat) (hi : i < n)
    (h : ∀ s, body i s = none) (s : σ) : forRangeM n body s = none := by
  induction n with
  | zero => omega
  | succ n ih =>
    rw [forRangeM_succ]
    by_cases hin : i < n
    · rw [ih hin]; rfl
    · have : i = n := by omega
      subst this
      cases forRangeM i body s with
      | none => rfl
      | some t => exact h t

/-- When every pixel of the depth map yields a pixel, the composite exists, keeps
the size of layer 0, holds the computed pixel at every position of the depth
map and zero elsewhere. -/
theorem composite_spec (image0 : Image) (rest : List Image) (depthMap : Mat ℚ)
    (blendLayers : Bool) (f : Nat → Nat → Vec3b)
    (hf : ∀ r c, r < depthMap.rows → c < depthMap.cols →
      compositePixel (image0 :: rest) (depthMap.atRC r c) r c blendLayers = some (f r c)) :
    ∃ out, create_composite_image_from_depth_map (image0 :: rest) depthMap blendLayers = some out ∧
      out.rows = image0.rows ∧ out.cols = image0.cols ∧
      ∀ r c, out.atRC r c = if r < depthMap.rows ∧ c < depthMap.cols then f r c else 0 := by
  have hloop : create_composite_image_from_depth_map (image0 :: rest) depthMap blendLayers =
      some (forRange depthMap.rows (fun r composite =>
        forRange depthMap.cols (fun c composite => composite.set r c (f r c)) composite)
        (Mat.zeros image0.rows image0.cols)) := by
    unfold create_composite_image_from_depth_map
    apply forRangeM_pure
    intro r hr s
    apply forRangeM_pure
    intro c hc t
    show Option.map _ (compositePixel (image0 :: rest) (depthMap.atRC r c) r c blendLayers) = _
    rw [hf r c hr hc]
    rfl
  refine ⟨_, hloop, ?_, ?_, ?_⟩
  · apply forRange_invariant (fun (m : Image) => m.rows = image0.rows)
    · intro r s hs
      apply forRange_invariant (fun (m : Image) => m.rows = image0.rows)
      · intro c t ht; exact ht
      · exact hs
    · rfl
  · apply forRange_invariant (fun (m : Image) => m.cols = image0.cols)
    · intro r s hs
      apply forRange_invariant (fun (m : Image) => m.cols = image0.cols)
      · intro c t ht; exact ht
      · exact hs
    · rfl
  · intro r c
    have h := forRange_rows_obs (fun (m : Image) a b => m.data a b)
      (fun r c (m : Image) => m.set r c (f r c)) (fun r c _ => f r c)
      (by
        intro r c s a b
        simp only [Mat.set])
      depthMap.rows depthMap.cols (Mat.zeros image0.rows image0.cols) r c
    simp only [Mat.atRC]
    rw [h]
    rfl

/-- A pixel of the depth map that yields no pixel makes the whole composite
undefined. -/
theorem composite_none (image0 : Image) (rest : List Image) (depthMap : Mat ℚ)
    (blendLayers : Bool) (r c : Nat) (hr : r < depthMap.rows) (hc : c < depthMap.cols)
    (hnone : compositePixel (image0 :: rest) (depthMap.atRC r c) r c blendLayers = none) :
    create_composite_image_from_depth_map (image0 :: rest) depthMap blendLayers = none := by
  unfold create_composite_image_from_depth_map
  apply forRangeM_none _ _ r hr
  intro s
  apply forRangeM_none _ _ c hc
  intro t
  show Option.map _ (compositePixel (image0 :: rest) (depthMap.atRC r c) r c blendLayers) = _
  rw [hnone]
  rfl

theorem clamp_range (v hi : Int) (hhi : 0 ≤ hi) : 0 ≤ clamp v 0 hi ∧ clamp v 0 hi ≤ hi := by
  unfold clamp
  split_ifs <;> omega

theorem clamp_of_mem (v hi : Int) (h0 : 0 ≤ v) (h1 : v ≤ hi) : clamp v 0 hi = v := by
  unfold clamp
  split_ifs <;> omega

theorem layerAt_of_range (images : List Image) (i : Int) (h0 : 0 ≤ i)
    (h1 : i < (images.length : Int)) : ∃ image, layerAt images i = some image ∧ image ∈ images := by
  have hlt : i.toNat < images.length := by omega
  refine ⟨images[i.toNat], ?_, List.getElem_mem _⟩
  simp [layerAt, h0, List.getElem?_eq_getElem hlt]

theorem layerAt_none_of_ge (images : List Image) (i : Int) (h : (images.length : Int) ≤ i) :
    layerAt images i = none := by
  have h0 : 0 ≤ i := le_trans (Int.natCast_nonneg _) h
  have hge : images.length ≤ i.toNat := by omega
  simp [layerAt, h0, List.getElem?_eq_none hge]

/-- The clamped floor and ceiling of a depth value are the same layer, or the
depth value lies between them with a weight in `[0, 1)`. -/
theorem lower_upper_cases (d : ℚ) (hi : Int) (hhi : 0 ≤ hi) :
    clamp ⌊d⌋ 0 hi = clamp ⌈d⌉ 0 hi ∨
      (0 ≤ d - ((clamp ⌊d⌋ 0 hi : Int) : ℚ) ∧ d - ((clamp ⌊d⌋ 0 hi : Int) : ℚ) < 1) := by
  have h1 : ⌊d⌋ ≤ ⌈d⌉ := Int.floor_le_ceil d
  have h2 : ⌈d⌉ ≤ ⌊d⌋ + 1 := Int.ceil_le_floor_add_one d
  by_cases hin : 0 ≤ ⌊d⌋ ∧ ⌊d⌋ ≤ hi
  · right
    rw [clamp_of_mem _ _ hin.1 hin.2]
    have h3 := Int.floor_le d
    have h4 := Int.lt_floor_add_one d
    constructor <;> linarith
  · left
    unfold clamp
    split_ifs <;> omega

theorem static_cast_uchar_float_val (x : ℚ) (h0 : 0 ≤ x) (h1 : x < 256) :
    ((static_cast_uchar_float x).val : Int) = ⌊x⌋ := by
  have hf0 : 0 ≤ ⌊x⌋ := Int.floor_nonneg.mpr h0
  have hf1 : ⌊x⌋ < 256 := by
    rw [Int.floor_lt]
    exact_mod_cast h1
  simp only [static_cast_uchar_float, h0, if_true]
  omega

/-- Value written by the blending branch: both clamped layers exist, and every
channel is the conversion to `uchar` of the interpolated value, computed in
binary32 with the weight `depthValue - lowerLayer` computed in binary32. -/
theorem compositePixel_blend (images : List Image) (hne : images ≠ []) (d : ℚ) (r c : Nat) :
    ∃ lowerImage upperImage pixel,
      layerAt images (clamp ⌊d⌋ 0 ((images.length : Int) - 1)) = some lowerImage ∧
      layerAt images (clamp ⌈d⌉ 0 ((images.length : Int) - 1)) = some upperImage ∧
      compositePixel images d r c true = some pixel ∧
      ∀ i : Fin 3,
        pixel i = static_cast_uchar_float
          (blendValue (fl32 (d - fl32 ((clamp ⌊d⌋ 0 ((images.length : Int) - 1) : Int) : ℚ)))
            (lowerImage.atRC r c i) (upperImage.atRC r c i)) := by
  have hpos : 0 < images.length := List.length_pos.mpr hne
  have hhi : (0 : Int) ≤ (images.length : Int) - 1 := by omega
  obtain ⟨hl0, hl1⟩ := clamp_range ⌊d⌋ _ hhi
  obtain ⟨hu0, hu1⟩ := clamp_range ⌈d⌉ _ hhi
  obtain ⟨lowerImage, hlower, -⟩ := layerAt_of_range images _ hl0 (by omega)
  obtain ⟨upperImage, hupper, -⟩ := layerAt_of_range images _ hu0 (by omega)
  refine ⟨lowerImage, upperImage,
    (fun i => static_cast_uchar_float
      (blendValue (fl32 (d - fl32 ((clamp ⌊d⌋ 0 ((images.length : Int) - 1) : Int) : ℚ)))
        (lowerImage.atRC r c i) (upperImage.atRC r c i))), hlower, hupper, ?_, fun _ => rfl⟩
  simp only [compositePixel, if_true, hlower, hupper, Option.bind]

theorem compositePixel_nearest (images : List Image) (d : ℚ) (r c : Nat) :
    compositePixel images d r c false =
      (layerAt images (round d)).map fun image => image.atRC r c := by
  simp [compositePixel]

/-- Non-blended composite for a depth map whose rounded values index layers. -/
theorem composite_nearest_spec (images : List Image) (depthMap : Mat ℚ) (hne : images ≠ [])
    (hdims : ∀ image ∈ images, depthMap.rows = image.rows ∧ depthMap.cols = image.cols)
    (hrange : ∀ r c, r < depthMap.rows → c < depthMap.cols →
      0 ≤ round (depthMap.atRC r c) ∧ round (depthMap.atRC r c) < (images.length : Int)) :
    ∃ out, create_composite_image_from_depth_map images depthMap false = some out ∧
      out.rows = depthMap.rows ∧ out.cols = depthMap.cols ∧
      ∀ r c, r < depthMap.rows → c < depthMap.cols →
        ∃ layer, layerAt images (round (depthMap.atRC r c)) = some layer ∧
          out.atRC r c = layer.atRC r c := by
  cases images with
  | nil => exact absurd rfl hne
  | cons image0 rest =>
    have hd0 := hdims image0 (List.mem_cons_self _ _)
    obtain ⟨out, hout, hrows, hcols, hdata⟩ := composite_spec image0 rest depthMap false
      (fun r c => ((layerAt (image0 :: rest) (round (depthMap.atRC r c))).map
        fun image => image.atRC r c).getD 0)
      (by
        intro r c hr hc
        obtain ⟨h0, h1⟩ := hrange r c hr hc
        obtain ⟨layer, hlayer, -⟩ := layerAt_of_range (image0 :: rest) _ h0 h1
        simp [compositePixel_nearest, hlayer])
    refine ⟨out, hout, hrows.trans hd0.1.symm, hcols.trans hd0.2.symm, ?_⟩
    intro r c hr hc
    obtain ⟨h0, h1⟩ := hrange r c hr hc
    obtain ⟨layer, hlayer, -⟩ := layerAt_of_range (image0 :: rest) _ h0 h1
    refine ⟨layer, hlayer, ?_⟩
    rw [hdata, if_pos ⟨hr, hc⟩]
    simp [hlayer]

/-- Blended composite of a non-empty stack: it exists for every depth map, and
every channel is the conversion to `uchar` of the interpolated value computed in
binary32. -/
theorem composite_blend_spec (images : List Image) (depthMap : Mat ℚ) (hne : images ≠ [])
    (hdims : ∀ image ∈ images, depthMap.rows = image.rows ∧ depthMap.cols = image.cols) :
    ∃ out, create_composite_image_from_depth_map images depthMap true = some out ∧
      out.rows = depthMap.rows ∧ out.cols = depthMap.cols ∧
      ∀ r c, r < depthMap.rows → c < depthMap.cols →
        ∃ lowerImage upperImage,
          layerAt images (clamp ⌊depthMap.atRC r c⌋ 0 ((images.length : Int) - 1)) =
            some lowerImage ∧
          layerAt images (clamp ⌈depthMap.atRC r c⌉ 0 ((images.length : Int) - 1)) =
            some upperImage ∧
          ∀ i : Fin 3,
            out.atRC r c i = static_cast_uchar_float
              (blendValue
                (fl32 (depthMap.atRC r c -
                  fl32 ((clamp ⌊depthMap.atRC r c⌋ 0 ((images.length : Int) - 1) : Int) : ℚ)))
                (lowerImage.atRC r c i) (upperImage.atRC r c i)) := by
  cases images with
  | nil => exact absurd rfl hne
  | cons image0 rest =>
    have hd0 := hdims image0 (List.mem_cons_self _ _)
    obtain ⟨out, hout, hrows, hcols, hdata⟩ := composite_spec image0 rest depthMap true
      (fun r c => (compositePixel (image0 :: rest) (depthMap.atRC r c) r c true).getD 0)
      (by
        intro r c hr hc
        obtain ⟨_, _, pixel, -, -, hpixel, -⟩ :=
          compositePixel_blend (image0 :: rest) hne (depthMap.atRC r c) r c
        simp [hpixel])
    refine ⟨out, hout, hrows.trans hd0.1.symm, hcols.trans hd0.2.symm, ?_⟩
    intro r c hr hc
    obtain ⟨lowerImage, upperImage, pixel, hlower, hupper, hpixel, hval⟩ :=
      compositePixel_blend (image0 :: rest) hne (depthMap.atRC r c) r c
    refine ⟨lowerImage, upperImage, hlower, hupper, ?_⟩
    intro i
    rw [hdata, if_pos ⟨hr, hc⟩]
    simp only [hpixel, Option.getD_some]
    exact hval i

theorem round_intCast (k : Int) (hk : 0 ≤ k) : round (k : ℚ) = k := by
  have h0 : (0 : ℚ) ≤ (k : ℚ) := by exact_mod_cast hk
  simp only [round, h0, if_true]
  rw [Int.floor_eq_iff]
  constructor <;> linarith

theorem round_one : round (1 : ℚ) = 1 := by
  have := round_intCast 1 (by decide)
  simpa using this

theorem dims_pair (a b c d : Nat) (v : ℚ) :
    ∀ image ∈ [rowImage a b, rowImage c d],
      (constDepth 1 2 v).rows = image.rows ∧ (constDepth 1 2 v).cols = image.cols := by
  intro image hmem
  simp only [List.mem_cons, List.mem_singleton, List.not_mem_nil, or_false] at hmem
  rcases hmem with rfl | rfl <;> exact ⟨rfl, rfl⟩

theorem dims_single (a b : Nat) (v : ℚ) :
    ∀ image ∈ [rowImage a b],
      (constDepth 1 2 v).rows = image.rows ∧ (constDepth 1 2 v).cols = image.cols := by
  intro image hmem
  rw [List.mem_singleton.mp hmem]
  exact ⟨rfl, rfl⟩

/-- C5, amended: for a non-empty stack and a depth map of the size of the layers
whose rounded values are layer indices, the composite without blending exists,
has the size of the depth map, and its pixel at every position is the pixel at
that position of the layer whose index is the rounded depth value. -/
theorem composite_nearest_layer (images : List Image) (depthMap : Mat ℚ) (hne : images ≠ [])
    (hdims : ∀ image ∈ images, depthMap.rows = image.rows ∧ depthMap.cols = image.cols)
    (hrange : ∀ r c, r < depthMap.rows → c < depthMap.cols →
      0 ≤ round (depthMap.atRC r c) ∧ round (depthMap.atRC r c) < (images.length : Int)) :
    ∃ out, create_composite_image_from_depth_map images depthMap false = some out ∧
      out.rows = depthMap.rows ∧ out.cols = depthMap.cols ∧
      ∀ r c, r < depthMap.rows → c < depthMap.cols →
        ∃ layer, layerAt images (round (depthMap.atRC r c)) = some layer ∧
          out.atRC r c = layer.atRC r c :=
  composite_nearest_spec images depthMap hne hdims hrange

/-- Witness of C5 (amended): two layers and a depth map that is 1 everywhere. -/
theorem composite_nearest_layer_witness :
    ∃ out, create_composite_image_from_depth_map [rowImage 0 0, rowImage 1 1]
        (constDepth 1 2 1) false = some out ∧
      out.rows = (constDepth 1 2 1).rows ∧ out.cols = (constDepth 1 2 1).cols ∧
      ∀ r c, r < (constDepth 1 2 1).rows → c < (constDepth 1 2 1).cols →
        ∃ layer, layerAt [rowImage 0 0, rowImage 1 1] (round ((constDepth 1 2 1).atRC r c)) =
            some layer ∧
          out.atRC r c = layer.atRC r c :=
  composite_nearest_layer [rowImage 0 0, rowImage 1 1] (constDepth 1 2 1) (by simp)
    (dims_pair 0 0 1 1 1)
    (by
      intro r c _ _
      show 0 ≤ round (1 : ℚ) ∧ round (1 : ℚ) < (([rowImage 0 0, rowImage 1 1] : List Image).length : Int)
      rw [round_one]
      decide)

/-- C5 as stated fails for a depth map of the size of the layers whose rounded
value is not a layer index: with one layer and depth 1 everywhere the source
reads `images[1]`, and no composite is produced. -/
theorem composite_nearest_layer_fails_out_of_range :
    (∀ image ∈ [rowImage 0 0],
        (constDepth 1 2 1).rows = image.rows ∧ (constDepth 1 2 1).cols = image.cols) ∧
      round ((constDepth 1 2 1).atRC 0 0) = 1 ∧
      layerAt [rowImage 0 0] 1 = none ∧
      create_composite_image_from_depth_map [rowImage 0 0] (constDepth 1 2 1) false = none := by
  have hlayer : layerAt [rowImage 0 0] 1 = none := layerAt_none_of_ge _ _ (by simp)
  refine ⟨dims_single 0 0 1, round_one, hlayer, ?_⟩
  apply composite_none (rowImage 0 0) [] (constDepth 1 2 1) false 0 0 (by decide) (by decide)
  rw [compositePixel_nearest]
  show Option.map _ (layerAt [rowImage 0 0] (round (1 : ℚ))) = none
  rw [round_one, hlayer]
  rfl

theorem floor_three_quarters : ⌊(3 / 4 : ℚ)⌋ = 0 := by
  rw [Int.floor_eq_iff]; norm_num

theorem ceil_three_quarters : ⌈(3 / 4 : ℚ)⌉ = 1 := by
  rw [Int.ceil_eq_iff]; norm_num

theorem round_three_quarters : round (3 / 4 : ℚ) = 1 := by
  have h0 : (0 : ℚ) ≤ 3 / 4 := by norm_num
  simp only [round, h0, if_true]
  rw [Int.floor_eq_iff]; norm_num

theorem static_cast_uchar_float_of_uchar (x : uchar) :
    static_cast_uchar_float (x.val : ℚ) = x := by
  have h1 : ((x.val : Nat) : ℚ) < 256 := by
    have := x.isLt
    exact_mod_cast this
  have h := static_cast_uchar_float_val (x.val : ℚ) (Nat.cast_nonneg _) h1
  rw [Int.floor_natCast] at h
  exact Fin.ext (by exact_mod_cast h)

/-- With the weight 0 the interpolation is the lower channel value, without a
rounding error. -/
theorem blendValue_zero (lower upper : uchar) : blendValue 0 lower upper = (lower.val : ℚ) := by
  unfold blendValue
  rw [sub_zero, fl32_one, one_mul, zero_mul, fl32_zero, add_zero, fl32_uchar, fl32_uchar]

/-- With the weight 1 the interpolation is the upper channel value, without a
rounding error. -/
theorem blendValue_one (lower upper : uchar) : blendValue 1 lower upper = (upper.val : ℚ) := by
  unfold blendValue
  rw [sub_self, fl32_zero, zero_mul, fl32_zero, one_mul, zero_add, fl32_uchar, fl32_uchar]

/-- For an integer depth value that is a layer index below `2 ^ 24`, the blending
branch and the nearest-layer branch write the same pixel. -/
theorem compositePixel_blend_eq_nearest (images : List Image) (k : Int) (hk0 : 0 ≤ k)
    (hk1 : k < (images.length : Int)) (hk24 : k < 2 ^ 24) (r c : Nat) :
    compositePixel images (k : ℚ) r c true = compositePixel images (k : ℚ) r c false := by
  obtain ⟨image, himage, -⟩ := layerAt_of_range images k hk0 hk1
  have hlow : clamp ⌊(k : ℚ)⌋ 0 ((images.length : Int) - 1) = k := by
    rw [Int.floor_intCast]; exact clamp_of_mem _ _ hk0 (by omega)
  have hup : clamp ⌈(k : ℚ)⌉ 0 ((images.length : Int) - 1) = k := by
    rw [Int.ceil_intCast]; exact clamp_of_mem _ _ hk0 (by omega)
  have hweight : fl32 ((k : ℚ) - fl32 (k : ℚ)) = 0 := by
    rw [fl32_intCast k (by rw [abs_of_nonneg hk0]; exact hk24), sub_self, fl32_zero]
  simp only [compositePixel, if_true, hlow, hup, himage, round_intCast k hk0, Option.bind,
    Option.map, Bool.false_eq_true, if_false, hweight]
  congr 1
  funext i
  rw [blendValue_zero, static_cast_uchar_float_of_uchar]

/-- For a depth map that holds the same in-range integer `k` at every position,
blending and not blending give the same composite. -/
theorem composite_blend_eq_nearest_in_range (images : List Image) (depthMap : Mat ℚ) (k : Int)
    (hk0 : 0 ≤ k) (hk1 : k < (images.length : Int)) (hk24 : k < 2 ^ 24)
    (hconst : ∀ r c, depthMap.atRC r c = (k : ℚ)) :
    create_composite_image_from_depth_map images depthMap true =
      create_composite_image_from_depth_map images depthMap false := by
  have hpix : ∀ r c, compositePixel images (depthMap.atRC r c) r c true =
      compositePixel images (depthMap.atRC r c) r c false := by
    intro r c
    rw [hconst]
    exact compositePixel_blend_eq_nearest images k hk0 hk1 hk24 r c
  unfold create_composite_image_from_depth_map
  simp only [hpix]

theorem clamp_zero_zero (v : Int) : clamp v 0 0 = 0 := by
  have := clamp_range v 0 (le_refl 0)
  omega

/-- C7 at a failing input: one layer and the constant integer depth 1. The
blended composite is the layer itself; without blending the source reads
`images[1]` and no composite is produced. -/
theorem composite_blend_differs_out_of_range :
    create_composite_image_from_depth_map [rowImage 7 7] (constDepth 1 2 1) false = none ∧
      ∃ out, create_composite_image_from_depth_map [rowImage 7 7] (constDepth 1 2 1) true =
          some out ∧
        ∀ r c, r < 1 → c < 2 → out.atRC r c = (rowImage 7 7).atRC r c := by
  constructor
  · have hlayer : layerAt [rowImage 7 7] 1 = none := layerAt_none_of_ge _ _ (by simp)
    apply composite_none (rowImage 7 7) [] (constDepth 1 2 1) false 0 0 (by decide) (by decide)
    rw [compositePixel_nearest]
    show Option.map _ (layerAt [rowImage 7 7] (round (1 : ℚ))) = none
    rw [round_one, hlayer]
    rfl
  · obtain ⟨out, hout, -, -, hpix⟩ := composite_blend_spec [rowImage 7 7]
      (constDepth 1 2 1) (by simp) (dims_single 7 7 1)
    refine ⟨out, hout, ?_⟩
    intro r c hr hc
    obtain ⟨lowerImage, upperImage, hlower, hupper, hval⟩ := hpix r c hr hc
    have hlen : ((([rowImage 7 7] : List Image).length : Int) - 1) = 0 := rfl
    rw [hlen, clamp_zero_zero] at hlower hupper
    have hl : layerAt [rowImage 7 7] 0 = some (rowImage 7 7) := rfl
    rw [hl] at hlower hupper
    cases hlower
    cases hupper
    funext i
    have hweight : fl32 ((constDepth 1 2 1).atRC r c - fl32 ((0 : Int) : ℚ)) = 1 := by
      show fl32 ((1 : ℚ) - fl32 ((0 : Int) : ℚ)) = 1
      rw [Int.cast_zero, fl32_zero, sub_zero, fl32_one]
    have h := hval i
    rw [hlen, clamp_zero_zero, hweight, blendValue_one, static_cast_uchar_float_of_uchar] at h
    exact h

/-- With no smoothing pass the loop leaves `depthMapSmoothed` as constructed, and
that empty raster is what `compute_depth_map` returns. -/
theorem compute_depth_map_no_pass (ops : CvOps) (images : List Image)
    (laplaceKernelSize smoothKernelSize smoothStrength smoothIterations : Int)
    (hne : images ≠ []) (hn : smoothIterations ≤ 0) :
    compute_depth_map ops images laplaceKernelSize smoothKernelSize smoothStrength
      smoothIterations = some Mat.empty := by
  obtain ⟨raw, hraw⟩ := raw_depth_map_isSome ops images laplaceKernelSize hne
  have h0 : smoothIterations.toNat = 0 := Int.toNat_eq_zero.mpr hn
  simp only [compute_depth_map, hraw, Option.map_some', smoothLoop, h0, forRange_zero]

/-- C1 at a failing input: for a stack of two layers of one row and two columns
and `smoothIterations = 0`, the raw depth map has one row and two columns, and
the map returned by `compute_depth_map` has no rows and no columns. -/
theorem compute_depth_map_zero_iterations_empty :
    ∀ ops : CvOps,
      ∃ raw dm, raw_depth_map ops [rowImage 0 0, rowImage 0 3] 3 = some raw ∧
        raw.rows = 1 ∧ raw.cols = 2 ∧
        compute_depth_map ops [rowImage 0 0, rowImage 0 3] 3 17 100 0 = some dm ∧
        dm.rows = 0 ∧ dm.cols = 0 := by
  intro ops
  obtain ⟨raw, hraw, hrows, hcols, -⟩ := raw_depth_map_spec ops (rowImage 0 0) [rowImage 0 3] 3
  exact ⟨raw, Mat.empty, hraw, hrows, hcols,
    compute_depth_map_no_pass ops _ 3 17 100 0 (by simp) (le_refl 0), rfl, rfl⟩

theorem align_images_single (ops : CvOps) (image : Image) :
    align_images ops [image] = some [image] := rfl

theorem composite_of_empty_depth (image0 : Image) (rest : List Image) (blendLayers : Bool) :
    create_composite_image_from_depth_map (image0 :: rest) Mat.empty blendLayers =
      some (Mat.zeros image0.rows image0.cols) := rfl

/-- C8 at a failing input: one white image of one row and two columns and
`smoothIterations = 0`. Alignment returns the image, the depth map returned has
no rows and no columns, and the composite delivered is black at position (0, 0)
where the image is white. -/
theorem focus_stack_single_zero_iterations :
    ∀ (ops : CvOps) (blendLayers : Bool),
      align_images ops [rowImage 255 255] = some [rowImage 255 255] ∧
      compute_depth_map ops [rowImage 255 255] 3 17 100 0 = some Mat.empty ∧
      ∃ out, focus_stack ops [rowImage 255 255] 3 17 100 0 blendLayers = some out ∧
        out.rows = 1 ∧ out.cols = 2 ∧
        (∀ i : Fin 3, (out.atRC 0 0 i).val = 0) ∧
        (∀ i : Fin 3, ((rowImage 255 255).atRC 0 0 i).val = 255) := by
  intro ops blendLayers
  have hdepth := compute_depth_map_no_pass ops [rowImage 255 255] 3 17 100 0 (by simp)
    (le_refl 0)
  refine ⟨rfl, hdepth, Mat.zeros 1 2, ?_, rfl, rfl, fun _ => rfl, fun _ => rfl⟩
  simp only [focus_stack, align_images_single, Option.bind, hdepth]
  rfl

/-- C9 at the failing input: for the empty stack `align_images` returns the empty
stack, `compute_depth_map` is applied to it and reads `images[0]`, and the run
does not reach `focusStackingComplete`. -/
theorem focus_stack_empty_reaches_depth_map :
    ∀ (ops : CvOps) (laplaceKernelSize smoothKernelSize smoothStrength smoothIterations : Int)
      (blendLayers : Bool),
      align_images ops [] = some [] ∧
      compute_depth_map ops [] laplaceKernelSize smoothKernelSize smoothStrength
        smoothIterations = none ∧
      focus_stack ops [] laplaceKernelSize smoothKernelSize smoothStrength smoothIterations
          blendLayers =
        (compute_depth_map ops [] laplaceKernelSize smoothKernelSize smoothStrength
          smoothIterations).bind
          (fun depthMap => create_composite_image_from_depth_map [] depthMap blendLayers) ∧
      focus_stack ops [] laplaceKernelSize smoothKernelSize smoothStrength smoothIterations
          blendLayers = none := by
  intro ops lk sk ss n blendLayers
  exact ⟨rfl, rfl, rfl, rfl⟩

theorem raw_depth_map_single (ops : CvOps) (image : Image) (k : Int) :
    ∃ raw, raw_depth_map ops [image] k = some raw ∧ raw.rows = image.rows ∧
      raw.cols = image.cols ∧ ∀ r c, raw.atRC r c = 0 := by
  obtain ⟨raw, hraw, hrows, hcols, hval⟩ := raw_depth_map_spec ops image [] k
  refine ⟨raw, hraw, hrows, hcols, ?_⟩
  intro r c
  rw [hval]
  by_cases hb : r < image.rows ∧ c < image.cols
  · rw [if_pos hb]
    rcases pixFold_snd_cases ([image].map fun image => (sharpnessOf ops k image).atRC r c)
      0 (0, 0) with h | ⟨j, hj, h⟩
    · exact h
    · have hj0 : j = 0 := by simpa using hj
      rw [h, hj0]; rfl
  · rw [if_neg hb]

/-- Smoothing an all-zero depth map at least once with a filter that keeps
all-zero rasters yields an all-zero raster of the same size. -/
theorem smoothLoop_zero (ops : CvOps) (sk ss : Int) (n : Nat) (depthMap other : Mat ℚ)
    (hbil : ∀ (src : Mat ℚ) (d s1 s2 : Int), (∀ r c, src.atRC r c = 0) →
      (ops.bilateralFilter src d s1 s2).rows = src.rows ∧
      (ops.bilateralFilter src d s1 s2).cols = src.cols ∧
      ∀ r c, (ops.bilateralFilter src d s1 s2).atRC r c = 0)
    (hzero : ∀ r c, depthMap.atRC r c = 0) :
    (smoothLoop ops sk ss ((n : Int) + 1) (depthMap, other)).2.rows = depthMap.rows ∧
      (smoothLoop ops sk ss ((n : Int) + 1) (depthMap, other)).2.cols = depthMap.cols ∧
      ∀ r c, (smoothLoop ops sk ss ((n : Int) + 1) (depthMap, other)).2.atRC r c = 0 := by
  have htoNat : ((n : Int) + 1).toNat = n + 1 := by omega
  have hinv : ∀ m : Nat,
      (forRange m (fun _ (st : Mat ℚ × Mat ℚ) =>
        (ops.bilateralFilter st.1 sk ss ss, ops.bilateralFilter st.1 sk ss ss))
        (depthMap, other)).1.rows = depthMap.rows ∧
      (forRange m (fun _ (st : Mat ℚ × Mat ℚ) =>
        (ops.bilateralFilter st.1 sk ss ss, ops.bilateralFilter st.1 sk ss ss))
        (depthMap, other)).1.cols = depthMap.cols ∧
      ∀ r c, (forRange m (fun _ (st : Mat ℚ × Mat ℚ) =>
        (ops.bilateralFilter st.1 sk ss ss, ops.bilateralFilter st.1 sk ss ss))
        (depthMap, other)).1.atRC r c = 0 := by
    intro m
    induction m with
    | zero => exact ⟨rfl, rfl, hzero⟩
    | succ m ih =>
      rw [forRange_succ]
      obtain ⟨h1, h2, h3⟩ := hbil _ sk ss ss ih.2.2
      exact ⟨h1.trans ih.1, h2.trans ih.2.1, h3⟩
  simp only [smoothLoop, htoNat]
  rw [forRange_succ]
  obtain ⟨h1, h2, h3⟩ := hbil _ sk ss ss (hinv n).2.2
  exact ⟨h1.trans (hinv n).1, h2.trans (hinv n).2.1, h3⟩

theorem compositePixel_depth_zero (image : Image) (r c : Nat) (blendLayers : Bool) :
    compositePixel [image] 0 r c blendLayers = some (image.atRC r c) := by
  have hfalse : compositePixel [image] 0 r c false = some (image.atRC r c) := by
    rw [compositePixel_nearest]
    have h := round_intCast 0 (le_refl 0)
    simp only [Int.cast_zero] at h
    rw [h]
    rfl
  cases blendLayers with
  | false => exact hfalse
  | true =>
    have h := compositePixel_blend_eq_nearest [image] 0 (le_refl 0) (by simp) (by norm_num) r c
    simp only [Int.cast_zero] at h
    rw [h, hfalse]

/-- For a stack of one image and at least one smoothing pass, with a bilateral
filter that keeps all-zero rasters, `focus_stack` passes the image through
alignment unchanged, computes a depth map that is zero everywhere, and
delivers the image itself. -/
theorem focus_stack_single_image (ops : CvOps) (image : Image)
    (laplaceKernelSize smoothKernelSize smoothStrength smoothIterations : Int)
    (blendLayers : Bool) (hn : 1 ≤ smoothIterations)
    (hbil : ∀ (src : Mat ℚ) (d s1 s2 : Int), (∀ r c, src.atRC r c = 0) →
      (ops.bilateralFilter src d s1 s2).rows = src.rows ∧
      (ops.bilateralFilter src d s1 s2).cols = src.cols ∧
      ∀ r c, (ops.bilateralFilter src d s1 s2).atRC r c = 0) :
    align_images ops [image] = some [image] ∧
      ∃ depthMap, compute_depth_map ops [image] laplaceKernelSize smoothKernelSize
          smoothStrength smoothIterations = some depthMap ∧
        depthMap.rows = image.rows ∧ depthMap.cols = image.cols ∧
        (∀ r c, depthMap.atRC r c = 0) ∧
        ∃ out, focus_stack ops [image] laplaceKernelSize smoothKernelSize smoothStrength
            smoothIterations blendLayers = some out ∧
          out.rows = image.rows ∧ out.cols = image.cols ∧
          ∀ r c, r < image.rows → c < image.cols → out.atRC r c = image.atRC r c := by
  obtain ⟨raw, hraw, hrows, hcols, hzero⟩ := raw_depth_map_single ops image laplaceKernelSize
  obtain ⟨n, hnat⟩ : ∃ n : Nat, smoothIterations = (n : Int) + 1 :=
    ⟨(smoothIterations - 1).toNat, by omega⟩
  subst hnat
  have hsmooth := smoothLoop_zero ops smoothKernelSize smoothStrength n
    (raw.convertTo fun v => (v.val : ℚ)) Mat.empty hbil
    (by
      intro r c
      show (((raw.atRC r c).val : Nat) : ℚ) = 0
      rw [hzero r c]
      simp)
  have hdepth : compute_depth_map ops [image] laplaceKernelSize smoothKernelSize smoothStrength
      ((n : Int) + 1) = some (smoothLoop ops smoothKernelSize smoothStrength ((n : Int) + 1)
        (raw.convertTo fun v => (v.val : ℚ), Mat.empty)).2 := by
    simp only [compute_depth_map, hraw, Option.map_some']
  refine ⟨rfl, _, hdepth, hsmooth.1.trans hrows, hsmooth.2.1.trans hcols, hsmooth.2.2, ?_⟩
  obtain ⟨out, hout, horows, hocols, hdata⟩ := composite_spec image []
    (smoothLoop ops smoothKernelSize smoothStrength ((n : Int) + 1)
      (raw.convertTo fun v => (v.val : ℚ), Mat.empty)).2 blendLayers
    (fun r c => image.atRC r c)
    (by
      intro r c _ _
      rw [hsmooth.2.2 r c]
      exact compositePixel_depth_zero image r c blendLayers)
  refine ⟨out, ?_, horows, hocols, ?_⟩
  · simp only [focus_stack, align_images_single, Option.bind, hdepth]
    exact hout
  · intro r c hr hc
    rw [hdata, if_pos]
    exact ⟨by rw [hsmooth.1]; exact hrows ▸ hr, by rw [hsmooth.2.1]; exact hcols ▸ hc⟩

theorem goodMatchesOf_foldl (knnMatches : List (List DMatch)) (acc : List DMatch) :
    knnMatches.foldl
      (fun goodMatches knnMatch =>
        match knnMatch with
        | m0 :: m1 :: _ =>
            if m0.distance < fl32 (ratioThresh * m1.distance) then goodMatches ++ [m0]
            else goodMatches
        | _ => goodMatches)
      acc =
      acc ++ (knnMatches.filter passesRatioTest).filterMap List.head? := by
  induction knnMatches generalizing acc with
  | nil => simp
  | cons k rest ih =>
    simp only [List.foldl_cons]
    rw [ih]
    match k with
    | [] => simp [passesRatioTest]
    | [m0] => simp [passesRatioTest]
    | m0 :: m1 :: tail =>
      by_cases h : m0.distance < fl32 (ratioThresh * m1.distance)
      · simp [passesRatioTest, h]
      · simp [passesRatioTest, h]

theorem goodMatchesOf_eq_filter (knnMatches : List (List DMatch)) :
    goodMatchesOf knnMatches = (knnMatches.filter passesRatioTest).filterMap List.head? := by
  unfold goodMatchesOf
  rw [goodMatchesOf_foldl]
  rfl

/-- The pixel loop body is defined exactly when every layer index it uses is
inside the vector. -/
theorem compositePixel_isSome_iff (images : List Image) (d : ℚ) (r c : Nat)
    (blendLayers : Bool) :
    (compositePixel images d r c blendLayers).isSome = true ↔
      ∀ i ∈ usedLayerIndices (images.length : Int) d blendLayers,
        (layerAt images i).isSome = true := by
  cases blendLayers with
  | false =>
    simp only [compositePixel, usedLayerIndices, Bool.false_eq_true, if_false,
      List.mem_singleton, forall_eq, Option.isSome_map']
  | true =>
    simp only [compositePixel, usedLayerIndices, if_true, List.mem_cons, List.mem_singleton,
      List.not_mem_nil, or_false, forall_eq_or_imp, forall_eq]
    cases h1 : layerAt images (clamp ⌊d⌋ 0 ((images.length : Int) - 1)) with
    | none => simp
    | some lowerImage =>
      cases h2 : layerAt images (clamp ⌈d⌉ 0 ((images.length : Int) - 1)) with
      | none => simp
      | some upperImage => simp

theorem layerAt_isSome_iff (images : List Image) (i : Int) :
    (layerAt images i).isSome = true ↔ 0 ≤ i ∧ i ≤ (images.length : Int) - 1 := by
  constructor
  · intro h
    by_contra hcon
    have hnone : layerAt images i = none := by
      by_cases h0 : 0 ≤ i
      · exact layerAt_none_of_ge images i (by omega)
      · simp [layerAt, h0]
    rw [hnone] at h
    cases h
  · rintro ⟨h0, h1⟩
    obtain ⟨image, himage, -⟩ := layerAt_of_range images i h0 (by omega)
    rw [himage]; rfl

/-- With blending, both layer indices used for a depth value lie in `[0, N-1]`. -/
theorem blend_indices_in_range (numImages : Int) (hn : 1 ≤ numImages) (d : ℚ) :
    ∀ i ∈ usedLayerIndices numImages d true, 0 ≤ i ∧ i ≤ numImages - 1 := by
  intro i hi
  simp only [usedLayerIndices, if_true, List.mem_cons, List.mem_singleton, List.not_mem_nil,
    or_false] at hi
  rcases hi with rfl | rfl
  · exact clamp_range _ _ (by omega)
  · exact clamp_range _ _ (by omega)

/-- C12 at a failing input: one layer and depth value 1 without blending. The
index used is `round(1) = 1`, outside `[0, 0]`, so `images[1]` is read outside
the vector and no composite is produced; with blending every index used lies
in `[0, N-1]` for every depth value. -/
theorem composite_nearest_index_out_of_range :
    usedLayerIndices (([rowImage 7 7] : List Image).length : Int) 1 false = [1] ∧
      ¬ ((0 : Int) ≤ 1 ∧ (1 : Int) ≤ (([rowImage 7 7] : List Image).length : Int) - 1) ∧
      layerAt [rowImage 7 7] 1 = none ∧
      compositePixel [rowImage 7 7] 1 0 0 false = none ∧
      create_composite_image_from_depth_map [rowImage 7 7] (constDepth 1 2 1) false = none ∧
      ∀ (images : List Image) (d : ℚ), images ≠ [] →
        ∀ i ∈ usedLayerIndices (images.length : Int) d true,
          0 ≤ i ∧ i ≤ (images.length : Int) - 1 := by
  have hlayer : layerAt [rowImage 7 7] 1 = none := layerAt_none_of_ge _ _ (by simp)
  have hpix : compositePixel [rowImage 7 7] 1 0 0 false = none := by
    rw [compositePixel_nearest, round_one, hlayer]; rfl
  refine ⟨?_, by decide, hlayer, hpix, ?_, ?_⟩
  · simp only [usedLayerIndices, Bool.false_eq_true, if_false, round_one]
  · exact composite_none (rowImage 7 7) [] (constDepth 1 2 1) false 0 0 (by decide) (by decide)
      hpix
  · intro images d hne
    have hpos : 0 < images.length := List.length_pos.mpr hne
    exact blend_indices_in_range _ (by omega) d

theorem mapM_getElem?_of_lt {α β : Type} (l : List α) (xs : List β) (idx : α → Nat)
    (h : ∀ a ∈ l, idx a < xs.length) :
    ∃ ys, (l.mapM fun a => xs[idx a]?) = some ys ∧ ys.length = l.length := by
  induction l with
  | nil => exact ⟨[], rfl, rfl⟩
  | cons a l ih =>
    obtain ⟨ys, hys, hlen⟩ := ih (fun b hb => h b (List.mem_cons_of_mem _ hb))
    obtain ⟨y, hy⟩ : ∃ y, xs[idx a]? = some y :=
      ⟨_, List.getElem?_eq_getElem (h a (List.mem_cons_self _ _))⟩
    refine ⟨y :: ys, ?_, by simp [hlen]⟩
    rw [List.mapM_cons, hy, hys]
    rfl

/-- With valid match indices the loop body for one image is defined: the image
is skipped when fewer than 4 matches are accepted and warped into the size of
the base image otherwise. -/
theorem alignLayer_of_valid (ops : CvOps) (image0 image : Image)
    (hvalid : matchIndicesValid ops image0 image) :
    ((acceptedMatches ops image0 image).length < 4 →
        alignLayer ops image0 (baseFeatures ops image0).1 (baseFeatures ops image0).2 image =
          some none) ∧
      (4 ≤ (acceptedMatches ops image0 image).length →
        ∃ H, alignLayer ops image0 (baseFeatures ops image0).1 (baseFeatures ops image0).2
            image = some (some (ops.warpAffine image H image0.rows image0.cols))) := by
  obtain ⟨pointsRef, hRef, hRefLen⟩ := mapM_getElem?_of_lt (acceptedMatches ops image0 image)
    (baseFeatures ops image0).1 (fun m => m.queryIdx) (fun m hm => (hvalid m hm).1)
  obtain ⟨pointsCur, hCur, hCurLen⟩ := mapM_getElem?_of_lt (acceptedMatches ops image0 image)
    (layerFeatures ops image).1 (fun m => m.trainIdx) (fun m hm => (hvalid m hm).2)
  have hbody : alignLayer ops image0 (baseFeatures ops image0).1 (baseFeatures ops image0).2
      image =
      if pointsCur.length < 4 ∨ pointsRef.length < 4 then some none
      else some (some (ops.warpAffine image (ops.estimateAffinePartial2D pointsCur pointsRef)
        image0.rows image0.cols)) := by
    unfold alignLayer
    unfold acceptedMatches layerFeatures at hRef hCur
    simp only [hRef, hCur, Option.bind]
  rw [hbody, hCurLen, hRefLen]
  constructor
  · intro hlt
    rw [if_pos (Or.inl hlt)]
  · intro hge
    rw [if_neg (by omega)]
    exact ⟨_, rfl⟩

theorem alignStep_eq_alignLayer (ops : CvOps) (image0 : Image) (baseKeypoints : List (ℚ × ℚ))
    (baseDescriptors : Mat ℚ) (outImages : List Image) (image : Image) :
    alignStep ops image0 baseKeypoints baseDescriptors outImages image =
      (alignLayer ops image0 baseKeypoints baseDescriptors image).map fun result =>
        match result with
        | none => outImages
        | some aligned => outImages ++ [aligned] := by
  unfold alignStep alignLayer
  simp only []
  cases h1 : List.mapM (fun m => baseKeypoints[m.queryIdx]?)
      (goodMatchesOf (ops.knnMatch baseDescriptors
        (ops.detectAndCompute (ops.equalizeHist (ops.cvtColor image))).2)) with
  | none => rfl
  | some pointsRef =>
    cases h2 : List.mapM
        (fun m => (ops.detectAndCompute (ops.equalizeHist (ops.cvtColor image))).1[m.trainIdx]?)
        (goodMatchesOf (ops.knnMatch baseDescriptors
          (ops.detectAndCompute (ops.equalizeHist (ops.cvtColor image))).2)) with
    | none => rfl
    | some pointsCur =>
      simp only [Option.bind]
      by_cases hlt : pointsCur.length < 4 ∨ pointsRef.length < 4
      · simp [hlt]
      · simp [hlt]

/-- The images returned by the loop with signals are those of the loop of
`align_images`. -/
theorem alignRunLoop_fst (ops : CvOps) (image0 : Image) (baseKeypoints : List (ℚ × ℚ))
    (baseDescriptors : Mat ℚ) (total : Int) (i : Nat) (rest : List Image)
    (st : List Image × List Signal) :
    (alignRunLoop ops image0 baseKeypoints baseDescriptors total i rest st).map Prod.fst =
      rest.foldlM (alignStep ops image0 baseKeypoints baseDescriptors) st.1 := by
  induction rest generalizing i st with
  | nil => rfl
  | cons image rest ih =>
    rw [List.foldlM_cons, alignStep_eq_alignLayer]
    unfold alignRunLoop
    cases h : alignLayer ops image0 baseKeypoints baseDescriptors image with
    | none => rfl
    | some result =>
      cases result with
      | none => exact ih (i + 1) st
      | some aligned => exact ih (i + 1) _

/-- The images of `align_images_run` are the result of `align_images`. -/
theorem align_images_run_fst (ops : CvOps) (images : List Image) :
    (align_images_run ops images).map Prod.fst = align_images ops images := by
  cases images with
  | nil => rfl
  | cons image0 rest =>
    unfold align_images_run align_images
    exact alignRunLoop_fst ops image0 _ _ _ 1 rest _

/-- With valid match indices the loop with signals is defined; it appends the
warped images of the layers that are not skipped and the signals of
`alignSignals`. -/
theorem alignRunLoop_of_valid (ops : CvOps) (image0 : Image) (total : Int) (i : Nat)
    (rest : List Image) (st : List Image × List Signal)
    (hvalid : ∀ image ∈ rest, matchIndicesValid ops image0 image) :
    alignRunLoop ops image0 (baseFeatures ops image0).1 (baseFeatures ops image0).2 total i
        rest st =
      some (st.1 ++ rest.filterMap (fun image =>
          (alignLayer ops image0 (baseFeatures ops image0).1 (baseFeatures ops image0).2
            image).join),
        st.2 ++ alignSignals ops image0 total i rest) := by
  induction rest generalizing i st with
  | nil => simp [alignRunLoop, alignSignals]
  | cons image rest ih =>
    have hrest := fun st2 => ih (i + 1) st2 (fun im hm => hvalid im (List.mem_cons_of_mem _ hm))
    have hv := alignLayer_of_valid ops image0 image (hvalid image (List.mem_cons_self _ _))
    by_cases hlt : (acceptedMatches ops image0 image).length < 4
    · have hres := hv.1 hlt
      rw [alignRunLoop, alignSignals, List.filterMap_cons, hres]
      exact hrest st
    · obtain ⟨H, hH⟩ := hv.2 (by omega)
      rw [alignRunLoop, alignSignals, List.filterMap_cons, hH]
      show alignRunLoop ops image0 (baseFeatures ops image0).1 (baseFeatures ops image0).2 total
        (i + 1) rest _ = _
      rw [hrest]
      simp [Option.join]

theorem matchingOps_accepted (image0 image : Image) :
    acceptedMatches matchingOps image0 image =
      [⟨0, 0, 1⟩, ⟨1, 1, 1⟩, ⟨2, 2, 1⟩, ⟨3, 3, 1⟩] := by
  have h : fl32 (3 / 2) = 3 / 2 := by
    have h2 := roundToFormat_of_dyadic 24 (-126) 3 (-1) (by norm_num) (by norm_num)
    have e : ((3 : Int) : ℚ) * 2 ^ (-1 : Int) = 3 / 2 := by norm_num
    rw [e] at h2
    exact h2
  norm_num [acceptedMatches, goodMatchesOf, matchingOps, ratioThresh, h]

theorem matchingOps_valid (image0 image : Image) :
    matchIndicesValid matchingOps image0 image := by
  intro m hm
  have hb : (baseFeatures matchingOps image0).1.length = 4 := rfl
  have hl : (layerFeatures matchingOps image).1.length = 4 := rfl
  rw [matchingOps_accepted] at hm
  rw [hb, hl]
  simp only [List.mem_cons, List.mem_singleton, List.not_mem_nil, or_false] at hm
  rcases hm with rfl | rfl | rfl | rfl <;>
    exact ⟨by decide, by decide⟩

theorem sampleOps_accepted (image0 image : Image) :
    acceptedMatches sampleOps image0 image = [] := rfl

theorem sampleOps_valid (image0 image : Image) :
    matchIndicesValid sampleOps image0 image := by
  intro m hm
  rw [sampleOps_accepted] at hm
  cases hm

theorem filterMap_join_length (ops : CvOps) (image0 : Image) (rest : List Image)
    (hvalid : ∀ image ∈ rest, matchIndicesValid ops image0 image) :
    (rest.filterMap (fun image =>
      (alignLayer ops image0 (baseFeatures ops image0).1 (baseFeatures ops image0).2
        image).join)).length =
      rest.countP (fun image => decide (4 ≤ (acceptedMatches ops image0 image).length)) := by
  induction rest with
  | nil => rfl
  | cons image rest ih =>
    have hv := alignLayer_of_valid ops image0 image (hvalid image (List.mem_cons_self _ _))
    have hrest := ih (fun im hm => hvalid im (List.mem_cons_of_mem _ hm))
    by_cases hlt : (acceptedMatches ops image0 image).length < 4
    · have hdec : decide (4 ≤ (acceptedMatches ops image0 image).length) = false := by
        simp; omega
      rw [List.filterMap_cons, List.countP_cons, hv.1 hlt, hdec]
      exact hrest
    · obtain ⟨H, hH⟩ := hv.2 (by omega)
      have hdec : decide (4 ≤ (acceptedMatches ops image0 image).length) = true := by
        simp; omega
      rw [List.filterMap_cons, List.countP_cons, hH, hdec]
      show (_ :: List.filterMap _ rest).length = _
      rw [List.length_cons, hrest]
      rfl

/-- C11: for a stack with base image `image0` and valid match indices,
`align_images` returns `image0` followed, in input order, by the warped image
of every further layer with at least 4 accepted matches; a layer with fewer
than 4 accepted matches contributes nothing, and the output length is 1 plus
the number of further layers with at least 4 accepted matches. -/
theorem align_images_keeps_matched_layers (ops : CvOps) (image0 : Image) (rest : List Image)
    (hvalid : ∀ image ∈ rest, matchIndicesValid ops image0 image) :
    ∃ warped : List Image,
      align_images ops (image0 :: rest) = some (image0 :: warped) ∧
      warped = rest.filterMap (fun image =>
        (alignLayer ops image0 (baseFeatures ops image0).1 (baseFeatures ops image0).2
          image).join) ∧
      (∀ image ∈ rest,
        ((acceptedMatches ops image0 image).length < 4 →
          (alignLayer ops image0 (baseFeatures ops image0).1 (baseFeatures ops image0).2
            image).join = none) ∧
        (4 ≤ (acceptedMatches ops image0 image).length →
          ∃ H, (alignLayer ops image0 (baseFeatures ops image0).1 (baseFeatures ops image0).2
            image).join = some (ops.warpAffine image H image0.rows image0.cols))) ∧
      (image0 :: warped).length =
        1 + rest.countP (fun image => decide (4 ≤ (acceptedMatches ops image0 image).length)) := by
  refine ⟨_, ?_, rfl, ?_, ?_⟩
  · rw [← align_images_run_fst]
    unfold align_images_run
    simp only []
    rw [alignRunLoop_of_valid ops image0 _ 1 rest _ hvalid]
    rfl
  · intro image hmem
    have hv := alignLayer_of_valid ops image0 image (hvalid image hmem)
    constructor
    · intro hlt
      rw [hv.1 hlt]; rfl
    · intro hge
      obtain ⟨H, hH⟩ := hv.2 hge
      exact ⟨H, by rw [hH]; rfl⟩
  · rw [List.length_cons, filterMap_join_length ops image0 rest hvalid]
    omega

/-- Witness of C11: a stack of three layers with a matcher that accepts four
matches for every layer. -/
theorem align_images_keeps_matched_layers_witness :
    ∃ warped : List Image,
      align_images matchingOps (rowImage 0 0 :: [rowImage 0 3, rowImage 1 1]) =
        some (rowImage 0 0 :: warped) ∧
      warped = [rowImage 0 3, rowImage 1 1].filterMap (fun image =>
        (alignLayer matchingOps (rowImage 0 0) (baseFeatures matchingOps (rowImage 0 0)).1
          (baseFeatures matchingOps (rowImage 0 0)).2 image).join) ∧
      (∀ image ∈ [rowImage 0 3, rowImage 1 1],
        ((acceptedMatches matchingOps (rowImage 0 0) image).length < 4 →
          (alignLayer matchingOps (rowImage 0 0) (baseFeatures matchingOps (rowImage 0 0)).1
            (baseFeatures matchingOps (rowImage 0 0)).2 image).join = none) ∧
        (4 ≤ (acceptedMatches matchingOps (rowImage 0 0) image).length →
          ∃ H, (alignLayer matchingOps (rowImage 0 0) (baseFeatures matchingOps (rowImage 0 0)).1
            (baseFeatures matchingOps (rowImage 0 0)).2 image).join =
              some (matchingOps.warpAffine image H (rowImage 0 0).rows (rowImage 0 0).cols))) ∧
      (rowImage 0 0 :: warped).length =
        1 + [rowImage 0 3, rowImage 1 1].countP (fun image =>
          decide (4 ≤ (acceptedMatches matchingOps (rowImage 0 0) image).length)) :=
  align_images_keeps_matched_layers matchingOps (rowImage 0 0) [rowImage 0 3, rowImage 1 1]
    (fun image _ => matchingOps_valid (rowImage 0 0) image)

/-- C13 at a failing input: two layers and a matcher that accepts no match, so
layer 1 is skipped. The only signal of `align_images` is the progress `(0, 1)`
before the loop; no progress `(1, 1)` follows for the skipped layer. -/
theorem align_images_skipped_layer_no_progress :
    (acceptedMatches sampleOps (rowImage 0 0) (rowImage 0 3)).length = 0 ∧
      align_images_run sampleOps [rowImage 0 0, rowImage 0 3] =
        some ([rowImage 0 0], [Signal.progress "Aligning images." 0 1]) ∧
      progressOf "Aligning images." [Signal.progress "Aligning images." 0 1] = [(0, 1)] ∧
      (1, 1) ∉ progressOf "Aligning images." [Signal.progress "Aligning images." 0 1] :=
  ⟨rfl, rfl, by decide, by decide⟩

theorem progressOf_append (label : String) (a b : List Signal) :
    progressOf label (a ++ b) = progressOf label a ++ progressOf label b := by
  simp [progressOf, List.filterMap_append]

theorem progressOf_progress_same (label : String) (value max : Int) :
    progressOf label [Signal.progress label value max] = [(value, max)] := by
  simp [progressOf]

theorem progressOf_progress_other (label other : String) (value max : Int) (h : other ≠ label) :
    progressOf label [Signal.progress other value max] = [] := by
  simp [progressOf, h]

theorem progressOf_renderImage (label : String) (g : Bool) :
    progressOf label [Signal.renderImage g] = [] := rfl

theorem progressOf_complete (label : String) (output : Image) :
    progressOf label [Signal.focusStackingComplete output] = [] := rfl

theorem phaseBounded_nil (label : String) (bound max : Int) : phaseBounded label bound max [] :=
  ⟨List.Pairwise.nil, fun p hp => by cases hp⟩

theorem phaseBounded_mono (label : String) (b b2 max : Int) (s : List Signal) (hb : b ≤ b2)
    (h : phaseBounded label b max s) : phaseBounded label b2 max s :=
  ⟨h.1, fun p hp => ⟨le_trans (h.2 p hp).1 hb, (h.2 p hp).2⟩⟩

theorem phaseBounded_append_silent (label : String) (b max : Int) (s t : List Signal)
    (ht : progressOf label t = []) (h : phaseBounded label b max s) :
    phaseBounded label b max (s ++ t) := by
  unfold phaseBounded
  rw [progressOf_append, ht, List.append_nil]
  exact h

theorem phaseBounded_silent_append (label : String) (b max : Int) (s t : List Signal)
    (hs : progressOf label s = []) (h : phaseBounded label b max t) :
    phaseBounded label b max (s ++ t) := by
  unfold phaseBounded
  rw [progressOf_append, hs, List.nil_append]
  exact h

theorem phaseBounded_append_progress (label : String) (b v max : Int) (s : List Signal)
    (hbv : b ≤ v) (h : phaseBounded label b max s) :
    phaseBounded label v max (s ++ [Signal.progress label v max]) := by
  unfold phaseBounded
  rw [progressOf_append, progressOf_progress_same]
  constructor
  · rw [List.pairwise_append]
    refine ⟨h.1, List.pairwise_singleton _ _, ?_⟩
    intro p hp q hq
    rw [List.mem_singleton] at hq
    subst hq
    exact le_trans (h.2 p hp).1 hbv
  · intro p hp
    rcases List.mem_append.mp hp with hp | hp
    · exact ⟨le_trans (h.2 p hp).1 hbv, (h.2 p hp).2⟩
    · rw [List.mem_singleton] at hp
      subst hp
      exact ⟨le_refl _, rfl⟩

/-- The three properties of a phase follow from the bound by the maximum. -/
theorem phaseBounded_props (label : String) (max : Int) (s : List Signal)
    (h : phaseBounded label max max s) :
    (progressOf label s).Pairwise (fun p q => p.1 ≤ q.1) ∧
      (∀ p ∈ progressOf label s, p.1 ≤ p.2) ∧
      ∀ p ∈ progressOf label s, ∀ q ∈ progressOf label s, p.2 = q.2 := by
  refine ⟨h.1, ?_, ?_⟩
  · intro p hp
    rw [(h.2 p hp).2]
    exact (h.2 p hp).1
  · intro p hp q hq
    rw [(h.2 p hp).2, (h.2 q hq).2]

theorem silent_props (label : String) (s : List Signal) (h : progressOf label s = []) :
    (progressOf label s).Pairwise (fun p q => p.1 ≤ q.1) ∧
      (∀ p ∈ progressOf label s, p.1 ≤ p.2) ∧
      ∀ p ∈ progressOf label s, ∀ q ∈ progressOf label s, p.2 = q.2 := by
  rw [h]
  refine ⟨List.Pairwise.nil, ?_, ?_⟩
  · intro p hp; cases hp
  · intro p hp; cases hp

theorem alignSignals_silent (ops : CvOps) (image0 : Image) (total : Int) (label : String)
    (hlabel : "Aligning images." ≠ label) (i : Nat) (rest : List Image) :
    progressOf label (alignSignals ops image0 total i rest) = [] := by
  induction rest generalizing i with
  | nil => rfl
  | cons image rest ih =>
    unfold alignSignals
    rw [progressOf_append, ih]
    cases (alignLayer ops image0 (baseFeatures ops image0).1 (baseFeatures ops image0).2
      image).join with
    | none => rfl
    | some aligned =>
      show progressOf label ([Signal.renderImage false] ++
        [Signal.progress "Aligning images." (i : Int) total]) ++ [] = []
      rw [progressOf_append, progressOf_renderImage, progressOf_progress_other _ _ _ _ hlabel]
      rfl

theorem alignSignals_bounded (ops : CvOps) (image0 : Image) (total : Int) (i : Nat)
    (rest : List Image) (s : List Signal) (b : Int) (hb : b ≤ (i : Int) - 1)
    (h : phaseBounded "Aligning images." b total s) :
    phaseBounded "Aligning images." ((i : Int) + (rest.length : Int) - 1) total
      (s ++ alignSignals ops image0 total i rest) := by
  induction rest generalizing i s b with
  | nil =>
    unfold alignSignals
    rw [List.append_nil]
    exact phaseBounded_mono _ _ _ _ _ (by simp; omega) h
  | cons image rest ih =>
    unfold alignSignals
    have hlen : ((i : Int) + ((image :: rest).length : Int) - 1) =
        (((i + 1 : Nat) : Int) + (rest.length : Int) - 1) := by
      simp only [List.length_cons]; push_cast; ring
    rw [hlen, ← List.append_assoc]
    cases (alignLayer ops image0 (baseFeatures ops image0).1 (baseFeatures ops image0).2
      image).join with
    | none =>
      rw [List.append_nil]
      exact ih (i + 1) s b (by push_cast; omega) h
    | some aligned =>
      apply ih (i + 1) _ (i : Int) (by push_cast; omega)
      show phaseBounded "Aligning images." (i : Int) total
        (s ++ ([Signal.renderImage false] ++ [Signal.progress "Aligning images." (i : Int) total]))
      rw [← List.append_assoc]
      apply phaseBounded_append_progress _ b _ _ _ (by omega)
      exact phaseBounded_append_silent _ _ _ _ _ (progressOf_renderImage _ _) h

theorem alignSignals_no_complete (ops : CvOps) (image0 : Image) (total : Int) (i : Nat)
    (rest : List Image) :
    ∀ s ∈ alignSignals ops image0 total i rest, s.isComplete = false := by
  induction rest generalizing i with
  | nil => intro s hs; cases hs
  | cons image rest ih =>
    unfold alignSignals
    intro s hs
    rcases List.mem_append.mp hs with h | h
    · cases hj : (alignLayer ops image0 (baseFeatures ops image0).1 (baseFeatures ops image0).2
        image).join with
      | none => rw [hj] at h; cases h
      | some aligned =>
        rw [hj] at h
        simp only [List.mem_cons, List.mem_singleton, List.not_mem_nil, or_false] at h
        rcases h with rfl | rfl <;> rfl
    · exact ih (i + 1) s h

/-- A loop that appends signals preserves a property of the signal list that
each appended block preserves. -/
theorem forRange_append_invariant (P : Nat → List Signal → Prop) (n : Nat)
    (f : Nat → List Signal) (s0 : List Signal) (h0 : P 0 s0)
    (hstep : ∀ i s, i < n → P i s → P (i + 1) (s ++ f i)) :
    P n (forRange n (fun i signals => signals ++ f i) s0) := by
  induction n with
  | zero => exact h0
  | succ n ih =>
    rw [forRange_succ]
    exact hstep n _ (Nat.lt_succ_self n)
      (ih (fun i s hi hp => hstep i s (Nat.lt_succ_of_lt hi) hp))

theorem depthSignals_generating (numImages : Nat) (smoothIterations : Int) :
    phaseBounded "Generating depth map." (numImages : Int) (numImages : Int)
      (depthSignals numImages smoothIterations) := by
  unfold depthSignals
  apply forRange_append_invariant
    (fun _ s => phaseBounded "Generating depth map." (numImages : Int) (numImages : Int) s)
  · apply phaseBounded_append_silent
    · exact progressOf_progress_other _ _ _ _ (by decide)
    · apply forRange_append_invariant
        (fun i s => phaseBounded "Generating depth map." (i : Int) (numImages : Int) s)
      · exact phaseBounded_append_progress _ 0 0 _ [] (le_refl 0) (phaseBounded_nil _ _ _)
      · intro i s _ hs
        show phaseBounded "Generating depth map." ((i + 1 : Nat) : Int) (numImages : Int)
          (s ++ ([Signal.renderImage true] ++
            [Signal.progress "Generating depth map." ((i : Int) + 1) (numImages : Int)]))
        rw [← List.append_assoc]
        have hcast : ((i + 1 : Nat) : Int) = (i : Int) + 1 := by push_cast; rfl
        rw [hcast]
        apply phaseBounded_append_progress _ (i : Int) _ _ _ (by omega)
        exact phaseBounded_append_silent _ _ _ _ _ (progressOf_renderImage _ _) hs
  · intro i s _ hs
    apply phaseBounded_append_silent _ _ _ _ _ _ hs
    show progressOf "Generating depth map."
      ([Signal.progress "Smoothening depth map." ((i : Int) + 1) smoothIterations] ++
        [Signal.renderImage true]) = []
    rw [progressOf_append, progressOf_renderImage,
      progressOf_progress_other _ _ _ _ (by decide)]
    rfl

theorem depthSignals_smoothing (numImages : Nat) (smoothIterations : Int)
    (hn : 0 ≤ smoothIterations) :
    phaseBounded "Smoothening depth map." smoothIterations smoothIterations
      (depthSignals numImages smoothIterations) := by
  have hcast : ((smoothIterations.toNat : Nat) : Int) = smoothIterations :=
    Int.toNat_of_nonneg hn
  unfold depthSignals
  have h := forRange_append_invariant
    (fun i s => phaseBounded "Smoothening depth map." (i : Int) smoothIterations s)
    smoothIterations.toNat
    (fun i => [Signal.progress "Smoothening depth map." ((i : Int) + 1) smoothIterations,
      Signal.renderImage true])
    (forRange numImages (fun layer signals =>
      signals ++ [Signal.renderImage true,
        Signal.progress "Generating depth map." ((layer : Int) + 1) (numImages : Int)])
      [Signal.progress "Generating depth map." 0 (numImages : Int)] ++
      [Signal.progress "Smoothening depth map." 0 smoothIterations])
    (by
      apply phaseBounded_append_progress _ 0 0 _ _ (le_refl 0)
      have hsilent : progressOf "Smoothening depth map."
          (forRange numImages (fun layer signals =>
            signals ++ [Signal.renderImage true,
              Signal.progress "Generating depth map." ((layer : Int) + 1) (numImages : Int)])
            [Signal.progress "Generating depth map." 0 (numImages : Int)]) = [] := by
        apply forRange_append_invariant
          (fun _ s => progressOf "Smoothening depth map." s = [])
        · exact progressOf_progress_other _ _ _ _ (by decide)
        · intro i s _ hs
          show progressOf "Smoothening depth map." (s ++ ([Signal.renderImage true] ++
            [Signal.progress "Generating depth map." ((i : Int) + 1) (numImages : Int)])) = []
          rw [progressOf_append, progressOf_append, hs, progressOf_renderImage,
            progressOf_progress_other _ _ _ _ (by decide)]
          rfl
      unfold phaseBounded
      rw [hsilent]
      exact ⟨List.Pairwise.nil, fun p hp => by cases hp⟩)
    (by
      intro i s _ hs
      show phaseBounded "Smoothening depth map." ((i + 1 : Nat) : Int) smoothIterations
        (s ++ ([Signal.progress "Smoothening depth map." ((i : Int) + 1) smoothIterations] ++
          [Signal.renderImage true]))
      rw [← List.append_assoc]
      have hc : ((i + 1 : Nat) : Int) = (i : Int) + 1 := by push_cast; rfl
      rw [hc]
      apply phaseBounded_append_silent _ _ _ _ _ (progressOf_renderImage _ _)
      exact phaseBounded_append_progress _ (i : Int) _ _ _ (by omega) hs)
  have h2 : phaseBounded "Smoothening depth map." ((smoothIterations.toNat : Nat) : Int)
      smoothIterations _ := h
  rw [hcast] at h2
  exact h2

theorem depthSignals_silent_align (numImages : Nat) (smoothIterations : Int) :
    progressOf "Aligning images." (depthSignals numImages smoothIterations) = [] := by
  unfold depthSignals
  apply forRange_append_invariant (fun _ s => progressOf "Aligning images." s = [])
  · rw [progressOf_append, progressOf_progress_other _ _ _ _ (by decide), List.append_nil]
    apply forRange_append_invariant (fun _ s => progressOf "Aligning images." s = [])
    · exact progressOf_progress_other _ _ _ _ (by decide)
    · intro i s _ hs
      show progressOf "Aligning images." (s ++ ([Signal.renderImage true] ++
        [Signal.progress "Generating depth map." ((i : Int) + 1) (numImages : Int)])) = []
      rw [progressOf_append, progressOf_append, hs, progressOf_renderImage,
        progressOf_progress_other _ _ _ _ (by decide)]
      rfl
  · intro i s _ hs
    show progressOf "Aligning images."
      (s ++ ([Signal.progress "Smoothening depth map." ((i : Int) + 1) smoothIterations] ++
        [Signal.renderImage true])) = []
    rw [progressOf_append, progressOf_append, hs, progressOf_renderImage,
      progressOf_progress_other _ _ _ _ (by decide)]
    rfl

theorem depthSignals_no_complete (numImages : Nat) (smoothIterations : Int) :
    ∀ s ∈ depthSignals numImages smoothIterations, s.isComplete = false := by
  unfold depthSignals
  apply forRange_append_invariant (fun _ l => ∀ s ∈ l, s.isComplete = false)
  · intro s hs
    rcases List.mem_append.mp hs with h | h
    · have hloop : ∀ t ∈ forRange numImages (fun layer signals =>
          signals ++ [Signal.renderImage true,
            Signal.progress "Generating depth map." ((layer : Int) + 1) (numImages : Int)])
          [Signal.progress "Generating depth map." 0 (numImages : Int)],
          t.isComplete = false := by
        apply forRange_append_invariant (fun _ l => ∀ t ∈ l, t.isComplete = false)
        · intro t ht
          rw [List.mem_singleton] at ht
          subst ht; rfl
        · intro i l _ hl t ht
          rcases List.mem_append.mp ht with h | h
          · exact hl t h
          · simp only [List.mem_cons, List.mem_singleton, List.not_mem_nil, or_false] at h
            rcases h with rfl | rfl <;> rfl
      exact hloop s h
    · rw [List.mem_singleton] at h
      subst h; rfl
  · intro i l _ hl s hs
    rcases List.mem_append.mp hs with h | h
    · exact hl s h
    · simp only [List.mem_cons, List.mem_singleton, List.not_mem_nil, or_false] at h
      rcases h with rfl | rfl <;> rfl

/-- With valid match indices `align_images_run` is defined: it returns the base
image followed by the warped layers, and its signals are the progress before
the loop followed by the signals of the loop. -/
theorem align_images_run_of_valid (ops : CvOps) (image0 : Image) (rest : List Image)
    (hvalid : ∀ image ∈ rest, matchIndicesValid ops image0 image) :
    align_images_run ops (image0 :: rest) =
      some (image0 :: rest.filterMap (fun image =>
          (alignLayer ops image0 (baseFeatures ops image0).1 (baseFeatures ops image0).2
            image).join),
        [Signal.progress "Aligning images." 0 (((image0 :: rest).length : Int) - 1)] ++
          alignSignals ops image0 (((image0 :: rest).length : Int) - 1) 1 rest) := by
  unfold align_images_run
  simp only []
  rw [alignRunLoop_of_valid ops image0 _ 1 rest _ hvalid]
  rfl

theorem compute_depth_map_isSome (ops : CvOps) (images : List Image)
    (lk sk ss n : Int) (hne : images ≠ []) :
    ∃ depthMap, compute_depth_map ops images lk sk ss n = some depthMap := by
  obtain ⟨raw, hraw⟩ := raw_depth_map_isSome ops images lk hne
  refine ⟨(smoothLoop ops sk ss n (raw.convertTo fun v => (v.val : ℚ), Mat.empty)).2, ?_⟩
  simp only [compute_depth_map, hraw, Option.map_some']

/-- C14: for a non-empty stack with valid match indices and a non-negative
`smoothIterations`, the progress signals of a run of `focus_stack` are those of
`align_images` followed by those of `compute_depth_map`, and for each of the
three labels their values are non-decreasing, never exceed the maximum, and
carry the same maximum. -/
theorem progress_monotone_in_each_phase (ops : CvOps) (image0 : Image) (rest : List Image)
    (laplaceKernelSize smoothKernelSize smoothStrength smoothIterations : Int)
    (blendLayers : Bool)
    (hvalid : ∀ image ∈ rest, matchIndicesValid ops image0 image)
    (hn : 0 ≤ smoothIterations) :
    ∃ aligned s1 depthMap s2,
      align_images_run ops (image0 :: rest) = some (aligned, s1) ∧
      compute_depth_map_run ops aligned laplaceKernelSize smoothKernelSize smoothStrength
        smoothIterations = some (depthMap, s2) ∧
      focus_stack_run ops (image0 :: rest) laplaceKernelSize smoothKernelSize smoothStrength
          smoothIterations blendLayers =
        (create_composite_image_from_depth_map aligned depthMap blendLayers).map
          (fun output => s1 ++ s2 ++ [Signal.focusStackingComplete output]) ∧
      ∀ label ∈ ["Aligning images.", "Generating depth map.", "Smoothening depth map."],
        ∀ output : Image,
          (progressOf label (s1 ++ s2 ++ [Signal.focusStackingComplete output])).Pairwise
              (fun p q => p.1 ≤ q.1) ∧
            (∀ p ∈ progressOf label (s1 ++ s2 ++ [Signal.focusStackingComplete output]),
              p.1 ≤ p.2) ∧
            ∀ p ∈ progressOf label (s1 ++ s2 ++ [Signal.focusStackingComplete output]),
              ∀ q ∈ progressOf label (s1 ++ s2 ++ [Signal.focusStackingComplete output]),
                p.2 = q.2 := by
  have halign := align_images_run_of_valid ops image0 rest hvalid
  obtain ⟨depthMap, hdepth⟩ := compute_depth_map_isSome ops
    (image0 :: rest.filterMap (fun image =>
      (alignLayer ops image0 (baseFeatures ops image0).1 (baseFeatures ops image0).2
        image).join))
    laplaceKernelSize smoothKernelSize smoothStrength smoothIterations (List.cons_ne_nil _ _)
  have hrun : compute_depth_map_run ops
      (image0 :: rest.filterMap (fun image =>
        (alignLayer ops image0 (baseFeatures ops image0).1 (baseFeatures ops image0).2
          image).join))
      laplaceKernelSize smoothKernelSize smoothStrength smoothIterations =
      some (depthMap, depthSignals
        (image0 :: rest.filterMap (fun image =>
          (alignLayer ops image0 (baseFeatures ops image0).1 (baseFeatures ops image0).2
            image).join)).length smoothIterations) := by
    simp only [compute_depth_map_run, hdepth, Option.map_some']
  refine ⟨_, _, depthMap, _, halign, hrun, ?_, ?_⟩
  · simp only [focus_stack_run, halign, hrun, Option.bind]
  · intro label hlabel output
    have htotal : (((image0 :: rest).length : Int) - 1) = (1 : Nat) + (rest.length : Int) - 1 := by
      simp only [List.length_cons]; push_cast; ring
    simp only [List.mem_cons, List.mem_singleton, List.not_mem_nil, or_false] at hlabel
    rcases hlabel with rfl | rfl | rfl
    · apply phaseBounded_props _ (((image0 :: rest).length : Int) - 1)
      apply phaseBounded_append_silent _ _ _ _ _ (progressOf_complete _ _)
      apply phaseBounded_append_silent _ _ _ _ _ (depthSignals_silent_align _ _)
      have h := alignSignals_bounded ops image0 (((image0 :: rest).length : Int) - 1) 1 rest
        [Signal.progress "Aligning images." 0 (((image0 :: rest).length : Int) - 1)] 0
        (by simp)
        (phaseBounded_append_progress _ 0 0 _ [] (le_refl 0) (phaseBounded_nil _ _ _))
      rw [← htotal] at h
      exact h
    · apply phaseBounded_props _
        (((image0 :: rest.filterMap (fun image =>
          (alignLayer ops image0 (baseFeatures ops image0).1 (baseFeatures ops image0).2
            image).join)).length : Nat) : Int)
      apply phaseBounded_append_silent _ _ _ _ _ (progressOf_complete _ _)
      apply phaseBounded_silent_append
      · rw [progressOf_append, progressOf_progress_other _ _ _ _ (by decide),
          alignSignals_silent _ _ _ _ (by decide)]
        rfl
      · exact depthSignals_generating _ _
    · apply phaseBounded_props _ smoothIterations
      apply phaseBounded_append_silent _ _ _ _ _ (progressOf_complete _ _)
      apply phaseBounded_silent_append
      · rw [progressOf_append, progressOf_progress_other _ _ _ _ (by decide),
          alignSignals_silent _ _ _ _ (by decide)]
        rfl
      · exact depthSignals_smoothing _ _ hn

/-- Witness of C14: three layers that are all aligned, two smoothing passes. -/
theorem progress_monotone_in_each_phase_witness :
    ∃ aligned s1 depthMap s2,
      align_images_run matchingOps (rowImage 0 0 :: [rowImage 0 3, rowImage 1 1]) =
        some (aligned, s1) ∧
      compute_depth_map_run matchingOps aligned 3 17 100 2 = some (depthMap, s2) ∧
      focus_stack_run matchingOps (rowImage 0 0 :: [rowImage 0 3, rowImage 1 1]) 3 17 100 2
          true =
        (create_composite_image_from_depth_map aligned depthMap true).map
          (fun output => s1 ++ s2 ++ [Signal.focusStackingComplete output]) ∧
      ∀ label ∈ ["Aligning images.", "Generating depth map.", "Smoothening depth map."],
        ∀ output : Image,
          (progressOf label (s1 ++ s2 ++ [Signal.focusStackingComplete output])).Pairwise
              (fun p q => p.1 ≤ q.1) ∧
            (∀ p ∈ progressOf label (s1 ++ s2 ++ [Signal.focusStackingComplete output]),
              p.1 ≤ p.2) ∧
            ∀ p ∈ progressOf label (s1 ++ s2 ++ [Signal.focusStackingComplete output]),
              ∀ q ∈ progressOf label (s1 ++ s2 ++ [Signal.focusStackingComplete output]),
                p.2 = q.2 :=
  progress_monotone_in_each_phase matchingOps (rowImage 0 0) [rowImage 0 3, rowImage 1 1]
    3 17 100 2 true (fun image _ => matchingOps_valid (rowImage 0 0) image) (by decide)

theorem raw_depth_values_le (ops : CvOps) (images : List Image) (k : Int) (raw : Mat uchar)
    (hraw : raw_depth_map ops images k = some raw) (r c : Nat) :
    ((raw.atRC r c).val : ℚ) ≤ (images.length : ℚ) - 1 := by
  cases images with
  | nil => simp [raw_depth_map] at hraw
  | cons image0 rest =>
    obtain ⟨raw2, h2, -, -, hval⟩ := raw_depth_map_spec ops image0 rest k
    rw [hraw] at h2
    cases h2
    have hnat : (raw.atRC r c).val ≤ (image0 :: rest).length - 1 := by
      rw [hval]
      by_cases hb : r < image0.rows ∧ c < image0.cols
      · rw [if_pos hb]
        rcases pixFold_snd_cases
          ((image0 :: rest).map fun image => (sharpnessOf ops k image).atRC r c)
          0 (0, 0) with h | ⟨j, hj, h⟩
        · rw [h]; exact Nat.zero_le _
        · rw [h]
          have h1 := static_cast_uchar_val_le (0 + j)
          simp only [List.length_map] at hj
          omega
      · rw [if_neg hb]; exact Nat.zero_le _
    have hpos : 1 ≤ (image0 :: rest).length := by simp
    have hcast : (((image0 :: rest).length - 1 : Nat) : ℚ) = ((image0 :: rest).length : ℚ) - 1 := by
      rw [Nat.cast_sub hpos]; simp
    rw [← hcast]
    exact_mod_cast hnat

/-- At least one smoothing pass with a filter that keeps the range `[0, b]`
returns a raster with values in `[0, b]`. -/
theorem smoothLoop_range (ops : CvOps) (sk ss : Int) (n : Nat) (depthMap other : Mat ℚ) (b : ℚ)
    (hbil : bilateralKeepsRange ops)
    (hrange : ∀ r c, 0 ≤ depthMap.atRC r c ∧ depthMap.atRC r c ≤ b) :
    ∀ r c, 0 ≤ (smoothLoop ops sk ss ((n : Int) + 1) (depthMap, other)).2.atRC r c ∧
      (smoothLoop ops sk ss ((n : Int) + 1) (depthMap, other)).2.atRC r c ≤ b := by
  have htoNat : ((n : Int) + 1).toNat = n + 1 := by omega
  have hinv : ∀ m : Nat, ∀ r c,
      0 ≤ (forRange m (fun _ (st : Mat ℚ × Mat ℚ) =>
        (ops.bilateralFilter st.1 sk ss ss, ops.bilateralFilter st.1 sk ss ss))
        (depthMap, other)).1.atRC r c ∧
      (forRange m (fun _ (st : Mat ℚ × Mat ℚ) =>
        (ops.bilateralFilter st.1 sk ss ss, ops.bilateralFilter st.1 sk ss ss))
        (depthMap, other)).1.atRC r c ≤ b := by
    intro m
    induction m with
    | zero => exact hrange
    | succ m ih =>
      rw [forRange_succ]
      exact hbil _ sk ss ss b ih
  simp only [smoothLoop, htoNat]
  rw [forRange_succ]
  exact hbil _ sk ss ss b (hinv n)

/-- The depth map returned for a non-empty stack has no rows, or all its values
lie in `[0, N-1]`, when the bilateral filter keeps ranges. -/
theorem compute_depth_map_range (ops : CvOps) (images : List Image) (lk sk ss n : Int)
    (hne : images ≠ []) (hbil : bilateralKeepsRange ops) :
    ∃ depthMap, compute_depth_map ops images lk sk ss n = some depthMap ∧
      (depthMap.rows = 0 ∨
        ∀ r c, 0 ≤ depthMap.atRC r c ∧ depthMap.atRC r c ≤ (images.length : ℚ) - 1) := by
  obtain ⟨raw, hraw⟩ := raw_depth_map_isSome ops images lk hne
  by_cases hn : n ≤ 0
  · exact ⟨Mat.empty, compute_depth_map_no_pass ops images lk sk ss n hne hn, Or.inl rfl⟩
  · obtain ⟨m, hm⟩ : ∃ m : Nat, n = (m : Int) + 1 := ⟨(n - 1).toNat, by omega⟩
    subst hm
    refine ⟨(smoothLoop ops sk ss ((m : Int) + 1)
      (raw.convertTo fun v => (v.val : ℚ), Mat.empty)).2, ?_, Or.inr ?_⟩
    · simp only [compute_depth_map, hraw, Option.map_some']
    · apply smoothLoop_range ops sk ss m _ _ _ hbil
      intro r c
      exact ⟨Nat.cast_nonneg _, raw_depth_values_le ops images lk raw hraw r c⟩

theorem round_range (d : ℚ) (b : Int) (h0 : 0 ≤ d) (h1 : d ≤ (b : ℚ)) :
    0 ≤ round d ∧ round d ≤ b := by
  simp only [round, h0, if_true]
  constructor
  · apply Int.floor_nonneg.mpr
    linarith
  · have hlt : ⌊d + 1 / 2⌋ < b + 1 := by
      rw [Int.floor_lt]
      push_cast
      linarith
    omega

/-- The composite of a non-empty stack under the depth map of that stack is
defined and has the size of the first image. -/
theorem composite_of_depth_map (ops : CvOps) (image0 : Image) (rest : List Image)
    (lk sk ss n : Int) (blendLayers : Bool) (hbil : bilateralKeepsRange ops) :
    ∃ depthMap output,
      compute_depth_map ops (image0 :: rest) lk sk ss n = some depthMap ∧
      create_composite_image_from_depth_map (image0 :: rest) depthMap blendLayers =
        some output ∧
      output.rows = image0.rows ∧ output.cols = image0.cols := by
  obtain ⟨depthMap, hdepth, hrange⟩ := compute_depth_map_range ops (image0 :: rest) lk sk ss n
    (List.cons_ne_nil _ _) hbil
  obtain ⟨out, hout, hrows, hcols, -⟩ := composite_spec image0 rest depthMap blendLayers
    (fun r c => (compositePixel (image0 :: rest) (depthMap.atRC r c) r c blendLayers).getD 0)
    (by
      intro r c hr hc
      cases blendLayers with
      | true =>
        obtain ⟨_, _, pixel, -, -, hpixel, -⟩ :=
          compositePixel_blend (image0 :: rest) (List.cons_ne_nil _ _) (depthMap.atRC r c) r c
        simp [hpixel]
      | false =>
        rcases hrange with h0 | hvals
        · rw [h0] at hr; omega
        · obtain ⟨hd0, hd1⟩ := hvals r c
          have hcast : (((image0 :: rest).length : Nat) : ℚ) - 1 =
              (((((image0 :: rest).length : Nat) : Int) - 1 : Int) : ℚ) := by push_cast; ring
          rw [hcast] at hd1
          obtain ⟨hr0, hr1⟩ := round_range _ _ hd0 hd1
          obtain ⟨layer, hlayer, -⟩ := layerAt_of_range (image0 :: rest) _ hr0 (by omega)
          simp [compositePixel_nearest, hlayer])
  exact ⟨depthMap, out, hdepth, hout, hrows, hcols⟩

/-- C15: for a non-empty stack, with valid match indices and a bilateral filter
that keeps ranges, the run of `focus_stack` is defined, its signals end with one
`focusStackingComplete`, no earlier signal is a `focusStackingComplete`, and the
image carried is the composite of the aligned layers under their depth map, with
the rows and columns of layer 0. -/
theorem focus_stack_completes_once (ops : CvOps) (image0 : Image) (rest : List Image)
    (laplaceKernelSize smoothKernelSize smoothStrength smoothIterations : Int)
    (blendLayers : Bool)
    (hvalid : ∀ image ∈ rest, matchIndicesValid ops image0 image)
    (hbil : bilateralKeepsRange ops) :
    ∃ aligned depthMap output earlier,
      align_images ops (image0 :: rest) = some aligned ∧
      compute_depth_map ops aligned laplaceKernelSize smoothKernelSize smoothStrength
        smoothIterations = some depthMap ∧
      create_composite_image_from_depth_map aligned depthMap blendLayers = some output ∧
      focus_stack ops (image0 :: rest) laplaceKernelSize smoothKernelSize smoothStrength
        smoothIterations blendLayers = some output ∧
      focus_stack_run ops (image0 :: rest) laplaceKernelSize smoothKernelSize smoothStrength
        smoothIterations blendLayers = some (earlier ++ [Signal.focusStackingComplete output]) ∧
      (∀ s ∈ earlier, s.isComplete = false) ∧
      (earlier ++ [Signal.focusStackingComplete output]).countP Signal.isComplete = 1 ∧
      output.rows = image0.rows ∧ output.cols = image0.cols := by
  have hrun := align_images_run_of_valid ops image0 rest hvalid
  have halign : align_images ops (image0 :: rest) =
      some (image0 :: rest.filterMap (fun image =>
        (alignLayer ops image0 (baseFeatures ops image0).1 (baseFeatures ops image0).2
          image).join)) := by
    rw [← align_images_run_fst, hrun]; rfl
  obtain ⟨depthMap, output, hdepth, hout, hrows, hcols⟩ := composite_of_depth_map ops image0
    (rest.filterMap (fun image =>
      (alignLayer ops image0 (baseFeatures ops image0).1 (baseFeatures ops image0).2
        image).join))
    laplaceKernelSize smoothKernelSize smoothStrength smoothIterations blendLayers hbil
  have hearlier : ∀ s ∈
      ([Signal.progress "Aligning images." 0 (((image0 :: rest).length : Int) - 1)] ++
          alignSignals ops image0 (((image0 :: rest).length : Int) - 1) 1 rest) ++
        depthSignals (image0 :: rest.filterMap (fun image =>
          (alignLayer ops image0 (baseFeatures ops image0).1 (baseFeatures ops image0).2
            image).join)).length smoothIterations,
      s.isComplete = false := by
    intro s hs
    rcases List.mem_append.mp hs with h | h
    · rcases List.mem_append.mp h with h | h
      · rw [List.mem_singleton] at h
        subst h; rfl
      · exact alignSignals_no_complete _ _ _ _ _ s h
    · exact depthSignals_no_complete _ _ s h
  refine ⟨_, depthMap, output, _, halign, hdepth, hout, ?_, ?_, hearlier, ?_, hrows, hcols⟩
  · simp only [focus_stack, halign, hdepth, Option.bind]
    exact hout
  · simp only [focus_stack_run, hrun, compute_depth_map_run, hdepth, hout, Option.bind,
      Option.map_some']
  · rw [List.countP_append, List.countP_eq_zero.mpr (fun s hs => by simp [hearlier s hs])]
    rfl

/-- Witness of C15: three layers that are all aligned, two smoothing passes, no
blending. -/
theorem focus_stack_completes_once_witness :
    ∃ aligned depthMap output earlier,
      align_images matchingOps (rowImage 0 0 :: [rowImage 0 3, rowImage 1 1]) = some aligned ∧
      compute_depth_map matchingOps aligned 3 17 100 2 = some depthMap ∧
      create_composite_image_from_depth_map aligned depthMap false = some output ∧
      focus_stack matchingOps (rowImage 0 0 :: [rowImage 0 3, rowImage 1 1]) 3 17 100 2 false =
        some output ∧
      focus_stack_run matchingOps (rowImage 0 0 :: [rowImage 0 3, rowImage 1 1]) 3 17 100 2
        false = some (earlier ++ [Signal.focusStackingComplete output]) ∧
      (∀ s ∈ earlier, s.isComplete = false) ∧
      (earlier ++ [Signal.focusStackingComplete output]).countP Signal.isComplete = 1 ∧
      output.rows = (rowImage 0 0).rows ∧ output.cols = (rowImage 0 0).cols :=
  focus_stack_completes_once matchingOps (rowImage 0 0) [rowImage 0 3, rowImage 1 1]
    3 17 100 2 false (fun image _ => matchingOps_valid (rowImage 0 0) image)
    (fun _ _ _ _ _ h => h)

/-- C21: for a non-empty stack with valid match indices and `smoothIterations = 0`,
`compute_depth_map` returns the default constructed `depthMapSmoothed` with no
rows and no columns for every non-empty stack, the row loop of the compositor
has no iteration, and `focus_stack` delivers in `focusStackingComplete` the
all-zero image with the rows and columns of layer 0, for every content of the
layers and both values of `blendLayers`. -/
theorem focus_stack_zero_iterations_all_zero (ops : CvOps) (image0 : Image)
    (rest : List Image) (laplaceKernelSize smoothKernelSize smoothStrength : Int)
    (blendLayers : Bool)
    (hvalid : ∀ image ∈ rest, matchIndicesValid ops image0 image) :
    (∀ images : List Image, images ≠ [] →
      compute_depth_map ops images laplaceKernelSize smoothKernelSize smoothStrength 0 =
        some Mat.empty) ∧
    ∃ aligned depthMap output earlier,
      align_images ops (image0 :: rest) = some aligned ∧
      compute_depth_map ops aligned laplaceKernelSize smoothKernelSize smoothStrength 0 =
        some depthMap ∧
      depthMap.rows = 0 ∧ depthMap.cols = 0 ∧
      create_composite_image_from_depth_map aligned depthMap blendLayers =
        forRangeM 0 (fun r composite =>
          forRangeM depthMap.cols (fun c composite =>
            (compositePixel aligned (depthMap.atRC r c) r c blendLayers).map fun pixel =>
              composite.set r c pixel) composite) (Mat.zeros image0.rows image0.cols) ∧
      create_composite_image_from_depth_map aligned depthMap blendLayers = some output ∧
      focus_stack ops (image0 :: rest) laplaceKernelSize smoothKernelSize smoothStrength 0
        blendLayers = some output ∧
      focus_stack_run ops (image0 :: rest) laplaceKernelSize smoothKernelSize smoothStrength 0
        blendLayers = some (earlier ++ [Signal.focusStackingComplete output]) ∧
      output.rows = image0.rows ∧ output.cols = image0.cols ∧
      ∀ r c i, output.atRC r c i = 0 := by
  have hno : ∀ images : List Image, images ≠ [] →
      compute_depth_map ops images laplaceKernelSize smoothKernelSize smoothStrength 0 =
        some Mat.empty :=
    fun images hne => compute_depth_map_no_pass ops images laplaceKernelSize smoothKernelSize
      smoothStrength 0 hne (le_refl 0)
  have hrun := align_images_run_of_valid ops image0 rest hvalid
  have halign : align_images ops (image0 :: rest) =
      some (image0 :: rest.filterMap (fun image =>
        (alignLayer ops image0 (baseFeatures ops image0).1 (baseFeatures ops image0).2
          image).join)) := by
    rw [← align_images_run_fst, hrun]; rfl
  have hdepth := hno (image0 :: rest.filterMap (fun image =>
    (alignLayer ops image0 (baseFeatures ops image0).1 (baseFeatures ops image0).2
      image).join)) (List.cons_ne_nil _ _)
  refine ⟨hno, _, Mat.empty, Mat.zeros image0.rows image0.cols,
    ([Signal.progress "Aligning images." 0 (((image0 :: rest).length : Int) - 1)] ++
        alignSignals ops image0 (((image0 :: rest).length : Int) - 1) 1 rest) ++
      depthSignals (image0 :: rest.filterMap (fun image =>
        (alignLayer ops image0 (baseFeatures ops image0).1 (baseFeatures ops image0).2
          image).join)).length 0,
    halign, hdepth, rfl, rfl, rfl, rfl, ?_, ?_, rfl, rfl, fun _ _ _ => rfl⟩
  · simp only [focus_stack, halign, hdepth, Option.bind]
    rfl
  · simp only [focus_stack_run, hrun, compute_depth_map_run, hdepth, Option.bind,
      Option.map_some']
    rfl

/-- Witness of C21: three layers of different content that are all aligned,
without blending. -/
theorem focus_stack_zero_iterations_all_zero_witness :
    (∀ images : List Image, images ≠ [] →
      compute_depth_map matchingOps images 3 17 100 0 = some Mat.empty) ∧
    ∃ aligned depthMap output earlier,
      align_images matchingOps (rowImage 255 255 :: [rowImage 0 3, rowImage 1 1]) =
        some aligned ∧
      compute_depth_map matchingOps aligned 3 17 100 0 = some depthMap ∧
      depthMap.rows = 0 ∧ depthMap.cols = 0 ∧
      create_composite_image_from_depth_map aligned depthMap false =
        forRangeM 0 (fun r composite =>
          forRangeM depthMap.cols (fun c composite =>
            (compositePixel aligned (depthMap.atRC r c) r c false).map fun pixel =>
              composite.set r c pixel) composite)
          (Mat.zeros (rowImage 255 255).rows (rowImage 255 255).cols) ∧
      create_composite_image_from_depth_map aligned depthMap false = some output ∧
      focus_stack matchingOps (rowImage 255 255 :: [rowImage 0 3, rowImage 1 1]) 3 17 100 0
        false = some output ∧
      focus_stack_run matchingOps (rowImage 255 255 :: [rowImage 0 3, rowImage 1 1]) 3 17 100 0
        false = some (earlier ++ [Signal.focusStackingComplete output]) ∧
      output.rows = (rowImage 255 255).rows ∧ output.cols = (rowImage 255 255).cols ∧
      ∀ r c i, output.atRC r c i = 0 :=
  focus_stack_zero_iterations_all_zero matchingOps (rowImage 255 255)
    [rowImage 0 3, rowImage 1 1] 3 17 100 false
    (fun image _ => matchingOps_valid (rowImage 255 255) image)

theorem windowSamples_mem (src : Mat ℚ) (ksize : Int) (r c : Nat) (s : ℚ)
    (h : s ∈ windowSamples src ksize r c) :
    ∃ i j : Nat, i < ksize.toNat ∧ j < ksize.toNat ∧
      s = src.atRC (borderInterpolate ((r : Int) + (i : Int) - ksize / 2) src.rows)
        (borderInterpolate ((c : Int) + (j : Int) - ksize / 2) src.cols) := by
  unfold windowSamples at h
  simp only [List.mem_flatMap, List.mem_map, List.mem_range] at h
  obtain ⟨i, hi, j, hj, hs⟩ := h
  exact ⟨i, j, hi, hj, hs.symm⟩

theorem windowSamples_pow2_64 (src : Mat ℚ) (ksize : Int) (r c : Nat) :
    windowSamples (pow2_64 src) ksize r c =
      (windowSamples src ksize r c).map fun y => fl64 (y * y) := by
  simp [windowSamples, pow2_64, Mat.convertTo, Mat.atRC, List.map_flatMap, Function.comp_def]

/-- On a window whose samples all have the value `v` the local variance in
binary64 is given by `v` and the number of samples alone. -/
theorem variance64_flat (laplacian : Mat ℚ) (k : Int) (r c : Nat) (v : ℚ)
    (h : ∀ s ∈ windowSamples laplacian k r c, s = v) :
    (compute_local_variance64 laplacian k).atRC r c =
      fl64 (fl64 (((k.toNat * k.toNat : Nat) : ℚ) * fl64 (v * v) *
            fl64 (1 / ((k : ℚ) * (k : ℚ)))) -
        fl64 (fl64 (((k.toNat * k.toNat : Nat) : ℚ) * v * fl64 (1 / ((k : ℚ) * (k : ℚ)))) *
          fl64 (((k.toNat * k.toNat : Nat) : ℚ) * v * fl64 (1 / ((k : ℚ) * (k : ℚ)))))) := by
  have hsum : (windowSamples laplacian k r c).sum = ((k.toNat * k.toNat : Nat) : ℚ) * v := by
    rw [List.sum_eq_card_nsmul _ v h, windowSamples_length, nsmul_eq_mul]
  have hsq : ((windowSamples laplacian k r c).map fun y => fl64 (y * y)).sum =
      ((k.toNat * k.toNat : Nat) : ℚ) * fl64 (v * v) := by
    rw [List.sum_eq_card_nsmul _ (fl64 (v * v)), List.length_map, windowSamples_length,
      nsmul_eq_mul]
    intro x hx
    obtain ⟨y, hy, rfl⟩ := List.mem_map.mp hx
    rw [h y hy]
  simp only [compute_local_variance64, boxFilter64, Mat.atRC, windowSamples_pow2_64, hsum, hsq]

/-- Where the Laplacian is zero on the whole window the sharpness is zero. -/
theorem variance64_flat_zero (laplacian : Mat ℚ) (k : Int) (r c : Nat)
    (h : ∀ s ∈ windowSamples laplacian k r c, s = 0) :
    (compute_local_variance64 laplacian k).atRC r c = 0 := by
  rw [variance64_flat laplacian k r c 0 h]
  simp [fl64_zero]

theorem map_sharpness_mem (ops : CvOps) (k : Int) (images : List Image) (r c : Nat) (x : ℚ)
    (hx : x ∈ images.map fun image => (sharpnessOf ops k image).atRC r c) :
    ∃ image ∈ images, x = (sharpnessOf ops k image).atRC r c := by
  obtain ⟨image, hmem, rfl⟩ := List.mem_map.mp hx
  exact ⟨image, hmem, rfl⟩

/-- The stored value is the narrowed index of the winner, or the initial value
when there is no winner. -/
theorem pixFold_eq_winnerFold (ss : List ℚ) (base : Nat) (st : ℚ × uchar)
    (wt : ℚ × Option Nat) (h1 : st.1 = wt.1)
    (h2 : st.2 = (wt.2.map static_cast_uchar).getD 0) :
    (pixFold base ss st).2 = ((winnerFold base ss wt).2.map static_cast_uchar).getD 0 := by
  induction ss generalizing base st wt with
  | nil => exact h2
  | cons s rest ih =>
    simp only [pixFold, winnerFold]
    apply ih
    · simp only [pixStep, winnerStep, h1]
      split_ifs <;> simp [h1]
    · simp only [pixStep, winnerStep, h1]
      split_ifs
      · rfl
      · exact h2

theorem winnerFold_of_all_lt (ss : List ℚ) (base : Nat) (wt : ℚ × Option Nat)
    (h : ∀ x ∈ ss, x < wt.1) : winnerFold base ss wt = wt := by
  induction ss generalizing base with
  | nil => rfl
  | cons s rest ih =>
    have hs : ¬ s ≥ wt.1 := not_le.mpr (h s (List.mem_cons_self _ _))
    simp only [winnerFold, winnerStep, hs, if_false]
    exact ih (base + 1) (fun x hx => h x (List.mem_cons_of_mem _ hx))

theorem winnerFold_last_argmax (ss : List ℚ) (base : Nat) (wt : ℚ × Option Nat) (j : Nat)
    (v : ℚ) (hj : ss[j]? = some v) (hst : wt.1 ≤ v) (hmax : ∀ x ∈ ss, x ≤ v)
    (hlast : ∀ (i : Nat) (x : ℚ), j < i → ss[i]? = some x → x < v) :
    winnerFold base ss wt = (v, some (base + j)) := by
  induction ss generalizing base wt j with
  | nil => simp at hj
  | cons s rest ih =>
    cases j with
    | zero =>
      simp only [List.getElem?_cons_zero, Option.some.injEq] at hj
      subst hj
      have hge : s ≥ wt.1 := hst
      simp only [winnerFold, winnerStep, hge, if_true, Nat.add_zero]
      apply winnerFold_of_all_lt
      intro x hx
      obtain ⟨i, hi⟩ := List.getElem?_of_mem hx
      exact hlast (i + 1) x (Nat.succ_pos i) (show (s :: rest)[i + 1]? = some x by simpa using hi)
    | succ j =>
      simp only [List.getElem?_cons_succ] at hj
      simp only [winnerFold]
      have hs : s ≤ v := hmax s (List.mem_cons_self _ _)
      have hfst : (winnerStep base s wt).1 ≤ v := by
        unfold winnerStep
        split_ifs
        · exact hs
        · exact hst
      have h := ih (base + 1) (winnerStep base s wt) j hj hfst
        (fun x hx => hmax x (List.mem_cons_of_mem _ hx))
        (fun i x hi hx => hlast (i + 1) x (by omega)
          (show (s :: rest)[i + 1]? = some x by simpa using hx))
      rw [h]; congr 2; omega

/-- A layer wins when its sharpness is not negative, at least that of every
layer and strictly above that of every later layer. -/
theorem winningLayer_of_last_argmax (ss : List ℚ) (j : Nat) (v : ℚ) (hj : ss[j]? = some v)
    (hv : 0 ≤ v) (hmax : ∀ x ∈ ss, x ≤ v)
    (hlast : ∀ (i : Nat) (x : ℚ), j < i → ss[i]? = some x → x < v) :
    winningLayer ss = some j := by
  unfold winningLayer
  rw [winnerFold_last_argmax ss 0 (0, none) j v hj hv hmax hlast, Nat.zero_add]

/-- No layer wins when every sharpness is negative. -/
theorem winningLayer_of_all_negative (ss : List ℚ) (h : ∀ x ∈ ss, x < 0) :
    winningLayer ss = none := by
  unfold winningLayer
  rw [winnerFold_of_all_lt ss 0 (0, none) h]

/-- A winner found by the fold is the initial one or a visited layer. -/
theorem winnerFold_some (ss : List ℚ) (base : Nat) (wt : ℚ × Option Nat) (j : Nat)
    (h : (winnerFold base ss wt).2 = some j) :
    wt.2 = some j ∨ (base ≤ j ∧ j < base + ss.length) := by
  induction ss generalizing base wt with
  | nil => left; exact h
  | cons s rest ih =>
    simp only [winnerFold] at h
    rcases ih (base + 1) (winnerStep base s wt) h with h2 | ⟨h2, h3⟩
    · unfold winnerStep at h2
      split_ifs at h2
      · right
        simp only [Option.some.injEq] at h2
        subst h2
        exact ⟨le_refl _, by simp⟩
      · left; exact h2
    · right
      simp only [List.length_cons]
      omega

theorem winningLayer_lt_length (ss : List ℚ) (j : Nat) (h : winningLayer ss = some j) :
    j < ss.length := by
  rcases winnerFold_some ss 0 (0, none) j h with h2 | ⟨-, h3⟩
  · cases h2
  · omega

/-- Inside the raster the raw depth value is the narrowed index of the winning
layer, or the initial 0 when no layer wins. -/
theorem raw_depth_eq_winner (ops : CvOps) (images : List Image) (k : Int)
    (dm : Mat uchar) (hdm : raw_depth_map ops images k = some dm)
    (r c : Nat) (hr : r < dm.rows) (hc : c < dm.cols) :
    dm.atRC r c =
      ((winningLayer (images.map fun image => (sharpnessOf ops k image).atRC r c)).map
        static_cast_uchar).getD 0 := by
  cases images with
  | nil => simp [raw_depth_map] at hdm
  | cons image0 rest =>
    obtain ⟨dm2, h2, hrows, hcols, hval⟩ := raw_depth_map_spec ops image0 rest k
    rw [hdm] at h2
    cases h2
    rw [hval, if_pos ⟨hrows ▸ hr, hcols ▸ hc⟩]
    exact pixFold_eq_winnerFold _ 0 (0, 0) (0, none) rfl rfl

/-- A layer whose Laplacian is zero everywhere has the sharpness 0 everywhere. -/
theorem sharpness_of_zero_laplacian (ops : CvOps) (k : Int) (image : Image)
    (h : ∀ r c, (ops.Laplacian (ops.cvtColor image)).atRC r c = 0) (r c : Nat) :
    (sharpnessOf ops k image).atRC r c = 0 := by
  apply variance64_flat_zero
  intro s hs
  obtain ⟨i, j, -, -, rfl⟩ := windowSamples_mem _ _ _ _ _ hs
  exact h _ _

/-- The Laplacian of aperture 5 of a black layer is zero. -/
theorem laplacian5_black (r c : Nat) :
    (aperture5Ops.Laplacian (aperture5Ops.cvtColor (rowImage 0 0))).atRC r c = 0 := by
  have hg : ∀ r c, ((aperture5Ops.cvtColor (rowImage 0 0)).atRC r c).val = 0 := by
    intro r c
    simp [aperture5Ops, Mat.convertTo, Mat.atRC, rowImage, greyPixel, static_cast_uchar]
  show ((laplacian5At (aperture5Ops.cvtColor (rowImage 0 0)) r c : Int) : ℚ) = 0
  have h : laplacian5At (aperture5Ops.cvtColor (rowImage 0 0)) r c = 0 := by
    simp [laplacian5At, hg, List.range_succ]
  rw [h]
  simp

/-- C20: the raw depth map stores the index of the winning layer (the last layer
that passes the test of the layer loop against the running maximum) modulo 256,
and keeps the initial 0 when no layer wins. For a stack of at most 256 layers
the stored value is the index of the winner itself. A layer wins when its
sharpness is not negative, at least that of every layer and strictly above that
of every later layer; no layer wins when every sharpness is negative. For the
stack of 257 identical layers whose Laplacian is zero the winning index is 256
and the stored value is 0. -/
theorem raw_depth_stores_index_mod_256 :
    (∀ (ops : CvOps) (images : List Image) (laplaceKernelSize : Int),
      images ≠ [] → equallySized images →
      ∃ dm, raw_depth_map ops images laplaceKernelSize = some dm ∧
        ∀ r c, r < dm.rows → c < dm.cols →
          (∀ j : Nat,
            winningLayer (images.map fun image =>
                (sharpnessOf ops laplaceKernelSize image).atRC r c) = some j →
              j < images.length ∧ (dm.atRC r c).val = j % 256 ∧
                (images.length ≤ 256 → (dm.atRC r c).val = j)) ∧
          (winningLayer (images.map fun image =>
              (sharpnessOf ops laplaceKernelSize image).atRC r c) = none →
            (dm.atRC r c).val = 0) ∧
          (∀ (j : Nat) (image : Image), images[j]? = some image →
            0 ≤ (sharpnessOf ops laplaceKernelSize image).atRC r c →
            (∀ other ∈ images,
              (sharpnessOf ops laplaceKernelSize other).atRC r c ≤
                (sharpnessOf ops laplaceKernelSize image).atRC r c) →
            (∀ (i : Nat) (later : Image), j < i → images[i]? = some later →
              (sharpnessOf ops laplaceKernelSize later).atRC r c <
                (sharpnessOf ops laplaceKernelSize image).atRC r c) →
            winningLayer (images.map fun image =>
              (sharpnessOf ops laplaceKernelSize image).atRC r c) = some j) ∧
          ((∀ layer ∈ images, (sharpnessOf ops laplaceKernelSize layer).atRC r c < 0) →
            winningLayer (images.map fun image =>
              (sharpnessOf ops laplaceKernelSize image).atRC r c) = none)) ∧
      256 < flat257.length ∧ equallySized flat257 ∧
      ∀ (ops : CvOps) (laplaceKernelSize : Int),
        (∀ r c, (ops.Laplacian (ops.cvtColor (rowImage 0 0))).atRC r c = 0) →
        ∃ dm, raw_depth_map ops flat257 laplaceKernelSize = some dm ∧
          ∃ r c j : Nat, r < dm.rows ∧ c < dm.cols ∧
            winningLayer (flat257.map fun image =>
              (sharpnessOf ops laplaceKernelSize image).atRC r c) = some j ∧
            (dm.atRC r c).val ≠ j := by
  constructor
  · intro ops images k hne _
    obtain ⟨dm, hdm⟩ := raw_depth_map_isSome ops images k hne
    refine ⟨dm, hdm, ?_⟩
    intro r c hr hc
    have hw := raw_depth_eq_winner ops images k dm hdm r c hr hc
    refine ⟨?_, ?_, ?_, ?_⟩
    · intro j hj
      have hjlt : j < images.length := by
        have := winningLayer_lt_length _ j hj
        simpa using this
      have hval : (dm.atRC r c).val = j % 256 := by
        rw [hw, hj]; rfl
      exact ⟨hjlt, hval, fun hlen => by rw [hval]; exact Nat.mod_eq_of_lt (by omega)⟩
    · intro hnone
      rw [hw, hnone]; rfl
    · intro j image himg hnonneg hmax hlast
      apply winningLayer_of_last_argmax _ j ((sharpnessOf ops k image).atRC r c)
      · rw [map_sharpness_getElem?, himg]; rfl
      · exact hnonneg
      · intro x hx
        obtain ⟨other, hmem, rfl⟩ := List.mem_map.mp hx
        exact hmax other hmem
      · intro i x hi hx
        rw [map_sharpness_getElem?] at hx
        cases hl : images[i]? with
        | none => rw [hl] at hx; simp at hx
        | some later =>
          rw [hl] at hx
          simp only [Option.map_some', Option.some.injEq] at hx
          rw [← hx]
          exact hlast i later hi hl
    · intro hneg
      apply winningLayer_of_all_negative
      intro x hx
      obtain ⟨image, hmem, rfl⟩ := List.mem_map.mp hx
      exact hneg image hmem
  · refine ⟨?_, flat257_equallySized, ?_⟩
    · rw [flat257, List.length_replicate]; decide
    · intro ops k hzero
      obtain ⟨dm, hdm⟩ := raw_depth_map_isSome ops flat257 k flat257_ne_nil
      have hmem : rowImage 0 0 ∈ flat257 := List.mem_replicate.mpr ⟨by decide, rfl⟩
      have hdims := raw_depth_map_dims ops _ _ dm hdm flat257_equallySized (rowImage 0 0) hmem
      have hr : 0 < dm.rows := by rw [hdims.1]; decide
      have hc : 0 < dm.cols := by rw [hdims.2]; decide
      have hs : (sharpnessOf ops k (rowImage 0 0)).atRC 0 0 = 0 :=
        sharpness_of_zero_laplacian ops k (rowImage 0 0) hzero 0 0
      have hwin : winningLayer (flat257.map fun image =>
          (sharpnessOf ops k image).atRC 0 0) = some 256 := by
        apply winningLayer_of_last_argmax _ 256 ((sharpnessOf ops k (rowImage 0 0)).atRC 0 0)
        · rw [map_sharpness_getElem?, flat257, replicate_getElem?_lt 257 _ 256 (by decide)]
          rfl
        · rw [hs]
        · intro x hx
          obtain ⟨other, hm, rfl⟩ := List.mem_map.mp hx
          rw [flat257_mem other hm]
        · intro i x hi hx
          rw [map_sharpness_getElem?, flat257, replicate_getElem?_ge 257 _ i (by omega)] at hx
          cases hx
      refine ⟨dm, hdm, 0, 0, 256, hr, hc, hwin, ?_⟩
      rw [raw_depth_eq_winner ops flat257 k dm hdm 0 0 hr hc, hwin]
      decide

/-- Witness of C20: the stack of 257 black layers under the Laplacian of
aperture 5, which is zero on a black layer, with the window size 5. -/
theorem raw_depth_stores_index_mod_256_witness :
    ∃ dm, raw_depth_map aperture5Ops flat257 5 = some dm ∧
      ∃ r c j : Nat, r < dm.rows ∧ c < dm.cols ∧
        winningLayer (flat257.map fun image =>
          (sharpnessOf aperture5Ops 5 image).atRC r c) = some j ∧
        (dm.atRC r c).val ≠ j :=
  raw_depth_stores_index_mod_256.2.2.2 aperture5Ops 5 laplacian5_black

theorem uchar_cast_le (x : uchar) : ((x.val : Nat) : ℚ) ≤ 255 := by
  have := x.isLt
  exact_mod_cast Nat.lt_succ_iff.mp this

theorem fl32_nonneg (x : ℚ) (h : 0 ≤ x) : 0 ≤ fl32 x := roundToFormat_nonneg _ _ x h

/-- Rounding error of a `float` operation whose exact result is at most `2 ^ k`
in absolute value. -/
theorem abs_fl32_sub_le (x : ℚ) (k : Int) (hx : |x| ≤ 2 ^ k) (hk : -126 ≤ k) :
    |fl32 x - x| ≤ 2 ^ (k - 24) := by
  have := abs_roundToFormat_sub_le 24 (-126) x k hx hk
  simpa [fl32] using this

/-- The interpolated value computed in binary32 for a weight in `[0, 1]` is not
negative and differs from the exact value by at most `5 * 2^-16`. -/
theorem blendValue_bounds (w : ℚ) (lower upper : uchar) (hw0 : 0 ≤ w) (hw1 : w ≤ 1) :
    0 ≤ blendValue w lower upper ∧
      |blendValue w lower upper -
        ((1 - w) * (lower.val : ℚ) + w * (upper.val : ℚ))| ≤ 5 / 65536 := by
  have hL0 : (0 : ℚ) ≤ (lower.val : ℚ) := Nat.cast_nonneg _
  have hU0 : (0 : ℚ) ≤ (upper.val : ℚ) := Nat.cast_nonneg _
  have hL1 := uchar_cast_le lower
  have hU1 := uchar_cast_le upper
  unfold blendValue
  generalize (lower.val : ℚ) = L at hL0 hL1 ⊢
  generalize (upper.val : ℚ) = U at hU0 hU1 ⊢
  -- the difference 1 - w
  have ha0 : 0 ≤ fl32 (1 - w) := fl32_nonneg _ (by linarith)
  have ha := abs_fl32_sub_le (1 - w) 0 (by rw [abs_of_nonneg (by linarith)]; norm_num; linarith)
    (by norm_num)
  norm_num at ha
  rw [abs_le] at ha
  generalize fl32 (1 - w) = a at ha0 ha ⊢
  -- the product a * L
  have haL0 : 0 ≤ a * L := mul_nonneg ha0 hL0
  have haL1 : a * L ≤ 256 := by nlinarith
  have hb0 : 0 ≤ fl32 (a * L) := fl32_nonneg _ haL0
  have hb := abs_fl32_sub_le (a * L) 8 (by rw [abs_of_nonneg haL0]; norm_num; exact haL1)
    (by norm_num)
  norm_num at hb
  rw [abs_le] at hb
  generalize fl32 (a * L) = b at hb0 hb ⊢
  -- the product w * U
  have hwU0 : 0 ≤ w * U := mul_nonneg hw0 hU0
  have hwU1 : w * U ≤ 256 := by nlinarith
  have hc0 : 0 ≤ fl32 (w * U) := fl32_nonneg _ hwU0
  have hc := abs_fl32_sub_le (w * U) 8 (by rw [abs_of_nonneg hwU0]; norm_num; exact hwU1)
    (by norm_num)
  norm_num at hc
  rw [abs_le] at hc
  generalize fl32 (w * U) = c at hc0 hc ⊢
  -- the sum b + c
  have hbc0 : 0 ≤ b + c := add_nonneg hb0 hc0
  have hbc1 : b + c ≤ 512 := by nlinarith
  have hs0 : 0 ≤ fl32 (b + c) := fl32_nonneg _ hbc0
  have hs := abs_fl32_sub_le (b + c) 9 (by rw [abs_of_nonneg hbc0]; norm_num; exact hbc1)
    (by norm_num)
  norm_num at hs
  rw [abs_le] at hs
  generalize fl32 (b + c) = s at hs0 hs ⊢
  have hd1 : a * L - (1 - w) * L ≤ 255 / 16777216 := by
    have h := mul_le_mul_of_nonneg_right ha.2 hL0
    nlinarith
  have hd2 : -(255 / 16777216) ≤ a * L - (1 - w) * L := by
    have h := mul_le_mul_of_nonneg_right ha.1 hL0
    nlinarith
  refine ⟨hs0, ?_⟩
  rw [abs_le]
  constructor <;> linarith [hb.1, hb.2, hc.1, hc.2, hs.1, hs.2]

/-- The weight `depthValue - lowerLayer` of a non-negative `float` depth value
whose integer part is the lower layer is computed without a rounding error. -/
theorem weight_exact (d : ℚ) (hd : fl32 d = d) (h0 : 0 ≤ d) :
    fl32 (d - fl32 ((⌊d⌋ : Int) : ℚ)) = d - ((⌊d⌋ : Int) : ℚ) := by
  obtain ⟨h1, h2⟩ := roundToFormat_floor_frac 24 (-126) d (by norm_num) hd h0
  have h1b : fl32 ((⌊d⌋ : Int) : ℚ) = ((⌊d⌋ : Int) : ℚ) := h1
  rw [h1b]
  exact h2

/-- The integer part of a value that lies within less than 1 of the interval
between two channel values is at least the smaller one minus 1 and at most the
greater one. -/
theorem floor_within_one (a b : Nat) (x e : ℚ) (v : Nat) (hv : (v : Int) = ⌊x⌋)
    (he : e < 1) (hlo : min (a : ℚ) (b : ℚ) - e ≤ x) (hhi : x ≤ max (a : ℚ) (b : ℚ) + e) :
    min a b ≤ v + 1 ∧ v ≤ max a b := by
  have h1 : ((min a b : Nat) : Int) - 1 ≤ ⌊x⌋ := by
    rw [Int.le_floor]
    push_cast
    linarith
  have h2 : ⌊x⌋ < ((max a b : Nat) : Int) + 1 := by
    rw [Int.floor_lt]
    push_cast
    linarith
  rw [← hv] at h1 h2
  constructor <;> omega

/-- Facts about one blended channel for a weight in `[0, 1]`: the exact
interpolation lies between the two channel values, the binary32 value lies
within `5 * 2^-16` of it and in `[0, 256)`, the channel written is its integer
part, at least the smaller channel value minus 1 and at most the greater one. -/
theorem blend_channel_facts (w : ℚ) (lower upper p : uchar)
    (hp : p = static_cast_uchar_float (blendValue w lower upper))
    (hw0 : 0 ≤ w) (hw1 : w ≤ 1) :
    min (lower.val : ℚ) (upper.val : ℚ) ≤ (1 - w) * (lower.val : ℚ) + w * (upper.val : ℚ) ∧
      (1 - w) * (lower.val : ℚ) + w * (upper.val : ℚ) ≤ max (lower.val : ℚ) (upper.val : ℚ) ∧
      |blendValue w lower upper - ((1 - w) * (lower.val : ℚ) + w * (upper.val : ℚ))| ≤
        5 / 65536 ∧
      0 ≤ blendValue w lower upper ∧ blendValue w lower upper < 256 ∧
      (p.val : Int) = ⌊blendValue w lower upper⌋ ∧
      min lower.val upper.val ≤ p.val + 1 ∧ p.val ≤ max lower.val upper.val := by
  obtain ⟨hb0, hberr⟩ := blendValue_bounds w lower upper hw0 hw1
  have hL1 := uchar_cast_le lower
  have hU1 := uchar_cast_le upper
  have hL0 : (0 : ℚ) ≤ (lower.val : ℚ) := Nat.cast_nonneg _
  have hU0 : (0 : ℚ) ≤ (upper.val : ℚ) := Nat.cast_nonneg _
  have hlo : min (lower.val : ℚ) (upper.val : ℚ) ≤
      (1 - w) * (lower.val : ℚ) + w * (upper.val : ℚ) := by
    rcases le_total (lower.val : ℚ) (upper.val : ℚ) with h | h
    · rw [min_eq_left h]; nlinarith
    · rw [min_eq_right h]; nlinarith
  have hhi : (1 - w) * (lower.val : ℚ) + w * (upper.val : ℚ) ≤
      max (lower.val : ℚ) (upper.val : ℚ) := by
    rcases le_total (lower.val : ℚ) (upper.val : ℚ) with h | h
    · rw [max_eq_right h]; nlinarith
    · rw [max_eq_left h]; nlinarith
  have hmax255 : max (lower.val : ℚ) (upper.val : ℚ) ≤ 255 := max_le hL1 hU1
  have herr := abs_le.mp hberr
  have hlt : blendValue w lower upper < 256 := by linarith [herr.2]
  have hfloor : (p.val : Int) = ⌊blendValue w lower upper⌋ := by
    rw [hp]
    exact static_cast_uchar_float_val _ hb0 hlt
  have hwithin := floor_within_one lower.val upper.val (blendValue w lower upper) (5 / 65536)
    p.val hfloor (by norm_num) (by linarith [herr.1]) (by linarith [herr.2])
  exact ⟨hlo, hhi, hberr, hb0, hlt, hfloor, hwithin.1, hwithin.2⟩

/-- For a `float` depth value in `[0, N-1]` the lower layer is the integer part
of the depth value and the weight is computed without a rounding error. -/
theorem weight_in_range (n : Nat) (d : ℚ) (h0 : 0 ≤ d) (h1 : d ≤ (n : ℚ) - 1)
    (hd : fl32 d = d) :
    clamp ⌊d⌋ 0 ((n : Int) - 1) = ⌊d⌋ ∧
      fl32 (d - fl32 ((clamp ⌊d⌋ 0 ((n : Int) - 1) : Int) : ℚ)) =
        d - ((clamp ⌊d⌋ 0 ((n : Int) - 1) : Int) : ℚ) ∧
      0 ≤ d - ((clamp ⌊d⌋ 0 ((n : Int) - 1) : Int) : ℚ) ∧
      d - ((clamp ⌊d⌋ 0 ((n : Int) - 1) : Int) : ℚ) < 1 := by
  have hfloor0 : 0 ≤ ⌊d⌋ := Int.floor_nonneg.mpr h0
  have hfloor1 : ⌊d⌋ ≤ (n : Int) - 1 := by
    have h := Int.floor_le_floor h1
    have hcast : (n : ℚ) - 1 = (((n : Int) - 1 : Int) : ℚ) := by push_cast; ring
    rw [hcast, Int.floor_intCast] at h
    exact h
  have hclamp := clamp_of_mem _ _ hfloor0 hfloor1
  rw [hclamp]
  exact ⟨rfl, weight_exact d hd h0, by linarith [Int.floor_le d],
    by linarith [Int.lt_floor_add_one d]⟩

/-- C6, amended: for a non-empty stack and a depth map of the size of the layers,
the composite with blending exists, and with `lower = clamp(floor(d), 0, N-1)`,
`upper = clamp(ceil(d), 0, N-1)` and the weight `w = d - lower` computed in
binary32, each of the three channels of the pixel at a position is the
conversion to `uchar` of `(1-w)*L + w*U` computed in binary32 with a rounding
after the difference, after each product and after the sum, where `L` and `U`
are that channel of the lower-layer and upper-layer pixels. For a `float` depth
value in `[0, N-1]` the weight is exact, the binary32 value lies within
`5 * 2^-16` of the exact interpolation and in `[0, 256)`, and the channel is its
integer part (not the nearest integer). -/
theorem composite_blend_truncates (images : List Image) (depthMap : Mat ℚ) (hne : images ≠ [])
    (hdims : ∀ image ∈ images, depthMap.rows = image.rows ∧ depthMap.cols = image.cols) :
    ∃ out, create_composite_image_from_depth_map images depthMap true = some out ∧
      out.rows = depthMap.rows ∧ out.cols = depthMap.cols ∧
      ∀ r c, r < depthMap.rows → c < depthMap.cols →
        ∃ (lowerImage upperImage : Image) (w : ℚ),
          layerAt images (clamp ⌊depthMap.atRC r c⌋ 0 ((images.length : Int) - 1)) =
            some lowerImage ∧
          layerAt images (clamp ⌈depthMap.atRC r c⌉ 0 ((images.length : Int) - 1)) =
            some upperImage ∧
          w = fl32 (depthMap.atRC r c -
            fl32 ((clamp ⌊depthMap.atRC r c⌋ 0 ((images.length : Int) - 1) : Int) : ℚ)) ∧
          (∀ i : Fin 3,
            out.atRC r c i = static_cast_uchar_float
              (fl32 (fl32 (fl32 (1 - w) * ((lowerImage.atRC r c i).val : ℚ)) +
                fl32 (w * ((upperImage.atRC r c i).val : ℚ))))) ∧
          (0 ≤ depthMap.atRC r c → depthMap.atRC r c ≤ (images.length : ℚ) - 1 →
            fl32 (depthMap.atRC r c) = depthMap.atRC r c →
            w = depthMap.atRC r c -
              ((clamp ⌊depthMap.atRC r c⌋ 0 ((images.length : Int) - 1) : Int) : ℚ) ∧
            ∀ i : Fin 3,
              |fl32 (fl32 (fl32 (1 - w) * ((lowerImage.atRC r c i).val : ℚ)) +
                  fl32 (w * ((upperImage.atRC r c i).val : ℚ))) -
                ((1 - w) * ((lowerImage.atRC r c i).val : ℚ) +
                  w * ((upperImage.atRC r c i).val : ℚ))| ≤ 5 / 65536 ∧
              0 ≤ fl32 (fl32 (fl32 (1 - w) * ((lowerImage.atRC r c i).val : ℚ)) +
                  fl32 (w * ((upperImage.atRC r c i).val : ℚ))) ∧
              fl32 (fl32 (fl32 (1 - w) * ((lowerImage.atRC r c i).val : ℚ)) +
                  fl32 (w * ((upperImage.atRC r c i).val : ℚ))) < 256 ∧
              ((out.atRC r c i).val : Int) =
                ⌊fl32 (fl32 (fl32 (1 - w) * ((lowerImage.atRC r c i).val : ℚ)) +
                  fl32 (w * ((upperImage.atRC r c i).val : ℚ)))⌋) := by
  obtain ⟨out, hout, hrows, hcols, hpix⟩ := composite_blend_spec images depthMap hne hdims
  refine ⟨out, hout, hrows, hcols, ?_⟩
  intro r c hr hc
  obtain ⟨lowerImage, upperImage, hlower, hupper, hval⟩ := hpix r c hr hc
  refine ⟨lowerImage, upperImage, _, hlower, hupper, rfl, hval, ?_⟩
  intro h0 h1 hd
  obtain ⟨-, hw, hw0, hw1⟩ := weight_in_range images.length (depthMap.atRC r c) h0 h1 hd
  refine ⟨hw, ?_⟩
  intro i
  have hfacts := blend_channel_facts _ (lowerImage.atRC r c i) (upperImage.atRC r c i)
    (out.atRC r c i) (hval i) (by rw [hw]; exact hw0) (by rw [hw]; exact hw1.le)
  exact ⟨hfacts.2.2.1, hfacts.2.2.2.1, hfacts.2.2.2.2.1, hfacts.2.2.2.2.2.1⟩

theorem dims_pair_const (v0 v1 v2 v3 : Nat) (d : ℚ) :
    ∀ image ∈ [rowImage v0 v1, rowImage v2 v3],
      (constDepth 1 2 d).rows = image.rows ∧ (constDepth 1 2 d).cols = image.cols := by
  intro image hmem
  simp only [List.mem_cons, List.mem_singleton, List.not_mem_nil, or_false] at hmem
  rcases hmem with rfl | rfl <;> exact ⟨rfl, rfl⟩

/-- Witness of C6 (amended): two layers and a depth map that is 3/4 everywhere. -/
theorem composite_blend_truncates_witness :
    ∃ out, create_composite_image_from_depth_map [rowImage 0 0, rowImage 1 1]
        (constDepth 1 2 (3 / 4)) true = some out ∧
      out.rows = (constDepth 1 2 (3 / 4)).rows ∧ out.cols = (constDepth 1 2 (3 / 4)).cols ∧
      ∀ r c, r < (constDepth 1 2 (3 / 4)).rows → c < (constDepth 1 2 (3 / 4)).cols →
        ∃ (lowerImage upperImage : Image) (w : ℚ),
          layerAt [rowImage 0 0, rowImage 1 1]
              (clamp ⌊(constDepth 1 2 (3 / 4)).atRC r c⌋ 0
                ((([rowImage 0 0, rowImage 1 1] : List Image).length : Int) - 1)) =
            some lowerImage ∧
          layerAt [rowImage 0 0, rowImage 1 1]
              (clamp ⌈(constDepth 1 2 (3 / 4)).atRC r c⌉ 0
                ((([rowImage 0 0, rowImage 1 1] : List Image).length : Int) - 1)) =
            some upperImage ∧
          w = fl32 ((constDepth 1 2 (3 / 4)).atRC r c -
            fl32 ((clamp ⌊(constDepth 1 2 (3 / 4)).atRC r c⌋ 0
              ((([rowImage 0 0, rowImage 1 1] : List Image).length : Int) - 1) : Int) : ℚ)) ∧
          (∀ i : Fin 3,
            out.atRC r c i = static_cast_uchar_float
              (fl32 (fl32 (fl32 (1 - w) * ((lowerImage.atRC r c i).val : ℚ)) +
                fl32 (w * ((upperImage.atRC r c i).val : ℚ))))) ∧
          (0 ≤ (constDepth 1 2 (3 / 4)).atRC r c →
            (constDepth 1 2 (3 / 4)).atRC r c ≤
              (([rowImage 0 0, rowImage 1 1] : List Image).length : ℚ) - 1 →
            fl32 ((constDepth 1 2 (3 / 4)).atRC r c) = (constDepth 1 2 (3 / 4)).atRC r c →
            w = (constDepth 1 2 (3 / 4)).atRC r c -
              ((clamp ⌊(constDepth 1 2 (3 / 4)).atRC r c⌋ 0
                ((([rowImage 0 0, rowImage 1 1] : List Image).length : Int) - 1) : Int) : ℚ) ∧
            ∀ i : Fin 3,
              |fl32 (fl32 (fl32 (1 - w) * ((lowerImage.atRC r c i).val : ℚ)) +
                  fl32 (w * ((upperImage.atRC r c i).val : ℚ))) -
                ((1 - w) * ((lowerImage.atRC r c i).val : ℚ) +
                  w * ((upperImage.atRC r c i).val : ℚ))| ≤ 5 / 65536 ∧
              0 ≤ fl32 (fl32 (fl32 (1 - w) * ((lowerImage.atRC r c i).val : ℚ)) +
                  fl32 (w * ((upperImage.atRC r c i).val : ℚ))) ∧
              fl32 (fl32 (fl32 (1 - w) * ((lowerImage.atRC r c i).val : ℚ)) +
                  fl32 (w * ((upperImage.atRC r c i).val : ℚ))) < 256 ∧
              ((out.atRC r c i).val : Int) =
                ⌊fl32 (fl32 (fl32 (1 - w) * ((lowerImage.atRC r c i).val : ℚ)) +
                  fl32 (w * ((upperImage.atRC r c i).val : ℚ)))⌋) :=
  composite_blend_truncates [rowImage 0 0, rowImage 1 1] (constDepth 1 2 (3 / 4)) (by simp)
    (dims_pair_const 0 0 1 1 (3 / 4))

theorem fl32_three_quarters : fl32 (3 / 4) = 3 / 4 := by
  have h := roundToFormat_of_dyadic 24 (-126) 3 (-2) (by norm_num) (by norm_num)
  have e : ((3 : Int) : ℚ) * 2 ^ (-2 : Int) = 3 / 4 := by norm_num
  rw [e] at h
  exact h

theorem fl32_one_quarter : fl32 (1 / 4) = 1 / 4 := by
  have h := roundToFormat_of_dyadic 24 (-126) 1 (-2) (by norm_num) (by norm_num)
  have e : ((1 : Int) : ℚ) * 2 ^ (-2 : Int) = 1 / 4 := by norm_num
  rw [e] at h
  exact h

/-- C6 as stated fails: with layer 0 black, layer 1 of grey value 1 and the
`float` depth 3/4 the interpolated value is 3/4 without any rounding error, its
nearest integer is 1, and the composite holds 0. -/
theorem composite_blend_not_nearest :
    ∃ out, create_composite_image_from_depth_map [rowImage 0 0, rowImage 1 1]
        (constDepth 1 2 (3 / 4)) true = some out ∧
      layerAt [rowImage 0 0, rowImage 1 1] (clamp ⌊(3 / 4 : ℚ)⌋ 0 1) = some (rowImage 0 0) ∧
      layerAt [rowImage 0 0, rowImage 1 1] (clamp ⌈(3 / 4 : ℚ)⌉ 0 1) = some (rowImage 1 1) ∧
      fl32 (3 / 4) = 3 / 4 ∧
      (1 - ((3 / 4 : ℚ) - ((clamp ⌊(3 / 4 : ℚ)⌋ 0 1 : Int) : ℚ))) *
            (((rowImage 0 0).atRC 0 0 0).val : ℚ) +
          ((3 / 4 : ℚ) - ((clamp ⌊(3 / 4 : ℚ)⌋ 0 1 : Int) : ℚ)) *
            (((rowImage 1 1).atRC 0 0 0).val : ℚ) = 3 / 4 ∧
      blendValue (fl32 ((3 / 4 : ℚ) - fl32 ((clamp ⌊(3 / 4 : ℚ)⌋ 0 1 : Int) : ℚ)))
        ((rowImage 0 0).atRC 0 0 0) ((rowImage 1 1).atRC 0 0 0) = 3 / 4 ∧
      round (3 / 4 : ℚ) = 1 ∧
      ((out.atRC 0 0 0).val : Int) = 0 := by
  have hlow : clamp ⌊(3 / 4 : ℚ)⌋ 0 1 = 0 := by rw [floor_three_quarters]; rfl
  have hup : clamp ⌈(3 / 4 : ℚ)⌉ 0 1 = 1 := by rw [ceil_three_quarters]; rfl
  have hl : layerAt [rowImage 0 0, rowImage 1 1] 0 = some (rowImage 0 0) := rfl
  have hu : layerAt [rowImage 0 0, rowImage 1 1] 1 = some (rowImage 1 1) := rfl
  have hL : (((rowImage 0 0).atRC 0 0 0).val : ℚ) = 0 := by
    have : ((rowImage 0 0).atRC 0 0 0).val = 0 := rfl
    rw [this]; simp
  have hU : (((rowImage 1 1).atRC 0 0 0).val : ℚ) = 1 := by
    have : ((rowImage 1 1).atRC 0 0 0).val = 1 := rfl
    rw [this]; simp
  have hvalue : (1 - ((3 / 4 : ℚ) - ((clamp ⌊(3 / 4 : ℚ)⌋ 0 1 : Int) : ℚ))) *
            (((rowImage 0 0).atRC 0 0 0).val : ℚ) +
          ((3 / 4 : ℚ) - ((clamp ⌊(3 / 4 : ℚ)⌋ 0 1 : Int) : ℚ)) *
            (((rowImage 1 1).atRC 0 0 0).val : ℚ) = 3 / 4 := by
    rw [hlow, hL, hU]; norm_num
  have hweight : fl32 ((3 / 4 : ℚ) - fl32 ((clamp ⌊(3 / 4 : ℚ)⌋ 0 1 : Int) : ℚ)) = 3 / 4 := by
    rw [hlow, Int.cast_zero, fl32_zero, sub_zero, fl32_three_quarters]
  have hblend : blendValue
      (fl32 ((3 / 4 : ℚ) - fl32 ((clamp ⌊(3 / 4 : ℚ)⌋ 0 1 : Int) : ℚ)))
      ((rowImage 0 0).atRC 0 0 0) ((rowImage 1 1).atRC 0 0 0) = 3 / 4 := by
    rw [hweight]
    unfold blendValue
    rw [hL, hU]
    have h1 : (1 : ℚ) - 3 / 4 = 1 / 4 := by norm_num
    rw [h1, fl32_one_quarter, mul_zero, fl32_zero, mul_one, fl32_three_quarters, zero_add,
      fl32_three_quarters]
  obtain ⟨out, hout, -, -, hpix⟩ := composite_blend_spec [rowImage 0 0, rowImage 1 1]
    (constDepth 1 2 (3 / 4)) (by simp) (dims_pair_const 0 0 1 1 (3 / 4))
  obtain ⟨lowerImage, upperImage, hlower, hupper, hval⟩ := hpix 0 0 (by decide) (by decide)
  have hlower2 : layerAt [rowImage 0 0, rowImage 1 1] (clamp ⌊(3 / 4 : ℚ)⌋ 0 1) =
      some lowerImage := hlower
  have hupper2 : layerAt [rowImage 0 0, rowImage 1 1] (clamp ⌈(3 / 4 : ℚ)⌉ 0 1) =
      some upperImage := hupper
  rw [hlow, hl] at hlower2
  rw [hup, hu] at hupper2
  cases hlower2
  cases hupper2
  refine ⟨out, hout, by rw [hlow, hl], by rw [hup, hu], fl32_three_quarters, hvalue, hblend,
    round_three_quarters, ?_⟩
  have h0 : out.atRC 0 0 0 = static_cast_uchar_float (blendValue
      (fl32 ((3 / 4 : ℚ) - fl32 ((clamp ⌊(3 / 4 : ℚ)⌋ 0 1 : Int) : ℚ)))
      ((rowImage 0 0).atRC 0 0 0) ((rowImage 1 1).atRC 0 0 0)) := hval 0
  rw [h0, hblend, static_cast_uchar_float_val _ (by norm_num) (by norm_num), floor_three_quarters]

/-- C19, amended: for a non-empty stack of N layers and a depth map of the size
of the layers whose values are `float` values in `[0, N-1]`, the composite with
blending exists and at every position the weight `d - lower` is computed without
a rounding error and lies in `[0, 1)`, the interpolated value computed in
binary32 lies in `[0, 256)`, so that its conversion to `uchar` is its integer
part, and each channel written is at least the smaller of the two channel values
of the lower-layer and upper-layer pixels minus 1 and at most the greater of the
two. -/
theorem blend_weight_and_channels_in_range (images : List Image) (depthMap : Mat ℚ)
    (hne : images ≠ [])
    (hdims : ∀ image ∈ images, depthMap.rows = image.rows ∧ depthMap.cols = image.cols)
    (hrange : ∀ r c, r < depthMap.rows → c < depthMap.cols →
      0 ≤ depthMap.atRC r c ∧ depthMap.atRC r c ≤ (images.length : ℚ) - 1)
    (hfloat : ∀ r c, r < depthMap.rows → c < depthMap.cols →
      fl32 (depthMap.atRC r c) = depthMap.atRC r c) :
    ∃ out, create_composite_image_from_depth_map images depthMap true = some out ∧
      ∀ r c, r < depthMap.rows → c < depthMap.cols →
        ∃ lowerImage upperImage,
          layerAt images (clamp ⌊depthMap.atRC r c⌋ 0 ((images.length : Int) - 1)) =
            some lowerImage ∧
          layerAt images (clamp ⌈depthMap.atRC r c⌉ 0 ((images.length : Int) - 1)) =
            some upperImage ∧
          fl32 (depthMap.atRC r c -
              fl32 ((clamp ⌊depthMap.atRC r c⌋ 0 ((images.length : Int) - 1) : Int) : ℚ)) =
            depthMap.atRC r c -
              ((clamp ⌊depthMap.atRC r c⌋ 0 ((images.length : Int) - 1) : Int) : ℚ) ∧
          0 ≤ depthMap.atRC r c -
            ((clamp ⌊depthMap.atRC r c⌋ 0 ((images.length : Int) - 1) : Int) : ℚ) ∧
          depthMap.atRC r c -
            ((clamp ⌊depthMap.atRC r c⌋ 0 ((images.length : Int) - 1) : Int) : ℚ) < 1 ∧
          ∀ i : Fin 3,
            out.atRC r c i = static_cast_uchar_float
              (blendValue
                (depthMap.atRC r c -
                  ((clamp ⌊depthMap.atRC r c⌋ 0 ((images.length : Int) - 1) : Int) : ℚ))
                (lowerImage.atRC r c i) (upperImage.atRC r c i)) ∧
            0 ≤ blendValue
                (depthMap.atRC r c -
                  ((clamp ⌊depthMap.atRC r c⌋ 0 ((images.length : Int) - 1) : Int) : ℚ))
                (lowerImage.atRC r c i) (upperImage.atRC r c i) ∧
            blendValue
                (depthMap.atRC r c -
                  ((clamp ⌊depthMap.atRC r c⌋ 0 ((images.length : Int) - 1) : Int) : ℚ))
                (lowerImage.atRC r c i) (upperImage.atRC r c i) < 256 ∧
            ((out.atRC r c i).val : Int) = ⌊blendValue
                (depthMap.atRC r c -
                  ((clamp ⌊depthMap.atRC r c⌋ 0 ((images.length : Int) - 1) : Int) : ℚ))
                (lowerImage.atRC r c i) (upperImage.atRC r c i)⌋ ∧
            min (lowerImage.atRC r c i).val (upperImage.atRC r c i).val ≤
              (out.atRC r c i).val + 1 ∧
            (out.atRC r c i).val ≤
              max (lowerImage.atRC r c i).val (upperImage.atRC r c i).val := by
  obtain ⟨out, hout, -, -, hpix⟩ := composite_blend_spec images depthMap hne hdims
  refine ⟨out, hout, ?_⟩
  intro r c hr hc
  obtain ⟨lowerImage, upperImage, hlower, hupper, hval⟩ := hpix r c hr hc
  obtain ⟨h0, h1⟩ := hrange r c hr hc
  obtain ⟨-, hw, hw0, hw1⟩ := weight_in_range images.length (depthMap.atRC r c) h0 h1
    (hfloat r c hr hc)
  refine ⟨lowerImage, upperImage, hlower, hupper, hw, hw0, hw1, ?_⟩
  intro i
  have hv := hval i
  rw [hw] at hv
  have hfacts := blend_channel_facts _ (lowerImage.atRC r c i) (upperImage.atRC r c i)
    (out.atRC r c i) hv hw0 hw1.le
  exact ⟨hv, hfacts.2.2.2.1, hfacts.2.2.2.2.1, hfacts.2.2.2.2.2.1, hfacts.2.2.2.2.2.2.1,
    hfacts.2.2.2.2.2.2.2⟩

/-- Witness of C19 (amended): two layers and a depth map that is 3/4 everywhere. -/
theorem blend_weight_and_channels_in_range_witness :
    ∃ out, create_composite_image_from_depth_map [rowImage 0 0, rowImage 1 1]
        (constDepth 1 2 (3 / 4)) true = some out ∧
      ∀ r c, r < (constDepth 1 2 (3 / 4)).rows → c < (constDepth 1 2 (3 / 4)).cols →
        ∃ lowerImage upperImage,
          layerAt [rowImage 0 0, rowImage 1 1]
              (clamp ⌊(constDepth 1 2 (3 / 4)).atRC r c⌋ 0
                ((([rowImage 0 0, rowImage 1 1] : List Image).length : Int) - 1)) =
            some lowerImage ∧
          layerAt [rowImage 0 0, rowImage 1 1]
              (clamp ⌈(constDepth 1 2 (3 / 4)).atRC r c⌉ 0
                ((([rowImage 0 0, rowImage 1 1] : List Image).length : Int) - 1)) =
            some upperImage ∧
          fl32 ((constDepth 1 2 (3 / 4)).atRC r c -
              fl32 ((clamp ⌊(constDepth 1 2 (3 / 4)).atRC r c⌋ 0
                ((([rowImage 0 0, rowImage 1 1] : List Image).length : Int) - 1) : Int) : ℚ)) =
            (constDepth 1 2 (3 / 4)).atRC r c -
              ((clamp ⌊(constDepth 1 2 (3 / 4)).atRC r c⌋ 0
                ((([rowImage 0 0, rowImage 1 1] : List Image).length : Int) - 1) : Int) : ℚ) ∧
          0 ≤ (constDepth 1 2 (3 / 4)).atRC r c -
            ((clamp ⌊(constDepth 1 2 (3 / 4)).atRC r c⌋ 0
              ((([rowImage 0 0, rowImage 1 1] : List Image).length : Int) - 1) : Int) : ℚ) ∧
          (constDepth 1 2 (3 / 4)).atRC r c -
            ((clamp ⌊(constDepth 1 2 (3 / 4)).atRC r c⌋ 0
              ((([rowImage 0 0, rowImage 1 1] : List Image).length : Int) - 1) : Int) : ℚ) < 1 ∧
          ∀ i : Fin 3,
            out.atRC r c i = static_cast_uchar_float
              (blendValue
                ((constDepth 1 2 (3 / 4)).atRC r c -
                  ((clamp ⌊(constDepth 1 2 (3 / 4)).atRC r c⌋ 0
                    ((([rowImage 0 0, rowImage 1 1] : List Image).length : Int) - 1) : Int) : ℚ))
                (lowerImage.atRC r c i) (upperImage.atRC r c i)) ∧
            0 ≤ blendValue
                ((constDepth 1 2 (3 / 4)).atRC r c -
                  ((clamp ⌊(constDepth 1 2 (3 / 4)).atRC r c⌋ 0
                    ((([rowImage 0 0, rowImage 1 1] : List Image).length : Int) - 1) : Int) : ℚ))
                (lowerImage.atRC r c i) (upperImage.atRC r c i) ∧
            blendValue
                ((constDepth 1 2 (3 / 4)).atRC r c -
                  ((clamp ⌊(constDepth 1 2 (3 / 4)).atRC r c⌋ 0
                    ((([rowImage 0 0, rowImage 1 1] : List Image).length : Int) - 1) : Int) : ℚ))
                (lowerImage.atRC r c i) (upperImage.atRC r c i) < 256 ∧
            ((out.atRC r c i).val : Int) = ⌊blendValue
                ((constDepth 1 2 (3 / 4)).atRC r c -
                  ((clamp ⌊(constDepth 1 2 (3 / 4)).atRC r c⌋ 0
                    ((([rowImage 0 0, rowImage 1 1] : List Image).length : Int) - 1) : Int) : ℚ))
                (lowerImage.atRC r c i) (upperImage.atRC r c i)⌋ ∧
            min (lowerImage.atRC r c i).val (upperImage.atRC r c i).val ≤
              (out.atRC r c i).val + 1 ∧
            (out.atRC r c i).val ≤
              max (lowerImage.atRC r c i).val (upperImage.atRC r c i).val :=
  blend_weight_and_channels_in_range [rowImage 0 0, rowImage 1 1] (constDepth 1 2 (3 / 4))
    (by simp) (dims_pair_const 0 0 1 1 (3 / 4))
    (by
      intro r c _ _
      show (0 : ℚ) ≤ 3 / 4 ∧ (3 / 4 : ℚ) ≤ (([rowImage 0 0, rowImage 1 1] : List Image).length : ℚ) - 1
      norm_num)
    (by
      intro r c _ _
      exact fl32_three_quarters)

/-- The `float` nearest to 0.1. -/
theorem fl32_tenth : fl32 (13421773 / 134217728) = 13421773 / 134217728 := by
  have h := roundToFormat_of_dyadic 24 (-126) 13421773 (-27) (by norm_num) (by norm_num)
  have e : ((13421773 : Int) : ℚ) * 2 ^ (-27 : Int) = 13421773 / 134217728 := by norm_num
  rw [e] at h
  exact h

/-- The interpolation of two channels of value 3 with the weight `0.1f`: the four
roundings give a value below 3. -/
theorem blendValue_tenth (lower upper : uchar) (hl : lower.val = 3) (hu : upper.val = 3) :
    blendValue (13421773 / 134217728) lower upper = 12582911 / 4194304 := by
  unfold blendValue
  rw [hl, hu]
  have ha : fl32 (1 - 13421773 / 134217728) = 7549747 / 8388608 :=
    fl32_eval _ (-1) 15099494 _ (by rw [abs_of_nonneg (by norm_num)]; norm_num)
      (by rw [abs_of_nonneg (by norm_num)]; norm_num) (by norm_num)
      (by rw [abs_lt]; norm_num) (by norm_num)
  have hb : fl32 (7549747 / 8388608 * ((3 : Nat) : ℚ)) = 2831155 / 1048576 :=
    fl32_eval_tie _ 1 11324620 _ (by rw [abs_of_nonneg (by norm_num)]; norm_num)
      (by rw [abs_of_nonneg (by norm_num)]; norm_num) (by norm_num)
      (by norm_num) (by norm_num)
  have hc : fl32 (13421773 / 134217728 * ((3 : Nat) : ℚ)) = 5033165 / 16777216 :=
    fl32_eval _ (-2) 10066330 _ (by rw [abs_of_nonneg (by norm_num)]; norm_num)
      (by rw [abs_of_nonneg (by norm_num)]; norm_num) (by norm_num)
      (by rw [abs_lt]; norm_num) (by norm_num)
  have hs : fl32 (2831155 / 1048576 + 5033165 / 16777216) = 12582911 / 4194304 :=
    fl32_eval _ 1 12582911 _ (by rw [abs_of_nonneg (by norm_num)]; norm_num)
      (by rw [abs_of_nonneg (by norm_num)]; norm_num) (by norm_num)
      (by rw [abs_lt]; norm_num) (by norm_num)
  rw [ha, hb, hc, hs]

/-- C19 as stated fails: with two layers whose pixels all have the channel value
3 and the `float` depth `0.1f` (13421773 / 2^27, in `[0, N-1]`), the lower layer is
0, the upper layer is 1, the weight is `0.1f`, the value computed in binary32 is
12582911 / 2^22, below 3, and the channel written is 2, which does not lie
between the two channel values 3 and 3. -/
theorem blend_channel_below_both :
    ∃ out, create_composite_image_from_depth_map [rowImage 3 3, rowImage 3 3]
        (constDepth 1 2 (13421773 / 134217728)) true = some out ∧
      (0 : ℚ) ≤ 13421773 / 134217728 ∧
      (13421773 / 134217728 : ℚ) ≤ (([rowImage 3 3, rowImage 3 3] : List Image).length : ℚ) - 1 ∧
      fl32 (13421773 / 134217728) = 13421773 / 134217728 ∧
      layerAt [rowImage 3 3, rowImage 3 3] (clamp ⌊(13421773 / 134217728 : ℚ)⌋ 0 1) =
        some (rowImage 3 3) ∧
      layerAt [rowImage 3 3, rowImage 3 3] (clamp ⌈(13421773 / 134217728 : ℚ)⌉ 0 1) =
        some (rowImage 3 3) ∧
      ((rowImage 3 3).atRC 0 0 0).val = 3 ∧
      blendValue (fl32 ((13421773 / 134217728 : ℚ) -
          fl32 ((clamp ⌊(13421773 / 134217728 : ℚ)⌋ 0 1 : Int) : ℚ)))
        ((rowImage 3 3).atRC 0 0 0) ((rowImage 3 3).atRC 0 0 0) = 12582911 / 4194304 ∧
      (out.atRC 0 0 0).val = 2 ∧
      ¬ (min ((rowImage 3 3).atRC 0 0 0).val ((rowImage 3 3).atRC 0 0 0).val ≤
        (out.atRC 0 0 0).val) := by
  have hfloor : ⌊(13421773 / 134217728 : ℚ)⌋ = 0 := by
    rw [Int.floor_eq_iff]; norm_num
  have hceil : ⌈(13421773 / 134217728 : ℚ)⌉ = 1 := by
    rw [Int.ceil_eq_iff]; norm_num
  have hlow : clamp ⌊(13421773 / 134217728 : ℚ)⌋ 0 1 = 0 := by rw [hfloor]; rfl
  have hup : clamp ⌈(13421773 / 134217728 : ℚ)⌉ 0 1 = 1 := by rw [hceil]; rfl
  have hl : layerAt [rowImage 3 3, rowImage 3 3] 0 = some (rowImage 3 3) := rfl
  have hu : layerAt [rowImage 3 3, rowImage 3 3] 1 = some (rowImage 3 3) := rfl
  have h3 : ((rowImage 3 3).atRC 0 0 0).val = 3 := rfl
  have hweight : fl32 ((13421773 / 134217728 : ℚ) -
      fl32 ((clamp ⌊(13421773 / 134217728 : ℚ)⌋ 0 1 : Int) : ℚ)) = 13421773 / 134217728 := by
    rw [hlow, Int.cast_zero, fl32_zero, sub_zero, fl32_tenth]
  have hblend : blendValue (fl32 ((13421773 / 134217728 : ℚ) -
          fl32 ((clamp ⌊(13421773 / 134217728 : ℚ)⌋ 0 1 : Int) : ℚ)))
        ((rowImage 3 3).atRC 0 0 0) ((rowImage 3 3).atRC 0 0 0) = 12582911 / 4194304 := by
    rw [hweight]
    exact blendValue_tenth _ _ h3 h3
  obtain ⟨out, hout, -, -, hpix⟩ := composite_blend_spec [rowImage 3 3, rowImage 3 3]
    (constDepth 1 2 (13421773 / 134217728)) (by simp)
    (dims_pair_const 3 3 3 3 (13421773 / 134217728))
  obtain ⟨lowerImage, upperImage, hlower, hupper, hval⟩ := hpix 0 0 (by decide) (by decide)
  have hlower2 : layerAt [rowImage 3 3, rowImage 3 3]
      (clamp ⌊(13421773 / 134217728 : ℚ)⌋ 0 1) = some lowerImage := hlower
  have hupper2 : layerAt [rowImage 3 3, rowImage 3 3]
      (clamp ⌈(13421773 / 134217728 : ℚ)⌉ 0 1) = some upperImage := hupper
  rw [hlow, hl] at hlower2
  rw [hup, hu] at hupper2
  cases hlower2
  cases hupper2
  have h0 : out.atRC 0 0 0 = static_cast_uchar_float (blendValue
      (fl32 ((13421773 / 134217728 : ℚ) -
        fl32 ((clamp ⌊(13421773 / 134217728 : ℚ)⌋ 0 1 : Int) : ℚ)))
      ((rowImage 3 3).atRC 0 0 0) ((rowImage 3 3).atRC 0 0 0)) := hval 0
  have hstored : (out.atRC 0 0 0).val = 2 := by
    have h : ((out.atRC 0 0 0).val : Int) = 2 := by
      rw [h0, hblend, static_cast_uchar_float_val _ (by norm_num) (by norm_num),
        Int.floor_eq_iff]
      norm_num
    exact_mod_cast h
  refine ⟨out, hout, by norm_num, by norm_num, fl32_tenth, by rw [hlow, hl], by rw [hup, hu],
    h3, hblend, hstored, ?_⟩
  rw [hstored, h3]
  decide

theorem passesRatioTest_iff (knnMatch : List DMatch) :
    passesRatioTest knnMatch = true ↔
      2 ≤ knnMatch.length ∧
        ∃ best second, knnMatch[0]? = some best ∧ knnMatch[1]? = some second ∧
          best.distance < fl32 (3 / 4 * second.distance) := by
  match knnMatch with
  | [] => simp [passesRatioTest]
  | [m0] => simp [passesRatioTest]
  | m0 :: m1 :: tail => simp [passesRatioTest, ratioThresh]

/-- C18, amended: the loop over the 2-nearest-neighbour results keeps, in their
original order, the best candidates of exactly those results that hold at least
two candidates and whose best distance is strictly less than the `float` product
of 0.75 and the second-best distance, which is the product rounded to binary32.
When the exact product is at most `2^k` in absolute value (`k ≥ -126`), a best
distance below the exact product minus `2^(k-24)` is accepted, and an accepted
best distance is below the exact product plus `2^(k-24)`. -/
theorem ratio_test_accepts (knnMatches : List (List DMatch)) :
    goodMatchesOf knnMatches = (knnMatches.filter passesRatioTest).filterMap List.head? ∧
      (∀ knnMatch ∈ knnMatches.filter passesRatioTest,
        ∃ best, knnMatch.head? = some best) ∧
      (∀ knnMatch : List DMatch,
        passesRatioTest knnMatch = true ↔
          2 ≤ knnMatch.length ∧
            ∃ best second, knnMatch[0]? = some best ∧ knnMatch[1]? = some second ∧
              best.distance < fl32 (3 / 4 * second.distance)) ∧
      ∀ (best second : DMatch) (tail : List DMatch) (k : Int), -126 ≤ k →
        |3 / 4 * second.distance| ≤ 2 ^ k →
        (best.distance < 3 / 4 * second.distance - 2 ^ (k - 24) →
          passesRatioTest (best :: second :: tail) = true) ∧
        (passesRatioTest (best :: second :: tail) = true →
          best.distance < 3 / 4 * second.distance + 2 ^ (k - 24)) := by
  refine ⟨goodMatchesOf_eq_filter knnMatches, ?_, passesRatioTest_iff, ?_⟩
  · intro knnMatch hmem
    have hpass := (List.mem_filter.mp hmem).2
    obtain ⟨-, best, -, hbest, -⟩ := (passesRatioTest_iff knnMatch).mp hpass
    exact ⟨best, by simpa [List.head?_eq_getElem?] using hbest⟩
  · intro best second tail k hk hbound
    have herr := abs_le.mp (abs_fl32_sub_le _ k hbound hk)
    have hiff : passesRatioTest (best :: second :: tail) = true ↔
        best.distance < fl32 (3 / 4 * second.distance) := by
      simp [passesRatioTest, ratioThresh]
    constructor
    · intro h
      rw [hiff]
      linarith [herr.1]
    · intro h
      rw [hiff] at h
      linarith [herr.2]

/-- Witness of C18 (amended): a best distance 1 against a second-best distance 2
is below the exact product 3/2 minus `2^-23` and is accepted. -/
theorem ratio_test_accepts_witness :
    passesRatioTest [⟨0, 0, 1⟩, ⟨0, 1, 2⟩] = true :=
  ((ratio_test_accepts []).2.2.2 ⟨0, 0, 1⟩ ⟨0, 1, 2⟩ [] 1 (by norm_num)
    (by rw [abs_of_nonneg (by norm_num)]; norm_num)).1 (by norm_num)

/-- C18 as stated fails: for the `float` distances `0.75 + 2^-22` of the best and
`1 + 3 * 2^-23` of the second-best candidate the best distance is strictly less
than 0.75 times the second-best distance, the `float` product is rounded down to
`0.75 + 2^-22`, and the match is not accepted. -/
theorem ratio_test_rejects_below_exact_product :
    (2 ≤ ([⟨0, 0, 3145729 / 4194304⟩, ⟨0, 1, 8388611 / 8388608⟩] : List DMatch).length) ∧
      fl32 (3145729 / 4194304) = 3145729 / 4194304 ∧
      fl32 (8388611 / 8388608) = 8388611 / 8388608 ∧
      (3145729 / 4194304 : ℚ) < 3 / 4 * (8388611 / 8388608) ∧
      fl32 (3 / 4 * (8388611 / 8388608)) = 3145729 / 4194304 ∧
      passesRatioTest [⟨0, 0, 3145729 / 4194304⟩, ⟨0, 1, 8388611 / 8388608⟩] = false ∧
      goodMatchesOf [[⟨0, 0, 3145729 / 4194304⟩, ⟨0, 1, 8388611 / 8388608⟩]] = [] := by
  have hd0 : fl32 (3145729 / 4194304) = 3145729 / 4194304 := by
    have h := roundToFormat_of_dyadic 24 (-126) 3145729 (-22) (by norm_num) (by norm_num)
    have e : ((3145729 : Int) : ℚ) * 2 ^ (-22 : Int) = 3145729 / 4194304 := by norm_num
    rw [e] at h
    exact h
  have hd1 : fl32 (8388611 / 8388608) = 8388611 / 8388608 := by
    have h := roundToFormat_of_dyadic 24 (-126) 8388611 (-23) (by norm_num) (by norm_num)
    have e : ((8388611 : Int) : ℚ) * 2 ^ (-23 : Int) = 8388611 / 8388608 := by norm_num
    rw [e] at h
    exact h
  have hprod : fl32 (3 / 4 * (8388611 / 8388608)) = 3145729 / 4194304 :=
    fl32_eval_tie _ (-1) 12582916 _ (by rw [abs_of_nonneg (by norm_num)]; norm_num)
      (by rw [abs_of_nonneg (by norm_num)]; norm_num) (by norm_num)
      (by norm_num) (by norm_num)
  have hpass : passesRatioTest
      [⟨0, 0, 3145729 / 4194304⟩, ⟨0, 1, 8388611 / 8388608⟩] = false := by
    simp [passesRatioTest, ratioThresh, hprod]
  refine ⟨by decide, hd0, hd1, by norm_num, hprod, hpass, ?_⟩
  rw [goodMatchesOf_eq_filter]
  simp [hpass]

end ImageProcessing

/-! ## Input widgets and settings: theorems -/

namespace OddSlider

/-- The expression `(v % 2 == 0) ? v + 1 : v` is odd, keeps a positive value
positive, keeps an odd value, and stays in the 32-bit range. -/
theorem ensure_odd_facts (v : Int) :
    Odd (if Int.tmod v 2 = 0 then v + 1 else v) ∧
      (0 < v → 0 < (if Int.tmod v 2 = 0 then v + 1 else v)) ∧
      (Odd v → (if Int.tmod v 2 = 0 then v + 1 else v) = v) ∧
      (-2147483648 ≤ v → v ≤ 2147483647 →
        -2147483648 ≤ (if Int.tmod v 2 = 0 then v + 1 else v) ∧
          (if Int.tmod v 2 = 0 then v + 1 else v) ≤ 2147483647) := by
  have hiff : Int.tmod v 2 = 0 ↔ v % 2 = 0 := by
    rw [← Int.dvd_iff_tmod_eq_zero, Int.dvd_iff_emod_eq_zero]
  by_cases h : Int.tmod v 2 = 0
  · have h2 : v % 2 = 0 := hiff.mp h
    simp only [h, if_true]
    refine ⟨?_, ?_, ?_, ?_⟩
    · rw [Int.odd_iff]; omega
    · intro hv; omega
    · intro hodd; rw [Int.odd_iff] at hodd; omega
    · intro h0 h1; omega
  · have h2 : ¬ v % 2 = 0 := fun hc => h (hiff.mpr hc)
    simp only [h, if_false]
    refine ⟨?_, ?_, ?_, ?_⟩
    · rw [Int.odd_iff]; omega
    · intro hv; exact hv
    · intro _; trivial
    · intro h0 h1; exact ⟨h0, h1⟩

/-- C17: the value `OddSlider::setValue` passes on, the value
`OddSpinBox::valueFromText` returns, the value `OddSpinBox::stepBy` sets and the
`oddValue` of the `MainWindow` handlers are odd for every integer input; a
positive input gives a positive result, an odd input is returned unchanged, and
a 32-bit input gives a 32-bit result. -/
theorem kernel_size_values_odd (value : Int) (base : String → Int) (text : String)
    (current singleStep steps : Int) :
    (Odd (OddSlider.setValue value) ∧ Odd (OddSpinBox.valueFromText base text) ∧
        Odd (OddSpinBox.stepBy current singleStep steps) ∧ Odd (MainWindow.oddValue value)) ∧
      ((0 < value → 0 < OddSlider.setValue value ∧ 0 < MainWindow.oddValue value) ∧
        (0 < base text → 0 < OddSpinBox.valueFromText base text) ∧
        (0 < current + steps * singleStep → 0 < OddSpinBox.stepBy current singleStep steps)) ∧
      ((Odd value → OddSlider.setValue value = value ∧ MainWindow.oddValue value = value) ∧
        (Odd (base text) → OddSpinBox.valueFromText base text = base text) ∧
        (Odd (current + steps * singleStep) →
          OddSpinBox.stepBy current singleStep steps = current + steps * singleStep)) ∧
      (-2147483648 ≤ value → value ≤ 2147483647 →
        -2147483648 ≤ OddSlider.setValue value ∧ OddSlider.setValue value ≤ 2147483647 ∧
          -2147483648 ≤ MainWindow.oddValue value ∧ MainWindow.oddValue value ≤ 2147483647) := by
  obtain ⟨a1, a2, a3, a4⟩ := ensure_odd_facts value
  obtain ⟨b1, b2, b3, -⟩ := ensure_odd_facts (base text)
  obtain ⟨c1, c2, c3, -⟩ := ensure_odd_facts (current + steps * singleStep)
  exact ⟨⟨a1, b1, c1, a1⟩, ⟨fun h => ⟨a2 h, a2 h⟩, b2, c2⟩, ⟨fun h => ⟨a3 h, a3 h⟩, b3, c3⟩,
    fun h0 h1 => ⟨(a4 h0 h1).1, (a4 h0 h1).2, (a4 h0 h1).1, (a4 h0 h1).2⟩⟩

end OddSlider

namespace Settings

theorem lessThanChars_asymm (a b : List Char) (h : lessThanChars a b = true) :
    lessThanChars b a = false := by
  induction a generalizing b with
  | nil =>
    cases b with
    | nil => rfl
    | cons y ys => rfl
  | cons x xs ih =>
    cases b with
    | nil => simp [lessThanChars] at h
    | cons y ys =>
      simp only [lessThanChars, Bool.or_eq_true, Bool.and_eq_true, decide_eq_true_eq] at h
      simp only [lessThanChars, Bool.or_eq_false_iff, Bool.and_eq_false_imp,
        decide_eq_false_iff_not, decide_eq_true_eq]
      rcases h with h | ⟨heq, h⟩
      · exact ⟨by omega, fun h2 => by omega⟩
      · exact ⟨by omega, fun _ => ih ys h⟩

theorem set_append (acc : QMap) (name : String) (value : QVariant)
    (h : ∀ entry ∈ acc, lessThan entry.1 name = true) :
    QMap.set acc name value = acc ++ [(name, value)] := by
  induction acc with
  | nil => rfl
  | cons head rest ih =>
    obtain ⟨key, old⟩ := head
    have hk : lessThan key name = true := h (key, old) (List.mem_cons_self _ _)
    have hn : lessThan name key = false := lessThanChars_asymm _ _ hk
    simp only [QMap.set, hn, hk, if_true, Bool.false_eq_true, if_false, List.cons_append]
    rw [ih (fun entry he => h entry (List.mem_cons_of_mem _ he))]

/-- Assigning the entries of an ascending list in their order to a map whose
keys are all smaller appends them. -/
theorem foldl_set_sorted (entries acc : QMap) (h : isQMap (acc ++ entries)) :
    entries.foldl (fun m entry => QMap.set m entry.1 entry.2) acc = acc ++ entries := by
  induction entries generalizing acc with
  | nil => simp
  | cons entry rest ih =>
    unfold isQMap at h
    rw [List.foldl_cons, set_append acc entry.1 entry.2]
    · rw [ih]
      · simp
      · unfold isQMap
        simpa using h
    · intro e he
      rw [List.pairwise_append] at h
      exact h.2.2 e he entry (List.mem_cons_self _ _)

theorem readInt32_write (v : Int) (rest : List Nat) (h0 : -2 ^ 31 ≤ v) (h1 : v < 2 ^ 31) :
    readInt32 (writeInt32 v ++ rest) = (v, rest) := by
  simp only [writeInt32, readInt32, List.cons_append, List.nil_append]
  have hu : ((v % 2 ^ 32).toNat : Int) = v % 2 ^ 32 :=
    Int.toNat_of_nonneg (Int.emod_nonneg _ (by norm_num))
  have hlt : v % 2 ^ 32 < 2 ^ 32 := Int.emod_lt_of_pos _ (by norm_num)
  generalize (v % 2 ^ 32).toNat = u at hu ⊢
  norm_num at h0 h1 hu hlt ⊢
  have hsum : u / 16777216 % 256 * 16777216 + u / 65536 % 256 * 65536 + u / 256 % 256 * 256 +
      u % 256 = u := by omega
  rw [hsum]
  split_ifs with hc <;> omega

theorem readDouble_write (bits : Nat) (rest : List Nat) (h : bits < 2 ^ 64) :
    readDouble (writeDouble bits ++ rest) = (bits, rest) := by
  simp only [writeDouble, readDouble, List.cons_append, List.nil_append]
  norm_num at h ⊢
  omega

theorem readRawData_append (a b : List Nat) :
    readRawData (a ++ b) a.length = some (a, b) := by
  simp [readRawData]

/-- One iteration of the loop of `Settings::load` on the bytes of one entry in
the record format assigns that entry. -/
theorem loadLoop_entry (ops : QStringOps) (entry : String × QVariant) (count : Nat)
    (tail : List Nat) (acc : QMap)
    (hlen : (ops.toUtf8 entry.1).length < 256)
    (hvalue : match entry.2 with
      | QVariant.int value => -2 ^ 31 ≤ value ∧ value < 2 ^ 31
      | QVariant.bool _ => True
      | QVariant.double bits => bits < 2 ^ 64
      | _ => False)
    (hname : ops.fromUtf8 (ops.toUtf8 entry.1) = entry.1) :
    loadLoop ops (count + 1) (saveEntry ops entry ++ tail) acc =
      loadLoop ops count tail (QMap.set acc entry.1 entry.2) := by
  obtain ⟨name, value⟩ := entry
  simp only at hlen hvalue hname
  have hmod : (ops.toUtf8 name).length % 256 = (ops.toUtf8 name).length := Nat.mod_eq_of_lt hlen
  cases value with
  | invalid => exact hvalue.elim
  | other typeName => exact hvalue.elim
  | int v =>
    simp only [loadLoop, saveEntry, writeUInt8, hmod, List.cons_append, List.nil_append,
      List.append_assoc, readUInt8, readRawData_append, hname]
    simp [readInt32_write v tail hvalue.1 hvalue.2]
  | bool b =>
    simp only [loadLoop, saveEntry, writeUInt8, hmod, List.cons_append, List.nil_append,
      List.append_assoc, readUInt8, readRawData_append, hname]
    cases b <;> simp [readBool, readUInt8, writeBool]
  | double bits =>
    simp only [loadLoop, saveEntry, writeUInt8, hmod, List.cons_append, List.nil_append,
      List.append_assoc, readUInt8, readRawData_append, hname]
    simp [readDouble_write bits tail hvalue]

theorem loadLoop_save (ops : QStringOps) (entries : QMap) (tail : List Nat) (acc : QMap)
    (hformat : ∀ entry ∈ entries, (ops.toUtf8 entry.1).length < 256 ∧
      match entry.2 with
      | QVariant.int value => -2 ^ 31 ≤ value ∧ value < 2 ^ 31
      | QVariant.bool _ => True
      | QVariant.double bits => bits < 2 ^ 64
      | _ => False)
    (hnames : ∀ entry ∈ entries, ops.fromUtf8 (ops.toUtf8 entry.1) = entry.1) :
    loadLoop ops entries.length ((entries.map (saveEntry ops)).flatten ++ tail) acc =
      some (entries.foldl (fun m entry => QMap.set m entry.1 entry.2) acc) := by
  induction entries generalizing acc with
  | nil => rfl
  | cons entry rest ih =>
    rw [List.map_cons, List.flatten_cons, List.append_assoc, List.length_cons,
      loadLoop_entry ops entry rest.length _ acc
        (hformat entry (List.mem_cons_self _ _)).1 (hformat entry (List.mem_cons_self _ _)).2
        (hnames entry (List.mem_cons_self _ _)),
      ih _ (fun e he => hformat e (List.mem_cons_of_mem _ he))
        (fun e he => hnames e (List.mem_cons_of_mem _ he))]
    rfl

/-- C16: for a map with ascending keys that `Settings::save` writes in the record
format, with string functions that decode the names and the header letters,
`Settings::load` on the written bytes returns the saved map and leaves `ok` as it
was. -/
theorem load_save_roundtrip (ops : QStringOps) (pad : Nat) (parameters : QMap) (ok : Bool)
    (hmap : isQMap parameters)
    (hformat : inRecordFormat ops parameters)
    (hutf8 : utf8Contract ops parameters) :
    load ops (save ops pad true parameters) ok = some (parameters, ok) := by
  obtain ⟨hcount, hentries⟩ := hformat
  obtain ⟨hheader, hnames⟩ := hutf8
  have hloop := loadLoop_save ops parameters [] [] hentries hnames
  rw [List.append_nil, foldl_set_sorted parameters [] (by simpa using hmap),
    List.nil_append] at hloop
  have hc : parameters.length / 256 % 256 * 256 + parameters.length % 256 =
      parameters.length := by omega
  simp only [save, load, headerBytes, writeUInt16, readRawData, readUInt16, Bool.not_true,
    Bool.false_eq_true, if_false, List.cons_append, List.nil_append, List.length_cons]
  simp [hheader, hc, hloop]

/-- Witness of C16: the five parameters of the main window. -/
theorem load_save_roundtrip_witness :
    isQMap sampleParams ∧ inRecordFormat asciiOps sampleParams ∧
      utf8Contract asciiOps sampleParams ∧
      load asciiOps (save asciiOps 0 true sampleParams) false = some (sampleParams, false) :=
  have hmap : isQMap sampleParams := by
    unfold isQMap sampleParams
    decide
  have hformat : inRecordFormat asciiOps sampleParams := by
    unfold inRecordFormat sampleParams
    refine ⟨by decide, ?_⟩
    intro entry hentry
    simp only [List.mem_cons, List.mem_singleton, List.not_mem_nil, or_false] at hentry
    rcases hentry with rfl | rfl | rfl | rfl | rfl <;>
      exact ⟨by decide, by norm_num⟩
  have hutf8 : utf8Contract asciiOps sampleParams := by
    unfold utf8Contract sampleParams
    refine ⟨by decide, ?_⟩
    intro entry hentry
    simp only [List.mem_cons, List.mem_singleton, List.not_mem_nil, or_false] at hentry
    rcases hentry with rfl | rfl | rfl | rfl | rfl <;> decide
  ⟨hmap, hformat, hutf8, load_save_roundtrip asciiOps 0 sampleParams false hmap hformat hutf8⟩

end Settings
